import Mathlib

/-!
# bedlamb: a shallow embedding of `main.go`

`main.go` builds an API-Gateway proxy event from command-line flags, marshals
it to JSON, invokes a Lambda function with it and prints the response.

Modelling conventions.

* A Go `string` / `[]byte` is a `List Char`: the sequence of code points of a
  well-formed UTF-8 text.  All separators the program looks for (`,`, `:`,
  `=`, JSON punctuation) are ASCII, so splitting on them by byte or by code
  point is the same thing.
* A Go `map[string]string` is an association list without duplicate keys, in
  order of first insertion; `GoMap.get` is the lookup.
* The standard-library functions the program calls (`strings.TrimSpace`,
  `strings.SplitSeq`, `strings.SplitN`, `strings.ToUpper`, `json.Marshal`,
  `json.Indent`) are transcribed from their Go implementation; the scanner of
  `encoding/json` is transcribed state by state, with its nesting limit.  The
  Unicode case table behind `strings.ToUpper` is a parameter.
* The outside world (flag parsing by `pflag`, the UUID generator, the AWS
  configuration loader and the Lambda `Invoke` call) is a parameter of `run`,
  which is `main` after `pflag.Parse()`.

The first part of the file holds the definitions: the program, the library
functions, and the notions the statements need (well-formed flag strings, JSON
texts as trees and their pretty-printed form).  The second part holds the
theorems.
-/

set_option maxRecDepth 100000

namespace Bedlamb

/-! ## Strings -/

/-- Go's `unicode.IsSpace`: the code points with the Unicode White_Space property. -/
def isSpace (c : Char) : Bool :=
  let n := c.toNat
  (9 ≤ n && n ≤ 13) || n == 0x20 || n == 0x85 || n == 0xA0 || n == 0x1680 ||
  (0x2000 ≤ n && n ≤ 0x200A) || n == 0x2028 || n == 0x2029 || n == 0x202F ||
  n == 0x205F || n == 0x3000

/-- Go's `strings.TrimSpace`: drop leading and trailing white space. -/
def TrimSpace (s : List Char) : List Char :=
  (s.dropWhile isSpace).rdropWhile isSpace

/-- Go's `strings.SplitSeq(s, sep)` for a one-character separator: all the
substrings of `s` between occurrences of `sep` (one more than the number of
occurrences). -/
def SplitSeq (s : List Char) (sep : Char) : List (List Char) :=
  s.splitOn sep

/-- Go's `strings.SplitN(s, sep, 2)` for a one-character separator: `[s]` when
`sep` does not occur in `s`, otherwise the text before the first `sep` and the
text after it. -/
def SplitN2 (s : List Char) (sep : Char) : List (List Char) :=
  if sep ∈ s then
    [s.takeWhile (fun c => c != sep), (s.dropWhile (fun c => c != sep)).tail]
  else [s]

/-! ## Maps -/

/-- A Go `map[string]string`: keys are unique, kept in order of first insertion. -/
abbrev GoMap := List (List Char × List Char)

/-- The assignment `m[k] = v`. -/
def GoMap.set : GoMap → List Char → List Char → GoMap
  | [], k, v => [(k, v)]
  | (k', v') :: m, k, v => if k' = k then (k, v) :: m else (k', v') :: GoMap.set m k v

/-- The lookup `m[k]` (with the "comma ok" result as an `Option`). -/
def GoMap.get : GoMap → List Char → Option (List Char)
  | [], _ => none
  | (k', v') :: m, k => if k' = k then some v' else GoMap.get m k

/-! ## Header and query parsing (`main.go` lines 76-96) -/

/-- The body of the loop of lines 79-84 (and 90-95): trim the piece, split it
at the first separator, and store the trimmed key and value when the split
gave two parts. -/
def parseEntry (sep : Char) (m : GoMap) (pair : List Char) : GoMap :=
  let parts := SplitN2 (TrimSpace pair) sep
  match parts with
  | [k, v] => m.set (TrimSpace k) (TrimSpace v)
  | _ => m

/-- Lines 77-85 and 88-96: the map starts empty; when the flag is not the
empty string each comma-separated piece is handled by `parseEntry`. -/
def parsePairs (sep : Char) (s : List Char) : GoMap :=
  if s ≠ [] then (SplitSeq s ',').foldl (parseEntry sep) [] else []

/-- Lines 76-85: the header map of the `--headers` flag. -/
def parseHeaders (headers : List Char) : GoMap := parsePairs ':' headers

/-- Lines 87-96: the query map of the `--query` flag. -/
def parseQuery (query : List Char) : GoMap := parsePairs '=' query

/-! ## Well-formed flag strings, as the specification describes them -/

/-- Every character of `w` is white space. -/
def allSpace (w : List Char) : Bool := w.all isSpace

/-- The text `s` has no leading and no trailing white space. -/
def noEdgeSpace (s : List Char) : Bool :=
  s.head?.all (fun c => !isSpace c) && s.getLast?.all (fun c => !isSpace c)

/-- One `key<sep>value` piece of a flag string, with the white space written
around the piece (`padL`, `padR`), around the key (`keyL`, `keyR`) and around
the value (`valL`, `valR`). -/
structure PaddedPair where
  key : List Char
  val : List Char
  padL : List Char
  keyL : List Char
  keyR : List Char
  valL : List Char
  valR : List Char
  padR : List Char

/-- The text of a piece. -/
def PaddedPair.render (sep : Char) (e : PaddedPair) : List Char :=
  e.padL ++ (e.keyL ++ e.key ++ e.keyR) ++ [sep] ++ (e.valL ++ e.val ++ e.valR) ++ e.padR

/-- The conditions of the specification on one piece: the key contains
neither a comma nor the separator, the value contains no comma, neither has
white space at its ends, and the padding is white space. -/
def PaddedPair.WellFormed (sep : Char) (e : PaddedPair) : Prop :=
  ',' ∉ e.key ∧ sep ∉ e.key ∧ ',' ∉ e.val ∧
  noEdgeSpace e.key = true ∧ noEdgeSpace e.val = true ∧
  allSpace e.padL = true ∧ allSpace e.keyL = true ∧ allSpace e.keyR = true ∧
  allSpace e.valL = true ∧ allSpace e.valR = true ∧ allSpace e.padR = true

instance (sep : Char) (e : PaddedPair) : Decidable (e.WellFormed sep) := by
  unfold PaddedPair.WellFormed
  infer_instance

/-- The flag string made of the pieces, joined with commas. -/
def joinPairs (sep : Char) (es : List PaddedPair) : List Char :=
  [','].intercalate (es.map (PaddedPair.render sep))

/-- The pair a piece stands for. -/
def PaddedPair.kv (e : PaddedPair) : List Char × List Char := (e.key, e.val)

/-- Two padded header pieces: ` A\t: 1:x ` and `B:2`. -/
def examplePairs : List PaddedPair :=
  [ { key := "A".toList, val := "1:x".toList, padL := " ".toList, keyL := [],
      keyR := "\t".toList, valL := " ".toList, valR := [], padR := " ".toList },
    { key := "B".toList, val := "2".toList, padL := [], keyL := [], keyR := [],
      valL := [], valR := [], padR := [] } ]

/-! ## Upper-casing -/

/-- Go's `unicode.ToUpper`.  ASCII is handled by the code of the function
itself (`'a'..'z'` lose 32, every other ASCII character is unchanged); a
character above `unicode.MaxASCII` is looked up in the Unicode case tables,
which are the parameter `tbl`. -/
def unicodeToUpper (tbl : Char → Char) (c : Char) : Char :=
  if c.toNat ≤ 0x7F then
    if 'a'.toNat ≤ c.toNat ∧ c.toNat ≤ 'z'.toNat then Char.ofNat (c.toNat - 32) else c
  else tbl c

/-- Go's `strings.ToUpper`: every character mapped by `unicode.ToUpper`. -/
def ToUpper (tbl : Char → Char) (s : List Char) : List Char :=
  s.map (unicodeToUpper tbl)

/-- The text has only ASCII characters. -/
def isASCII (s : List Char) : Bool := s.all (fun c => c.toNat ≤ 0x7F)

/-! ## The event (`main.go` lines 21-39 and 98-113) -/

/-- Lines 34-39. -/
structure RequestContext where
  RequestID : List Char
  Stage : List Char
  HTTPMethod : List Char
  Path : List Char
deriving DecidableEq

/-- Lines 23-31. -/
structure APIGatewayProxyRequest where
  HTTPMethod : List Char
  Path : List Char
  QueryStringParameters : GoMap
  Headers : GoMap
  Body : List Char
  IsBase64Encoded : Bool
  RequestContext : RequestContext
deriving DecidableEq

/-- The command-line flags and positional arguments after `pflag.Parse()`
(lines 43-49 and 59). -/
structure Flags where
  method : List Char
  path : List Char
  headers : List Char
  data : List Char
  query : List Char
  verbose : Bool
  showVersion : Bool
  args : List (List Char)

/-- The flags with their default values (lines 43-49) and the given
positional arguments. -/
def Flags.defaults (args : List (List Char)) : Flags :=
  { method := "GET".toList, path := "/".toList, headers := [], data := [], query := [],
    verbose := false, showVersion := false, args := args }

/-- Line 99: `fmt.Sprintf("bedlamb-%s-%s", version, uuid.New().String())`. -/
def requestID (version uuid : List Char) : List Char :=
  "bedlamb-".toList ++ version ++ "-".toList ++ uuid

/-- Lines 76-113: the event built from the flags, the version and the UUID. -/
def buildRequest (tbl : Char → Char) (version uuid : List Char) (f : Flags) :
    APIGatewayProxyRequest :=
  let headerMap := parseHeaders f.headers
  let queryMap := parseQuery f.query
  { HTTPMethod := ToUpper tbl f.method
    Path := f.path
    Headers := headerMap
    QueryStringParameters := queryMap
    Body := f.data
    IsBase64Encoded := false
    RequestContext :=
      { RequestID := requestID version uuid
        Stage := "prod".toList
        HTTPMethod := ToUpper tbl f.method
        Path := f.path } }

/-! ## `json.Marshal` of the event -/

/-- The JSON values the event is made of. -/
inductive JValue where
  | str (s : List Char)
  | bool (b : Bool)
  | obj (fields : List (List Char × List Char))
deriving DecidableEq

/-- A JSON object: its members in the order they are written. -/
abbrev JObject := List (List Char × JValue)

/-- The names of the members of an object. -/
def JObject.names (o : JObject) : List (List Char) := o.map Prod.fst

/-- A map as `json.Marshal` writes it: the entries sorted by key. -/
def marshalMap (m : GoMap) : JValue :=
  .obj (m.insertionSort (fun a b => a.1 ≤ b.1))

/-- Lines 34-39: the four members of the request context, none optional. -/
def marshalContext (c : RequestContext) : JValue :=
  .obj [("requestId".toList, c.RequestID), ("stage".toList, c.Stage),
        ("httpMethod".toList, c.HTTPMethod), ("path".toList, c.Path)]

/-- The members `json.Marshal` writes for the event, from the struct tags of
lines 23-31: the fields in declaration order, and a field tagged `omitempty`
left out when it is empty (a map without entries, the empty string). -/
def marshalRequest (r : APIGatewayProxyRequest) : JObject :=
  [("httpMethod".toList, .str r.HTTPMethod), ("path".toList, .str r.Path)] ++
  (if r.QueryStringParameters.length = 0 then []
   else [("queryStringParameters".toList, marshalMap r.QueryStringParameters)]) ++
  (if r.Headers.length = 0 then [] else [("headers".toList, marshalMap r.Headers)]) ++
  (if r.Body.length = 0 then [] else [("body".toList, .str r.Body)]) ++
  [("isBase64Encoded".toList, .bool r.IsBase64Encoded),
   ("requestContext".toList, marshalContext r.RequestContext)]

/-- The hexadecimal digits `encoding/json` escapes with. -/
def hex (n : Nat) : Char := "0123456789abcdef".toList.getD n '0'

/-- One character of a string as `encoding/json` writes it (`appendString`
with HTML escaping on, the setting of `json.Marshal`): `"` and `\` get a
backslash, the control characters their short or `\u00XX` escape, and `<`,
`>`, `&`, U+2028 and U+2029 their `\uXXXX` escape. -/
def escapeChar (c : Char) : List Char :=
  let n := c.toNat
  if n < 0x80 then
    if 0x20 ≤ n ∧ c ≠ '"' ∧ c ≠ '\\' ∧ c ≠ '<' ∧ c ≠ '>' ∧ c ≠ '&' then [c]
    else if c = '\\' ∨ c = '"' then ['\\', c]
    else if n = 8 then ['\\', 'b']
    else if n = 12 then ['\\', 'f']
    else if c = '\n' then ['\\', 'n']
    else if c = '\r' then ['\\', 'r']
    else if c = '\t' then ['\\', 't']
    else ['\\', 'u', '0', '0', hex (n / 16), hex (n % 16)]
  else if n = 0x2028 ∨ n = 0x2029 then ['\\', 'u', '2', '0', '2', hex (n % 16)]
  else [c]

/-- A string literal as `encoding/json` writes it. -/
def appendString (s : List Char) : List Char :=
  ['"'] ++ (s.map escapeChar).flatten ++ ['"']

/-- A member `"name":"value"` of an object of strings. -/
def encodeMember (kv : List Char × List Char) : List Char :=
  appendString kv.1 ++ [':'] ++ appendString kv.2

/-- The text of a value. -/
def JValue.encode : JValue → List Char
  | .str s => appendString s
  | .bool b => if b then "true".toList else "false".toList
  | .obj fields => ['{'] ++ [','].intercalate (fields.map encodeMember) ++ ['}']

/-- The text of an object, without insignificant white space. -/
def JObject.encode (o : JObject) : List Char :=
  ['{'] ++ [','].intercalate (o.map (fun kv => appendString kv.1 ++ [':'] ++ kv.2.encode)) ++ ['}']

/-- Line 116: `json.Marshal(request)`.  It cannot fail for this type. -/
def Marshal (r : APIGatewayProxyRequest) : List Char :=
  (marshalRequest r).encode

/-! ## The JSON scanner of `encoding/json` (`scanner.go`) -/

/-- The values a scanner step returns. -/
inductive ScanCode where
  | scanContinue | scanBeginLiteral | scanBeginObject | scanObjectKey | scanObjectValue
  | scanEndObject | scanBeginArray | scanArrayValue | scanEndArray | scanSkipSpace
  | scanEnd | scanError
deriving DecidableEq, Repr

/-- The entries of the scanner's parse stack. -/
inductive ParseState where
  | parseObjectKey | parseObjectValue | parseArrayValue
deriving DecidableEq, Repr

/-- The step functions of the scanner, as values. -/
inductive Step where
  | stateBeginValueOrEmpty | stateBeginValue | stateBeginStringOrEmpty | stateBeginString
  | stateEndValue | stateEndTop
  | stateInString | stateInStringEsc | stateInStringEscU | stateInStringEscU1
  | stateInStringEscU12 | stateInStringEscU123
  | stateNeg | state1 | state0 | stateDot | stateDot0 | stateE | stateESign | stateE0
  | stateT | stateTr | stateTru | stateF | stateFa | stateFal | stateFals
  | stateN | stateNu | stateNul | stateError
deriving DecidableEq, Repr

/-- The scanner: the current step function, whether the top-level value has
ended, the parse stack (innermost entry first) and whether an error was
recorded (`err != nil`). -/
structure Scanner where
  step : Step
  endTop : Bool
  parseState : List ParseState
  err : Bool
deriving DecidableEq, Repr

open ScanCode ParseState Step

/-- The nesting limit of the scanner. -/
def maxNestingDepth : Nat := 10000

/-- The scanner after `reset()`. -/
def Scanner.reset : Scanner :=
  { step := Step.stateBeginValue, endTop := false, parseState := [], err := false }

/-- The white space of JSON: space, tab, carriage return, newline. -/
def isSpaceJSON (c : Char) : Bool :=
  c == ' ' || c == '\t' || c == '\r' || c == '\n'

/-- `s.error(c, context)`: record the error and stop. -/
def Scanner.error (s : Scanner) : Scanner × ScanCode :=
  ({ s with step := Step.stateError, err := true }, scanError)

/-- `s.pushParseState(c, newParseState, successState)`. -/
def Scanner.pushParseState (s : Scanner) (p : ParseState) (success : ScanCode) :
    Scanner × ScanCode :=
  let s' := { s with parseState := p :: s.parseState }
  if s'.parseState.length ≤ maxNestingDepth then (s', success) else s'.error

/-- `s.popParseState()`. -/
def Scanner.popParseState (s : Scanner) : Scanner :=
  let ps := s.parseState.tail
  if ps.length = 0 then { s with parseState := ps, step := Step.stateEndTop, endTop := true }
  else { s with parseState := ps, step := Step.stateEndValue }

/-- The state after the top-level value: only white space may follow. -/
def Scanner.stateEndTop (s : Scanner) (c : Char) : Scanner × ScanCode :=
  if !isSpaceJSON c then ((s.error).1, scanEnd) else (s, scanEnd)

/-- The state after a value: a comma, a colon or a closing bracket, depending
on the innermost entry of the parse stack. -/
def Scanner.stateEndValue (s : Scanner) (c : Char) : Scanner × ScanCode :=
  match s.parseState with
  | [] => Scanner.stateEndTop { s with step := Step.stateEndTop, endTop := true } c
  | ps :: rest =>
    if isSpaceJSON c then ({ s with step := Step.stateEndValue }, scanSkipSpace)
    else
      match ps with
      | parseObjectKey =>
        if c = ':' then
          ({ s with parseState := parseObjectValue :: rest, step := Step.stateBeginValue },
            scanObjectKey)
        else s.error
      | parseObjectValue =>
        if c = ',' then
          ({ s with parseState := parseObjectKey :: rest, step := Step.stateBeginString },
            scanObjectValue)
        else if c = '}' then (s.popParseState, scanEndObject)
        else s.error
      | parseArrayValue =>
        if c = ',' then ({ s with step := Step.stateBeginValue }, scanArrayValue)
        else if c = ']' then (s.popParseState, scanEndArray)
        else s.error

/-- The state at the beginning of an object key. -/
def Scanner.stateBeginString (s : Scanner) (c : Char) : Scanner × ScanCode :=
  if isSpaceJSON c then (s, scanSkipSpace)
  else if c = '"' then ({ s with step := Step.stateInString }, scanBeginLiteral)
  else s.error

/-- The state after `{`. -/
def Scanner.stateBeginStringOrEmpty (s : Scanner) (c : Char) : Scanner × ScanCode :=
  if isSpaceJSON c then (s, scanSkipSpace)
  else if c = '}' then
    Scanner.stateEndValue { s with parseState := parseObjectValue :: s.parseState.tail } c
  else s.stateBeginString c

/-- The state at the beginning of a value. -/
def Scanner.stateBeginValue (s : Scanner) (c : Char) : Scanner × ScanCode :=
  if isSpaceJSON c then (s, scanSkipSpace)
  else if c = '{' then
    Scanner.pushParseState { s with step := Step.stateBeginStringOrEmpty } parseObjectKey scanBeginObject
  else if c = '[' then
    Scanner.pushParseState { s with step := Step.stateBeginValueOrEmpty } parseArrayValue scanBeginArray
  else if c = '"' then ({ s with step := Step.stateInString }, scanBeginLiteral)
  else if c = '-' then ({ s with step := Step.stateNeg }, scanBeginLiteral)
  else if c = '0' then ({ s with step := Step.state0 }, scanBeginLiteral)
  else if c = 't' then ({ s with step := Step.stateT }, scanBeginLiteral)
  else if c = 'f' then ({ s with step := Step.stateF }, scanBeginLiteral)
  else if c = 'n' then ({ s with step := Step.stateN }, scanBeginLiteral)
  else if '1' ≤ c ∧ c ≤ '9' then ({ s with step := Step.state1 }, scanBeginLiteral)
  else s.error

/-- The state after `[`. -/
def Scanner.stateBeginValueOrEmpty (s : Scanner) (c : Char) : Scanner × ScanCode :=
  if isSpaceJSON c then (s, scanSkipSpace)
  else if c = ']' then s.stateEndValue c
  else s.stateBeginValue c

/-- `c` is a decimal digit. -/
def isDigit (c : Char) : Bool := decide ('0' ≤ c ∧ c ≤ '9')

/-- `c` is a hexadecimal digit. -/
def isHex (c : Char) : Bool :=
  decide ('0' ≤ c ∧ c ≤ '9') || decide ('a' ≤ c ∧ c ≤ 'f') || decide ('A' ≤ c ∧ c ≤ 'F')

/-- A state that accepts exactly the character `want` and goes to `next`. -/
def Scanner.expect (s : Scanner) (want : Char) (next : Step) (c : Char) : Scanner × ScanCode :=
  if c = want then ({ s with step := next }, scanContinue) else s.error

/-- The state inside a string literal. -/
def Scanner.stateInString (s : Scanner) (c : Char) : Scanner × ScanCode :=
  if c = '"' then ({ s with step := Step.stateEndValue }, scanContinue)
  else if c = '\\' then ({ s with step := Step.stateInStringEsc }, scanContinue)
  else if c.toNat < 0x20 then s.error
  else (s, scanContinue)

/-- The state after a backslash in a string literal. -/
def Scanner.stateInStringEsc (s : Scanner) (c : Char) : Scanner × ScanCode :=
  if c = 'b' ∨ c = 'f' ∨ c = 'n' ∨ c = 'r' ∨ c = 't' ∨ c = '\\' ∨ c = '/' ∨ c = '"' then
    ({ s with step := Step.stateInString }, scanContinue)
  else if c = 'u' then ({ s with step := Step.stateInStringEscU }, scanContinue)
  else s.error

/-- The four states after `\u`: a hexadecimal digit leads to `next`. -/
def Scanner.stateHex (s : Scanner) (next : Step) (c : Char) : Scanner × ScanCode :=
  if isHex c then ({ s with step := next }, scanContinue) else s.error

/-- The state after the `-` of a number. -/
def Scanner.stateNeg (s : Scanner) (c : Char) : Scanner × ScanCode :=
  if c = '0' then ({ s with step := Step.state0 }, scanContinue)
  else if '1' ≤ c ∧ c ≤ '9' then ({ s with step := Step.state1 }, scanContinue)
  else s.error

/-- The state after a leading `0` of a number. -/
def Scanner.state0 (s : Scanner) (c : Char) : Scanner × ScanCode :=
  if c = '.' then ({ s with step := Step.stateDot }, scanContinue)
  else if c = 'e' ∨ c = 'E' then ({ s with step := Step.stateE }, scanContinue)
  else s.stateEndValue c

/-- The state after a non-zero integer part of a number. -/
def Scanner.state1 (s : Scanner) (c : Char) : Scanner × ScanCode :=
  if isDigit c then ({ s with step := Step.state1 }, scanContinue) else s.state0 c

/-- The state after the decimal point of a number. -/
def Scanner.stateDot (s : Scanner) (c : Char) : Scanner × ScanCode :=
  if isDigit c then ({ s with step := Step.stateDot0 }, scanContinue) else s.error

/-- The state after a digit of the fraction of a number. -/
def Scanner.stateDot0 (s : Scanner) (c : Char) : Scanner × ScanCode :=
  if isDigit c then (s, scanContinue)
  else if c = 'e' ∨ c = 'E' then ({ s with step := Step.stateE }, scanContinue)
  else s.stateEndValue c

/-- The state after the sign of the exponent of a number. -/
def Scanner.stateESign (s : Scanner) (c : Char) : Scanner × ScanCode :=
  if isDigit c then ({ s with step := Step.stateE0 }, scanContinue) else s.error

/-- The state after the `e` of a number. -/
def Scanner.stateE (s : Scanner) (c : Char) : Scanner × ScanCode :=
  if c = '+' ∨ c = '-' then ({ s with step := Step.stateESign }, scanContinue)
  else s.stateESign c

/-- The state after a digit of the exponent of a number. -/
def Scanner.stateE0 (s : Scanner) (c : Char) : Scanner × ScanCode :=
  if isDigit c then (s, scanContinue) else s.stateEndValue c

/-- The call `s.step(s, c)`: the step function the scanner currently holds,
applied to the next character. -/
def Scanner.next (s : Scanner) (c : Char) : Scanner × ScanCode :=
  match s.step with
  | Step.stateBeginValueOrEmpty => s.stateBeginValueOrEmpty c
  | Step.stateBeginValue => s.stateBeginValue c
  | Step.stateBeginStringOrEmpty => s.stateBeginStringOrEmpty c
  | Step.stateBeginString => s.stateBeginString c
  | Step.stateEndValue => s.stateEndValue c
  | Step.stateEndTop => s.stateEndTop c
  | Step.stateInString => s.stateInString c
  | Step.stateInStringEsc => s.stateInStringEsc c
  | Step.stateInStringEscU => s.stateHex Step.stateInStringEscU1 c
  | Step.stateInStringEscU1 => s.stateHex Step.stateInStringEscU12 c
  | Step.stateInStringEscU12 => s.stateHex Step.stateInStringEscU123 c
  | Step.stateInStringEscU123 => s.stateHex Step.stateInString c
  | Step.stateNeg => s.stateNeg c
  | Step.state1 => s.state1 c
  | Step.state0 => s.state0 c
  | Step.stateDot => s.stateDot c
  | Step.stateDot0 => s.stateDot0 c
  | Step.stateE => s.stateE c
  | Step.stateESign => s.stateESign c
  | Step.stateE0 => s.stateE0 c
  | Step.stateT => s.expect 'r' Step.stateTr c
  | Step.stateTr => s.expect 'u' Step.stateTru c
  | Step.stateTru => s.expect 'e' Step.stateEndValue c
  | Step.stateF => s.expect 'a' Step.stateFa c
  | Step.stateFa => s.expect 'l' Step.stateFal c
  | Step.stateFal => s.expect 's' Step.stateFals c
  | Step.stateFals => s.expect 'e' Step.stateEndValue c
  | Step.stateN => s.expect 'u' Step.stateNu c
  | Step.stateNu => s.expect 'l' Step.stateNul c
  | Step.stateNul => s.expect 'l' Step.stateEndValue c
  | Step.stateError => (s, scanError)

/-- `s.eof()`: `true` when the input read so far is a complete JSON text
(`scanEnd`), `false` when it is not (`scanError`). -/
def Scanner.eof (s : Scanner) : Bool :=
  if s.err then false
  else if s.endTop then true
  else (s.next ' ').1.endTop

/-- The function `checkValid` behind `json.Valid`: no step may return
`scanError`, and the end of the input must be the end of a JSON text. -/
def checkValid : Scanner → List Char → Bool
  | s, [] => s.eof
  | s, c :: rest =>
    match s.next c with
    | (s', v) => if v = scanError then false else checkValid s' rest

/-- Go's `json.Valid`. -/
def Valid (data : List Char) : Bool := checkValid Scanner.reset data

/-! ## `json.Indent` and `json.Compact` (`indent.go`) -/

/-- The local variables of `appendIndent`: the scanner, `needIndent`, `depth`
and the output written so far. -/
structure Indenter where
  scan : Scanner
  needIndent : Bool
  depth : Int
  dst : List Char
deriving DecidableEq

/-- `appendNewline(dst, prefix, indent, depth)`: a newline, the prefix, and
`depth` copies of the indentation. -/
def appendNewline (dst pre indent : List Char) (depth : Int) : List Char :=
  dst ++ ['\n'] ++ pre ++ (List.replicate depth.toNat indent).flatten

/-- The part of the loop body of `appendIndent` after the scanner step, for a
step result `v` that is neither `scanSkipSpace` nor `scanError`. -/
def Indenter.emit (pre indent : List Char) (st : Indenter) (v : ScanCode) (c : Char) :
    Indenter :=
  let st :=
    if st.needIndent ∧ v ≠ scanEndObject ∧ v ≠ scanEndArray then
      { st with needIndent := false, depth := st.depth + 1,
                dst := appendNewline st.dst pre indent (st.depth + 1) }
    else st
  if v = scanContinue then { st with dst := st.dst ++ [c] }
  else if c = '{' ∨ c = '[' then { st with needIndent := true, dst := st.dst ++ [c] }
  else if c = ',' then { st with dst := appendNewline (st.dst ++ [c]) pre indent st.depth }
  else if c = ':' then { st with dst := st.dst ++ [c, ' '] }
  else if c = '}' ∨ c = ']' then
    if st.needIndent then { st with needIndent := false, dst := st.dst ++ [c] }
    else
      { st with depth := st.depth - 1,
                dst := appendNewline st.dst pre indent (st.depth - 1) ++ [c] }
  else { st with dst := st.dst ++ [c] }

/-- The loop of `appendIndent` over the input: white space the scanner skips is
not copied, an error ends the loop, everything else goes through `emit`. -/
def appendIndentLoop (pre indent : List Char) : Indenter → List Char → Indenter
  | st, [] => st
  | st, c :: rest =>
    match st.scan.next c with
    | (s, v) =>
      if v = scanSkipSpace then appendIndentLoop pre indent { st with scan := s } rest
      else if v = scanError then { st with scan := s }
      else appendIndentLoop pre indent (({ st with scan := s }).emit pre indent v c) rest

/-- Go's `json.Indent(&buf, src, prefix, indent)` into an empty buffer: the
indented text, or `none` when the function returns an error (the input is not
a JSON text). -/
def Indent (src pre indent : List Char) : Option (List Char) :=
  let st := appendIndentLoop pre indent
    { scan := Scanner.reset, needIndent := false, depth := 0, dst := [] } src
  if st.scan.eof then some st.dst else none

/-- The loop of `appendCompact` (without HTML escaping): the scanner after the
input and the characters kept, which are those whose step result is below
`scanSkipSpace`; an error ends the loop. -/
def compactLoop : Scanner → List Char → Scanner × List Char
  | s, [] => (s, [])
  | s, c :: rest =>
    match s.next c with
    | (s', v) =>
      if v = scanError then (s', [])
      else if v = scanSkipSpace ∨ v = scanEnd then compactLoop s' rest
      else ((compactLoop s' rest).1, c :: (compactLoop s' rest).2)

/-- Go's `json.Compact` into an empty buffer: the JSON text without its
insignificant white space, or `none` when the input is not a JSON text.  Two
JSON texts with the same compact form denote the same JSON value. -/
def Compact (src : List Char) : Option (List Char) :=
  let r := compactLoop Scanner.reset src
  if r.1.eof then some r.2 else none

/-! ## The program (`main.go` lines 41-173) -/

/-- The result of `client.Invoke` when it returns no error: the status code,
the function error if the function raised one, and the response payload. -/
structure InvokeOutput where
  StatusCode : Int
  FunctionError : Option (List Char)
  Payload : List Char

/-- Everything `main` takes from outside its own code: the `version`
variable (set at build time), `os.Args[0]`, the text `pflag.PrintDefaults()`
writes, the Unicode case table, the UUID drawn by `uuid.New()`, the text of
the error `json.Indent` returns for an input it rejects, the result of
`config.LoadDefaultConfig` (`none` on success, the error text otherwise) and
the result of `client.Invoke` for a function name and a payload (the error
text or the output). -/
structure World where
  version : List Char
  arg0 : List Char
  flagDefaults : List Char
  upperTable : Char → Char
  uuid : List Char
  indentError : List Char → List Char
  loadConfigError : Option (List Char)
  invoke : List Char → List Char → Except (List Char) InvokeOutput

/-- What a run of the program does: the text written to standard output and
to standard error, the exit code, and the `Invoke` call it made, if any (the
function name and the payload). -/
structure Outcome where
  stdout : List Char
  stderr : List Char
  exitCode : Nat
  invoked : Option (List Char × List Char)
deriving DecidableEq

/-- Lines 51-57: the usage text. -/
def usage (w : World) : List Char :=
  "Usage: ".toList ++ w.arg0 ++ " [options] <lambda-arn>\n\n".toList ++
  "Options:\n".toList ++ w.flagDefaults ++ "\nExample:\n".toList ++
  "  ".toList ++ w.arg0 ++
  " -X POST --path /api/users -d '\x7b\"name\":\"John\"\x7d' arn:aws:lambda:us-east-1:123456789012:function:my-function\n".toList

/-- Lines 68-72: what is written to standard error when the positional
argument is missing. -/
def usageError (w : World) : List Char :=
  "Error: Lambda ARN is required\n\n".toList ++ usage w

/-- Lines 129-133: the verbose trace before the invocation. -/
def verboseRequest (verbose : Bool) (lambdaARN prettyJSON : List Char) : List Char :=
  if verbose then
    "Lambda ARN: ".toList ++ lambdaARN ++ "\n".toList ++
    "Request payload:\n".toList ++ prettyJSON ++ "\n\n".toList ++
    "Invoking Lambda...\n\n".toList
  else []

/-- Lines 161-164: the verbose trace before the response. -/
def verboseResponse (verbose : Bool) (statusCode : Int) : List Char :=
  if verbose then
    "Status code: ".toList ++ (toString statusCode).toList ++ "\n".toList ++
    "Response:\n".toList
  else []

/-- Lines 166-172: the response as it is printed: indented with two spaces
when `json.Indent` accepts it, as it is otherwise; `fmt.Println` adds a
newline. -/
def formatResponse (payload : List Char) : List Char :=
  match Indent payload [] "  ".toList with
  | none => payload ++ ['\n']
  | some pretty => pretty ++ ['\n']

/-- Lines 135-172: the invocation and the handling of its result, after
`stderr` has been written. -/
def invokeAndPrint (w : World) (f : Flags) (lambdaARN payload stderr : List Char) : Outcome :=
  match w.loadConfigError with
  | some e =>
    { stdout := [], stderr := stderr ++ "Error loading AWS config: ".toList ++ e ++ ['\n'],
      exitCode := 1, invoked := none }
  | none =>
    match w.invoke lambdaARN payload with
    | .error e =>
      { stdout := [], stderr := stderr ++ "Error invoking Lambda: ".toList ++ e ++ ['\n'],
        exitCode := 1, invoked := some (lambdaARN, payload) }
    | .ok result =>
      match result.FunctionError with
      | some fe =>
        { stdout := [],
          stderr := stderr ++ "Lambda function error: ".toList ++ fe ++ ['\n'] ++
            "Response: ".toList ++ result.Payload ++ ['\n'],
          exitCode := 1, invoked := some (lambdaARN, payload) }
      | none =>
        { stdout := formatResponse result.Payload,
          stderr := stderr ++ verboseResponse f.verbose result.StatusCode,
          exitCode := 0, invoked := some (lambdaARN, payload) }

/-- The function `main` (lines 41-173) after `pflag.Parse()`. -/
def run (w : World) (f : Flags) : Outcome :=
  if f.showVersion then
    { stdout := w.version ++ ['\n'], stderr := [], exitCode := 0, invoked := none }
  else
    match f.args with
    | [] => { stdout := [], stderr := usageError w, exitCode := 1, invoked := none }
    | lambdaARN :: _ =>
      let request := buildRequest w.upperTable w.version w.uuid f
      let payload := Marshal request
      match Indent payload [] "  ".toList with
      | none =>
        { stdout := [],
          stderr := "Error formatting JSON: ".toList ++ w.indentError payload ++ ['\n'],
          exitCode := 1, invoked := none }
      | some prettyJSON =>
        invokeAndPrint w f lambdaARN payload (verboseRequest f.verbose lambdaARN prettyJSON)

/-! ## Example inputs -/

/-- A response that is not JSON. -/
def plainResponse : InvokeOutput :=
  { StatusCode := 200, FunctionError := none, Payload := "plain text".toList }

/-- A response with a function error. -/
def failedResponse : InvokeOutput :=
  { StatusCode := 200, FunctionError := some "Unhandled".toList,
    Payload := "\x7b\"errorMessage\":\"boom\"\x7d".toList }

/-- A world in which the configuration loads and the function named `plain`
answers `plain text`, the function named `fail` raises an error, the function
named `down` cannot be reached, and every other function answers
`{"ok":true}`. -/
def exampleWorld : World :=
  { version := "dev".toList
    arg0 := "bedlamb".toList
    flagDefaults := []
    upperTable := fun c => c
    uuid := "123e4567-e89b-42d3-a456-426614174000".toList
    indentError := fun _ => "invalid".toList
    loadConfigError := none
    invoke := fun name _ =>
      if name = "plain".toList then .ok plainResponse
      else if name = "fail".toList then .ok failedResponse
      else if name = "down".toList then .error "timeout".toList
      else .ok { StatusCode := 200, FunctionError := none, Payload := "\x7b\"ok\":true\x7d".toList } }

/-- The seven member names the specification lists for the payload. -/
def allMemberNames : List (List Char) :=
  ["httpMethod".toList, "path".toList, "queryStringParameters".toList, "headers".toList,
   "body".toList, "isBase64Encoded".toList, "requestContext".toList]

/-- The member names of the request context. -/
def contextMemberNames : List (List Char) :=
  ["requestId".toList, "stage".toList, "httpMethod".toList, "path".toList]

/-- A part of the Unicode upper-case table: the Latin-1 letters `à`..`þ`
(without `÷`) map to `À`..`Þ`, `ÿ` maps to `Ÿ`, every other character maps to
itself. -/
def latin1Upper (c : Char) : Char :=
  if 0xE0 ≤ c.toNat ∧ c.toNat ≤ 0xFE ∧ c.toNat ≠ 0xF7 then Char.ofNat (c.toNat - 32)
  else if c.toNat = 0xFF then Char.ofNat 0x178
  else c

/-! ## Predicates used to reason about the scanner -/

/-- The scanner holds `stateError` only with an error recorded. -/
def Scanner.WF (s : Scanner) : Prop := s.step = Step.stateError → s.err = true

/-- A step result is sound: `scanError` comes with a recorded error and leaves
the scanner in `stateError`, and the new scanner holds `stateError` only with
an error recorded. -/
def GoodStep (r : Scanner × ScanCode) : Prop :=
  (r.2 = scanError → r.1.err = true ∧ r.1.step = Step.stateError) ∧ r.1.WF

/-- The scanner after the loop `for _, c := range src` that `checkValid`,
`appendIndent` and `appendCompact` share: it stops at the first `scanError`. -/
def scanAll : Scanner → List Char → Scanner
  | s, [] => s
  | s, c :: rest =>
    match s.next c with
    | (s', v) => if v = scanError then s' else scanAll s' rest

/-- The step functions in which white space is skipped and the scanner stays
as it is: the states that wait for the beginning of a value or of a key. -/
def Step.skips : Step → Bool
  | stateBeginValueOrEmpty | stateBeginValue | stateBeginStringOrEmpty | stateBeginString => true
  | _ => false

/-- The step functions in which a number may end. -/
def Step.numEnd : Step → Bool
  | state1 | state0 | stateDot0 | stateE0 => true
  | _ => false

/-- The step functions right after an opening bracket. -/
def Step.orEmpty : Step → Bool
  | stateBeginValueOrEmpty | stateBeginStringOrEmpty => true
  | _ => false

/-- The six punctuation characters `appendIndent` adds white space around. -/
def isPunct (c : Char) : Bool :=
  c == '{' || c == '[' || c == ',' || c == ':' || c == '}' || c == ']'

/-- What a step result `v` tells about the scanner `s` before the step, the
character `c` and the scanner `s'` after it, when no error is recorded. -/
def StepKind (s : Scanner) (c : Char) (s' : Scanner) : ScanCode → Prop
  | scanContinue => s.step.skips = false ∧ s.step ≠ Step.stateEndValue
  | scanBeginLiteral => s.step.skips = true ∧ isPunct c = false
  | scanBeginObject => s.step.skips = true ∧ c = '{' ∧ s'.step = Step.stateBeginStringOrEmpty
  | scanBeginArray => s.step.skips = true ∧ c = '[' ∧ s'.step = Step.stateBeginValueOrEmpty
  | scanObjectKey => c = ':' ∧ (s.step = Step.stateEndValue ∨ s.step.numEnd = true) ∧
      s.parseState ≠ [] ∧ s'.step.skips = true ∧ s.stateEndValue c = (s', scanObjectKey)
  | scanObjectValue => c = ',' ∧ (s.step = Step.stateEndValue ∨ s.step.numEnd = true) ∧
      s.parseState ≠ [] ∧ s'.step.skips = true ∧ s.stateEndValue c = (s', scanObjectValue)
  | scanArrayValue => c = ',' ∧ (s.step = Step.stateEndValue ∨ s.step.numEnd = true) ∧
      s.parseState ≠ [] ∧ s'.step.skips = true ∧ s.stateEndValue c = (s', scanArrayValue)
  | scanEndObject => c = '}' ∧ (s.step.orEmpty = true ∨
      ((s.step = Step.stateEndValue ∨ s.step.numEnd = true) ∧ s.parseState ≠ [] ∧
        s.stateEndValue c = (s', scanEndObject)))
  | scanEndArray => c = ']' ∧ (s.step.orEmpty = true ∨
      ((s.step = Step.stateEndValue ∨ s.step.numEnd = true) ∧ s.parseState ≠ [] ∧
        s.stateEndValue c = (s', scanEndArray)))
  | scanSkipSpace => isSpaceJSON c = true ∧
      (((s.step.skips = true ∨ (s.step = Step.stateEndValue ∧ s.parseState ≠ [])) ∧ s' = s) ∨
       (s.step.numEnd = true ∧ s.parseState ≠ [] ∧ s' = { s with step := Step.stateEndValue }))
  | scanEnd => isSpaceJSON c = true ∧ s.step.skips = false ∧
      (s.step = Step.stateEndValue → s.parseState = [])
  | scanError => s' = s

/-- A step result either records an error or is described by `StepKind`. -/
def StepOK (s : Scanner) (c : Char) (r : Scanner × ScanCode) : Prop :=
  r.1.err = true ∨ StepKind s c r.1 r.2

/-- Every character of `w` is JSON white space. -/
def allSpaceJSON (w : List Char) : Bool := w.all isSpaceJSON

/-- The text `appendNewline` adds to the output. -/
def newlineText (pre indent : List Char) (depth : Int) : List Char :=
  ['\n'] ++ pre ++ (List.replicate depth.toNat indent).flatten

/-- The scanner `t` reads the white space `w` without keeping a character and
becomes `t'`. -/
def Absorbs (t : Scanner) (w : List Char) (t' : Scanner) : Prop :=
  ∀ rest, compactLoop t (w ++ rest) = compactLoop t' rest

/-- The relation between the scanner `s` of `appendIndent` after a part of the
input and a scanner `t` that has read the output written for that part: they
are equal, or `s` has skipped white space after a number that `t` has not
seen, so that `t` is still in the number. -/
def SimScan (s t : Scanner) : Prop :=
  t = s ∨ (s.step = Step.stateEndValue ∧ s.parseState ≠ [] ∧
    ∃ st : Step, st.numEnd = true ∧ t = { s with step := st })

/-- The invariant of the loop of `appendIndent`: `SimScan`, and an indentation
is pending only right after an opening bracket. -/
def SimInv (st : Indenter) (t : Scanner) : Prop :=
  SimScan st.scan t ∧ (st.needIndent = true → st.scan.step.orEmpty = true)

/-- The pending newline and indentation `emit` writes before a token that is
not a closing bracket. -/
def pendingText (pre indent : List Char) (st : Indenter) : List Char :=
  if st.needIndent = true then newlineText pre indent (st.depth + 1) else []

/-- The newline and indentation `emit` writes before a closing bracket. -/
def closingText (pre indent : List Char) (st : Indenter) : List Char :=
  if st.needIndent = true then [] else newlineText pre indent (st.depth - 1)

/-- The step result has an error recorded. -/
def Failed (r : Scanner × ScanCode) : Prop := r.1.err = true

/-! ## JSON texts as trees, and their pretty-printed form -/

/-- The state after the first character of a scalar (a string, a number,
`true`, `false` or `null`), `none` when no scalar starts with `c`. -/
def tokenStart (c : Char) : Option Step :=
  if c = '"' then some Step.stateInString
  else if c = '-' then some Step.stateNeg
  else if c = '0' then some Step.state0
  else if c = 't' then some Step.stateT
  else if c = 'f' then some Step.stateF
  else if c = 'n' then some Step.stateN
  else if '1' ≤ c ∧ c ≤ '9' then some Step.state1
  else none

/-- The automaton of the scalars of JSON: the state after one more character
of a scalar, `none` when the character cannot continue the scalar. -/
def tokenStep (st : Step) (c : Char) : Option Step :=
  match st with
  | Step.stateInString =>
    if c = '"' then some Step.stateEndValue
    else if c = '\\' then some Step.stateInStringEsc
    else if c.toNat < 0x20 then none
    else some Step.stateInString
  | Step.stateInStringEsc =>
    if c = 'b' ∨ c = 'f' ∨ c = 'n' ∨ c = 'r' ∨ c = 't' ∨ c = '\\' ∨ c = '/' ∨ c = '"' then
      some Step.stateInString
    else if c = 'u' then some Step.stateInStringEscU
    else none
  | Step.stateInStringEscU => if isHex c then some Step.stateInStringEscU1 else none
  | Step.stateInStringEscU1 => if isHex c then some Step.stateInStringEscU12 else none
  | Step.stateInStringEscU12 => if isHex c then some Step.stateInStringEscU123 else none
  | Step.stateInStringEscU123 => if isHex c then some Step.stateInString else none
  | Step.stateNeg =>
    if c = '0' then some Step.state0
    else if '1' ≤ c ∧ c ≤ '9' then some Step.state1
    else none
  | Step.state1 =>
    if isDigit c then some Step.state1
    else if c = '.' then some Step.stateDot
    else if c = 'e' ∨ c = 'E' then some Step.stateE
    else none
  | Step.state0 =>
    if c = '.' then some Step.stateDot
    else if c = 'e' ∨ c = 'E' then some Step.stateE
    else none
  | Step.stateDot => if isDigit c then some Step.stateDot0 else none
  | Step.stateDot0 =>
    if isDigit c then some Step.stateDot0
    else if c = 'e' ∨ c = 'E' then some Step.stateE
    else none
  | Step.stateE =>
    if c = '+' ∨ c = '-' then some Step.stateESign
    else if isDigit c then some Step.stateE0
    else none
  | Step.stateESign => if isDigit c then some Step.stateE0 else none
  | Step.stateE0 => if isDigit c then some Step.stateE0 else none
  | Step.stateT => if c = 'r' then some Step.stateTr else none
  | Step.stateTr => if c = 'u' then some Step.stateTru else none
  | Step.stateTru => if c = 'e' then some Step.stateEndValue else none
  | Step.stateF => if c = 'a' then some Step.stateFa else none
  | Step.stateFa => if c = 'l' then some Step.stateFal else none
  | Step.stateFal => if c = 's' then some Step.stateFals else none
  | Step.stateFals => if c = 'e' then some Step.stateEndValue else none
  | Step.stateN => if c = 'u' then some Step.stateNu else none
  | Step.stateNu => if c = 'l' then some Step.stateNul else none
  | Step.stateNul => if c = 'l' then some Step.stateEndValue else none
  | _ => none

/-- The automaton run over the characters after the first one. -/
def tokenRun : Step → List Char → Option Step
  | st, [] => some st
  | st, c :: cs => (tokenStep st c).bind (fun st' => tokenRun st' cs)

/-- The state of the automaton after the whole text. -/
def tokenEnd : List Char → Option Step
  | [] => none
  | c :: cs => (tokenStart c).bind (fun st => tokenRun st cs)

/-- The text is a scalar of JSON: a string, a number, `true`, `false` or
`null`. -/
def isToken (tok : List Char) : Bool :=
  match tokenEnd tok with
  | some st => st == Step.stateEndValue || st.numEnd
  | none => false

/-- The text is a string of JSON. -/
def isStringToken (tok : List Char) : Bool :=
  tok.head? == some '"' && tokenEnd tok == some Step.stateEndValue
mutual
/-- A JSON value written as text: a scalar, an array or an object, with the
white space between its tokens (`ws` after the opening bracket). -/
inductive JSONText where
  | scalar (tok : List Char)
  | array (ws : List Char) (elems : Elements)
  | object (ws : List Char) (members : Members)
/-- The elements of an array: a value, the white space after it and, when more
elements follow, a comma and the white space after the comma. -/
inductive Elements where
  | nil
  | cons (v : JSONText) (ws₁ ws₂ : List Char) (rest : Elements)
/-- The members of an object: a key, the white space before and after the
colon, a value, the white space after it and, when more members follow, a
comma and the white space after the comma. -/
inductive Members where
  | nil
  | cons (key ws₁ ws₂ : List Char) (v : JSONText) (ws₃ ws₄ : List Char) (rest : Members)
end

/-- There is no element. -/
def Elements.isNil : Elements → Bool
  | .nil => true
  | .cons .. => false

/-- There is no member. -/
def Members.isNil : Members → Bool
  | .nil => true
  | .cons .. => false

mutual
/-- The text of a value, with its white space. -/
def JSONText.render : JSONText → List Char
  | .scalar tok => tok
  | .array ws es => '[' :: ws ++ es.render ++ [']']
  | .object ws ms => '{' :: ws ++ ms.render ++ ['}']
/-- The text of the elements of an array. -/
def Elements.render : Elements → List Char
  | .nil => []
  | .cons v ws₁ ws₂ rest =>
    v.render ++ ws₁ ++ (if rest.isNil then [] else ',' :: ws₂ ++ rest.render)
/-- The text of the members of an object. -/
def Members.render : Members → List Char
  | .nil => []
  | .cons key ws₁ ws₂ v ws₃ ws₄ rest =>
    key ++ ws₁ ++ ':' :: ws₂ ++ v.render ++ ws₃ ++
      (if rest.isNil then [] else ',' :: ws₄ ++ rest.render)
end

/-- A line break followed by two spaces for each of the `d` nesting levels. -/
def indentLine (d : Nat) : List Char := '\n' :: List.replicate (2 * d) ' '

mutual
/-- The value pretty-printed at nesting level `d`: a scalar as it is, `[]` and
`{}` for the empty array and object, and otherwise every element or member on
a line of its own, indented by two spaces more than the brackets around it,
with `: ` between a key and its value. -/
def JSONText.pretty : JSONText → Nat → List Char
  | .scalar tok, _ => tok
  | .array _ es, d =>
    if es.isNil then ['[', ']']
    else '[' :: indentLine (d + 1) ++ es.pretty (d + 1) ++ indentLine d ++ [']']
  | .object _ ms, d =>
    if ms.isNil then ['{', '}']
    else '{' :: indentLine (d + 1) ++ ms.pretty (d + 1) ++ indentLine d ++ ['}']
/-- The elements of an array pretty-printed at nesting level `d`. -/
def Elements.pretty : Elements → Nat → List Char
  | .nil, _ => []
  | .cons v _ _ rest, d =>
    v.pretty d ++ (if rest.isNil then [] else ',' :: indentLine d ++ rest.pretty d)
/-- The members of an object pretty-printed at nesting level `d`. -/
def Members.pretty : Members → Nat → List Char
  | .nil, _ => []
  | .cons key _ _ v _ _ rest, d =>
    key ++ ':' :: ' ' :: v.pretty d ++
      (if rest.isNil then [] else ',' :: indentLine d ++ rest.pretty d)
end

mutual
/-- The tree is a JSON text: its scalars are scalars of JSON, its keys are
strings, and its white space is white space. -/
def JSONText.wf : JSONText → Bool
  | .scalar tok => isToken tok
  | .array ws es => allSpaceJSON ws && es.wf
  | .object ws ms => allSpaceJSON ws && ms.wf
/-- The elements are JSON texts. -/
def Elements.wf : Elements → Bool
  | .nil => true
  | .cons v ws₁ ws₂ rest => v.wf && allSpaceJSON ws₁ && allSpaceJSON ws₂ && rest.wf
/-- The members are JSON texts with string keys. -/
def Members.wf : Members → Bool
  | .nil => true
  | .cons key ws₁ ws₂ v ws₃ ws₄ rest =>
    isStringToken key && allSpaceJSON ws₁ && allSpaceJSON ws₂ && v.wf &&
      allSpaceJSON ws₃ && allSpaceJSON ws₄ && rest.wf
end

mutual
/-- The number of brackets nested inside each other. -/
def JSONText.height : JSONText → Nat
  | .scalar _ => 0
  | .array _ es => es.height + 1
  | .object _ ms => ms.height + 1
/-- The largest height of an element. -/
def Elements.height : Elements → Nat
  | .nil => 0
  | .cons v _ _ rest => max v.height rest.height
/-- The largest height of a member. -/
def Members.height : Members → Nat
  | .nil => 0
  | .cons _ _ _ v _ _ rest => max v.height rest.height
end

/-- The loop of `appendIndent`, with the prefix and indentation `main` passes,
takes the state `st` over the text `a` to the state `st'`. -/
def Runs (st : Indenter) (a : List Char) (st' : Indenter) : Prop :=
  ∀ rest, appendIndentLoop [] "  ".toList st (a ++ rest) =
    appendIndentLoop [] "  ".toList st' rest
/-- The nesting level of the next token: one more when an indentation is
pending. -/
def bump (needIndent : Bool) (n : Nat) : Nat := if needIndent then n + 1 else n

/-- The pending line break, as `pretty` writes it. -/
def pendingLine (needIndent : Bool) (n : Nat) : List Char :=
  if needIndent then indentLine (n + 1) else []

/-- The scanner after a closing bracket, when `stack` is the parse stack
around the array or object. -/
def closedScanner (endTop : Bool) (stack : List ParseState) (err : Bool) : Scanner :=
  if stack.length = 0 then
    { step := Step.stateEndTop, endTop := true, parseState := stack, err := err }
  else { step := Step.stateEndValue, endTop := endTop, parseState := stack, err := err }

/-- The step function `st` may hold after a value. -/
def Step.ended (st : Step) : Prop := st = Step.stateEndValue ∨ st.numEnd = true

/-- The step function `st` waits for a value. -/
def Step.valuePos (st : Step) : Prop :=
  st = Step.stateBeginValue ∨ st = Step.stateBeginValueOrEmpty

/-- The step function `st` waits for a key. -/
def Step.keyPos (st : Step) : Prop :=
  st = Step.stateBeginString ∨ st = Step.stateBeginStringOrEmpty
/-- The scanners possible after a value that began with the parse stack
`stack`: the stack is as before and the scanner is at the end of a value, or
the value was the top-level array or object and the scanner is in
`stateEndTop`. -/
def ValueEnd (endTop : Bool) (stack : List ParseState) (s : Scanner) : Prop :=
  (∃ e : Step, e.ended ∧
    s = { step := e, endTop := endTop, parseState := stack, err := false }) ∨
  (stack = [] ∧
    s = { step := Step.stateEndTop, endTop := true, parseState := [], err := false })

/-! ## The texts the scanner accepts -/

/-- The scanner `s` reads the text `p` without error and finds, at its end,
the end of a JSON text: what `checkValid` tests, from the scanner `s` on. -/
def Accepts (s : Scanner) (p : List Char) : Prop := (scanAll s p).eof = true

/-- The step functions inside a scalar, after its first character. -/
def Step.inToken : Step → Bool
  | stateInString | stateInStringEsc | stateInStringEscU | stateInStringEscU1
  | stateInStringEscU12 | stateInStringEscU123
  | stateNeg | state1 | state0 | stateDot | stateDot0 | stateE | stateESign | stateE0
  | stateT | stateTr | stateTru | stateF | stateFa | stateFal | stateFals
  | stateN | stateNu | stateNul => true
  | _ => false

/-- The step functions inside a string. -/
def Step.inString : Step → Bool
  | stateInString | stateInStringEsc | stateInStringEscU | stateInStringEscU1
  | stateInStringEscU12 | stateInStringEscU123 => true
  | _ => false

/-- On inputs of at most `n` characters: a scanner that waits for a value and
accepts the input reads the text of a JSON value first, and is then at the end
of that value. -/
def ValueComplete (n : Nat) : Prop :=
  ∀ (p : List Char) (c : Char) (step : Step) (σ : List ParseState),
    (c :: p).length ≤ n → σ.length ≤ maxNestingDepth → step.valuePos → isSpaceJSON c = false →
    (step = Step.stateBeginValueOrEmpty → c ≠ ']') →
    Accepts (Scanner.mk step false σ false) (c :: p) →
    ∃ (t : JSONText) (p' : List Char) (s₁ : Scanner), t.wf = true ∧ c :: p = t.render ++ p' ∧
      σ.length + t.height ≤ maxNestingDepth ∧ ValueEnd false σ s₁ ∧
      (∀ c' r, p' = c' :: r → tokenStep s₁.step c' = none) ∧ p'.length ≤ p.length ∧
      scanAll (Scanner.mk step false σ false) (c :: p) = scanAll s₁ p'

/-- On inputs of at most `n` characters: a scanner that waits for an element
of an array and accepts the input reads the elements of the array and the
closing bracket. -/
def ElementsComplete (n : Nat) : Prop :=
  ∀ (p : List Char) (c : Char) (step : Step) (σ : List ParseState),
    (c :: p).length ≤ n → σ.length + 1 ≤ maxNestingDepth → step.valuePos →
    isSpaceJSON c = false → (step = Step.stateBeginValueOrEmpty → c ≠ ']') →
    Accepts (Scanner.mk step false (parseArrayValue :: σ) false) (c :: p) →
    ∃ (es : Elements) (p' : List Char), es.wf = true ∧ es.isNil = false ∧
      c :: p = es.render ++ ']' :: p' ∧ σ.length + 1 + es.height ≤ maxNestingDepth ∧
      p'.length ≤ p.length ∧
      scanAll (Scanner.mk step false (parseArrayValue :: σ) false) (c :: p) =
        scanAll (closedScanner false σ false) p'

/-- On inputs of at most `n` characters: a scanner that waits for a key of an
object and accepts the input reads the members of the object and the closing
bracket. -/
def MembersComplete (n : Nat) : Prop :=
  ∀ (p : List Char) (c : Char) (step : Step) (σ : List ParseState),
    (c :: p).length ≤ n → σ.length + 1 ≤ maxNestingDepth → step.keyPos →
    isSpaceJSON c = false → (step = Step.stateBeginStringOrEmpty → c ≠ '}') →
    Accepts (Scanner.mk step false (parseObjectKey :: σ) false) (c :: p) →
    ∃ (ms : Members) (p' : List Char), ms.wf = true ∧ ms.isNil = false ∧
      c :: p = ms.render ++ '}' :: p' ∧ σ.length + 1 + ms.height ≤ maxNestingDepth ∧
      p'.length ≤ p.length ∧
      scanAll (Scanner.mk step false (parseObjectKey :: σ) false) (c :: p) =
        scanAll (closedScanner false σ false) p'

/-! # Theorems -/

/-- The header string of the specification. -/
theorem parseHeaders_simple : parseHeaders "A:1,B:2".toList = [("A".toList, "1".toList), ("B".toList, "2".toList)] := by
  decide

/-- Padding, a colon in a value, an entry without colon and a repeated key. -/
theorem parseHeaders_mixed : parseHeaders " A : 1:2 , noColon,B:2,A:3".toList = [("A".toList, "3".toList), ("B".toList, "2".toList)] := by
  decide

/-! ## Lemmas on strings -/

theorem allSpace_iff (w : List Char) : allSpace w = true ↔ ∀ c ∈ w, isSpace c = true := by
  simp [allSpace]

theorem allSpace_append {a b : List Char} (ha : allSpace a = true) (hb : allSpace b = true) :
    allSpace (a ++ b) = true := by
  simp only [allSpace, List.all_append, Bool.and_eq_true] at *
  exact ⟨ha, hb⟩

theorem not_mem_of_allSpace {w : List Char} {x : Char} (hx : isSpace x = false)
    (hw : allSpace w = true) : x ∉ w := by
  intro h
  have := (allSpace_iff w).1 hw x h
  simp [hx] at this

theorem rdropWhile_append_of_pos {p : Char → Bool} {l w : List Char}
    (h : ∀ c ∈ w, p c = true) : (l ++ w).rdropWhile p = l.rdropWhile p := by
  unfold List.rdropWhile
  rw [List.reverse_append, List.dropWhile_append_of_pos]
  intro a ha
  exact h a (List.mem_reverse.1 ha)

/-- Trimming a padded text without white space at its ends gives the text back. -/
theorem TrimSpace_padded {a k b : List Char} (ha : allSpace a = true) (hb : allSpace b = true)
    (hk : noEdgeSpace k = true) : TrimSpace (a ++ k ++ b) = k := by
  have ha' := (allSpace_iff a).1 ha
  have hb' := (allSpace_iff b).1 hb
  unfold TrimSpace
  rw [List.append_assoc, List.dropWhile_append_of_pos ha']
  cases k with
  | nil =>
    simp only [List.nil_append]
    have : b.dropWhile isSpace = [] := by
      rw [List.dropWhile_eq_nil_iff]; exact hb'
    rw [this]; rfl
  | cons c k' =>
    simp only [noEdgeSpace, List.head?_cons, Option.all_some, Bool.and_eq_true,
      Bool.not_eq_true'] at hk
    have h1 : ((c :: k') ++ b).dropWhile isSpace = (c :: k') ++ b := by
      simp [List.dropWhile_cons, hk.1]
    rw [h1, rdropWhile_append_of_pos hb', List.rdropWhile_eq_self_iff]
    intro hl
    have h2 := hk.2
    rw [List.getLast?_eq_getLast _ hl] at h2
    simpa using h2

theorem SplitN2_of_not_mem {sep : Char} {s : List Char} (h : sep ∉ s) : SplitN2 s sep = [s] := by
  simp [SplitN2, h]

theorem takeWhile_ne_append {sep : Char} (k v : List Char) (h : sep ∉ k) :
    (k ++ sep :: v).takeWhile (fun c => c != sep) = k := by
  induction k with
  | nil => simp
  | cons c k ih =>
    simp only [List.mem_cons, not_or] at h
    have hc : (c != sep) = true := by simpa using fun e => h.1 e.symm
    simp [List.takeWhile_cons, hc, ih h.2]

theorem dropWhile_ne_append {sep : Char} (k v : List Char) (h : sep ∉ k) :
    (k ++ sep :: v).dropWhile (fun c => c != sep) = sep :: v := by
  induction k with
  | nil => simp
  | cons c k ih =>
    simp only [List.mem_cons, not_or] at h
    have hc : (c != sep) = true := by simpa using fun e => h.1 e.symm
    simp [List.dropWhile_cons, hc, ih h.2]

/-- `SplitN` with limit 2 cuts at the first separator only. -/
theorem SplitN2_append {sep : Char} (k v : List Char) (h : sep ∉ k) :
    SplitN2 (k ++ sep :: v) sep = [k, v] := by
  simp [SplitN2, takeWhile_ne_append k v h, dropWhile_ne_append k v h]

theorem dropWhile_append_sep {p : Char → Bool} {sep : Char} (hp : p sep = false)
    (x y : List Char) : (x ++ sep :: y).dropWhile p = x.dropWhile p ++ sep :: y := by
  induction x with
  | nil => simp [List.dropWhile_cons, hp]
  | cons c x ih =>
    by_cases hc : p c = true
    · simp [List.dropWhile_cons, hc, ih]
    · simp [List.dropWhile_cons, hc]

theorem rdropWhile_append_sep {p : Char → Bool} {sep : Char} (hp : p sep = false)
    (x y : List Char) : (x ++ sep :: y).rdropWhile p = x ++ sep :: y.rdropWhile p := by
  unfold List.rdropWhile
  have h : (x ++ sep :: y).reverse = y.reverse ++ sep :: x.reverse := by simp
  rw [h, dropWhile_append_sep hp]
  simp

theorem dropWhile_padded {a k b : List Char} (ha : allSpace a = true) (hb : allSpace b = true)
    (hk : noEdgeSpace k = true) :
    ∃ b', allSpace b' = true ∧ (a ++ k ++ b).dropWhile isSpace = k ++ b' := by
  have ha' := (allSpace_iff a).1 ha
  have hb' := (allSpace_iff b).1 hb
  rw [List.append_assoc, List.dropWhile_append_of_pos ha']
  cases k with
  | nil =>
    refine ⟨[], rfl, ?_⟩
    simp only [List.nil_append, List.append_nil]
    rw [List.dropWhile_eq_nil_iff]; exact hb'
  | cons c k' =>
    simp only [noEdgeSpace, List.head?_cons, Option.all_some, Bool.and_eq_true,
      Bool.not_eq_true'] at hk
    exact ⟨b, hb, by simp [List.dropWhile_cons, hk.1]⟩

theorem rdropWhile_padded {a k b : List Char} (ha : allSpace a = true) (hb : allSpace b = true)
    (hk : noEdgeSpace k = true) :
    ∃ a', allSpace a' = true ∧ (a ++ k ++ b).rdropWhile isSpace = a' ++ k := by
  have ha' := (allSpace_iff a).1 ha
  have hb' := (allSpace_iff b).1 hb
  rw [rdropWhile_append_of_pos hb']
  cases k with
  | nil =>
    refine ⟨[], rfl, ?_⟩
    simp only [List.nil_append, List.append_nil]
    unfold List.rdropWhile
    have : a.reverse.dropWhile isSpace = [] := by
      rw [List.dropWhile_eq_nil_iff]
      intro c hc; exact ha' c (List.mem_reverse.1 hc)
    rw [this]; rfl
  | cons c k' =>
    refine ⟨a, ha, ?_⟩
    rw [List.rdropWhile_eq_self_iff]
    intro hl
    have h2 : (c :: k').getLast?.all (fun c => !isSpace c) = true := by
      simp only [noEdgeSpace, Bool.and_eq_true] at hk
      exact hk.2
    rw [List.getLast_append_of_ne_nil (List.cons_ne_nil c k')]
    rw [List.getLast?_eq_getLast _ (List.cons_ne_nil c k')] at h2
    simpa using h2

/-- A well-formed piece stores its key and value. -/
theorem parseEntry_render {sep : Char} (hs : isSpace sep = false) (m : GoMap) (e : PaddedPair)
    (he : e.WellFormed sep) : parseEntry sep m (e.render sep) = m.set e.key e.val := by
  obtain ⟨_, hks, _, hk, hv, hpl, hkl, hkr, hvl, hvr, hpr⟩ := he
  obtain ⟨b', hb', hd⟩ := dropWhile_padded (allSpace_append hpl hkl) hkr hk
  obtain ⟨a', ha', hr⟩ := rdropWhile_padded hvl (allSpace_append hvr hpr) hv
  have hT : TrimSpace (e.render sep) = (e.key ++ b') ++ sep :: (a' ++ e.val) := by
    have h1 : e.render sep = (e.padL ++ e.keyL ++ e.key ++ e.keyR) ++
        sep :: (e.valL ++ e.val ++ (e.valR ++ e.padR)) := by
      simp [PaddedPair.render]
    rw [h1, TrimSpace, dropWhile_append_sep hs, hd]
    have h2 : e.key ++ b' ++ sep :: (e.valL ++ e.val ++ (e.valR ++ e.padR)) =
        (e.key ++ b') ++ sep :: (e.valL ++ e.val ++ (e.valR ++ e.padR)) := rfl
    rw [rdropWhile_append_sep hs, hr]
  have hmem : sep ∉ e.key ++ b' := by
    simp only [List.mem_append, not_or]
    exact ⟨hks, not_mem_of_allSpace hs hb'⟩
  have hk' : TrimSpace (e.key ++ b') = e.key := by
    have := TrimSpace_padded (a := []) (show allSpace [] = true from rfl) hb' hk
    simpa using this
  have hv' : TrimSpace (a' ++ e.val) = e.val := by
    have := TrimSpace_padded (b := []) ha' (show allSpace [] = true from rfl) hv
    simpa using this
  simp only [parseEntry, hT, SplitN2_append _ _ hmem, hk', hv']

/-- A piece without separator stores nothing. -/
theorem parseEntry_of_not_mem {sep : Char} (m : GoMap) {pair : List Char} (h : sep ∉ pair) :
    parseEntry sep m pair = m := by
  have h' : sep ∉ TrimSpace pair := by
    intro hc
    apply h
    have h1 := (List.rdropWhile_prefix isSpace (pair.dropWhile isSpace)).sublist
    exact (List.dropWhile_sublist _).subset (h1.subset hc)
  simp [parseEntry, SplitN2_of_not_mem h']

/-! ## Lemmas on maps and on the parsing loop -/

theorem GoMap.set_of_not_mem (m : GoMap) (k v : List Char) (h : k ∉ m.map Prod.fst) :
    m.set k v = m ++ [(k, v)] := by
  induction m with
  | nil => rfl
  | cons p m ih =>
    obtain ⟨k', v'⟩ := p
    simp only [List.map_cons, List.mem_cons, not_or] at h
    have hne : ¬ k' = k := fun e => h.1 e.symm
    simp [GoMap.set, hne, ih h.2]

theorem GoMap.get_eq_some_iff (m : GoMap) (hm : (m.map Prod.fst).Nodup) (k v : List Char) :
    m.get k = some v ↔ (k, v) ∈ m := by
  induction m with
  | nil => simp [GoMap.get]
  | cons p m ih =>
    obtain ⟨k', v'⟩ := p
    simp only [List.map_cons, List.nodup_cons] at hm
    by_cases hk : k' = k
    · subst hk
      simp only [GoMap.get, if_true, Option.some.injEq, List.mem_cons, Prod.mk.injEq, true_and]
      constructor
      · intro h; exact Or.inl h.symm
      · rintro (h | h)
        · exact h.symm
        · exact absurd (List.mem_map_of_mem Prod.fst h) hm.1
    · simp only [GoMap.get, hk, if_false, List.mem_cons, Prod.mk.injEq]
      rw [ih hm.2]
      constructor
      · intro h; exact Or.inr h
      · rintro (h | h)
        · exact absurd h.1.symm hk
        · exact h

theorem foldl_parseEntry_render {sep : Char} (hs : isSpace sep = false) (es : List PaddedPair)
    (acc : GoMap) (hwf : ∀ e ∈ es, e.WellFormed sep)
    (hnd : (acc.map Prod.fst ++ es.map PaddedPair.key).Nodup) :
    (es.map (PaddedPair.render sep)).foldl (parseEntry sep) acc = acc ++ es.map PaddedPair.kv := by
  induction es generalizing acc with
  | nil => simp
  | cons e es ih =>
    have hwe := hwf e (List.mem_cons_self e es)
    have hnot : e.key ∉ acc.map Prod.fst := by
      intro hmem
      have := List.disjoint_of_nodup_append hnd hmem
      exact this (by simp)
    simp only [List.map_cons, List.foldl_cons]
    rw [parseEntry_render hs acc e hwe, GoMap.set_of_not_mem acc _ _ hnot, ih]
    · simp [PaddedPair.kv]
    · intro e' he'; exact hwf e' (List.mem_cons_of_mem e he')
    · simpa [List.map_append] using hnd

theorem parsePairs_eq_foldl (sep : Char) (s : List Char) :
    parsePairs sep s = (SplitSeq s ',').foldl (parseEntry sep) [] := by
  unfold parsePairs
  split
  · rfl
  · rename_i h
    have hs : s = [] := by simpa using h
    subst hs
    rfl

theorem parsePairs_intercalate (sep : Char) (ps : List (List Char))
    (hps : ∀ l ∈ ps, ',' ∉ l) :
    parsePairs sep ([','].intercalate ps) = ps.foldl (parseEntry sep) [] := by
  cases ps with
  | nil => rfl
  | cons p ps =>
    rw [parsePairs_eq_foldl, SplitSeq, List.splitOn_intercalate _ ',' hps (List.cons_ne_nil p ps)]

theorem comma_not_mem_render {sep : Char} (hc : sep ≠ ',')
    (e : PaddedPair) (he : e.WellFormed sep) : ',' ∉ e.render sep := by
  obtain ⟨hkc, _, hvc, _, _, hpl, hkl, hkr, hvl, hvr, hpr⟩ := he
  have hcs : isSpace ',' = false := by decide
  have n := fun w (h : allSpace w = true) => not_mem_of_allSpace hcs h
  simp only [PaddedPair.render, List.mem_append, List.mem_singleton, not_or]
  exact ⟨⟨⟨⟨n _ hpl, ⟨n _ hkl, hkc⟩, n _ hkr⟩, fun h => hc h.symm⟩, ⟨n _ hvl, hvc⟩, n _ hvr⟩, n _ hpr⟩

theorem parsePairs_joinPairs (sep : Char) (hs : isSpace sep = false) (hc : sep ≠ ',')
    (es : List PaddedPair) (hkeys : (es.map PaddedPair.key).Nodup)
    (hwf : ∀ e ∈ es, e.WellFormed sep) :
    parsePairs sep (joinPairs sep es) = es.map PaddedPair.kv := by
  rw [joinPairs, parsePairs_intercalate, foldl_parseEntry_render hs es [] hwf (by simpa using hkeys)]
  · rfl
  · intro l hl
    obtain ⟨e, he, rfl⟩ := List.mem_map.1 hl
    exact comma_not_mem_render hc e (hwf e he)

theorem not_mem_of_mem_splitOn (x : Char) (s : List Char) : ∀ l ∈ s.splitOn x, x ∉ l := by
  unfold List.splitOn
  induction s with
  | nil => simp
  | cons c s ih =>
    rw [List.splitOnP_cons]
    split
    · intro l hl
      rcases List.mem_cons.1 hl with h | h
      · subst h; simp
      · exact ih l h
    · rename_i hcx
      have hcx' : x ≠ c := by
        intro e; apply hcx; simp [e]
      cases hsp : List.splitOnP (fun y => y == x) s with
      | nil => simp
      | cons a as =>
        rw [hsp] at ih
        intro l hl
        simp only [List.modifyHead_cons, List.mem_cons] at hl
        rcases hl with h | h
        · subst h
          simp only [List.mem_cons, not_or]
          exact ⟨hcx', ih a (List.mem_cons_self a as)⟩
        · exact ih l (List.mem_cons_of_mem a h)

theorem parsePairs_eraseIdx (sep : Char) (s : List Char) (i : Nat) (entry : List Char)
    (hi : (SplitSeq s ',')[i]? = some entry) (hno : sep ∉ entry) :
    parsePairs sep s = parsePairs sep ([','].intercalate ((SplitSeq s ',').eraseIdx i)) := by
  have hmem : ∀ l ∈ (SplitSeq s ',').eraseIdx i, ',' ∉ l := fun l hl =>
    not_mem_of_mem_splitOn ',' s l ((List.eraseIdx_sublist _ _).subset hl)
  rw [parsePairs_intercalate sep _ hmem, parsePairs_eq_foldl]
  clear hmem
  generalize SplitSeq s ',' = ps at hi
  generalize ([] : GoMap) = acc
  induction ps generalizing i acc with
  | nil => simp at hi
  | cons p ps ih =>
    cases i with
    | zero =>
      simp only [List.getElem?_cons_zero, Option.some.injEq] at hi
      subst hi
      simp [parseEntry_of_not_mem acc hno]
    | succ j =>
      simp only [List.getElem?_cons_succ] at hi
      simp only [List.eraseIdx_cons_succ, List.foldl_cons]
      exact ih j hi _

/-! ## C1 and C2: header and query parsing -/

/-- C1: for pieces `k_i<sep>v_i` with pairwise distinct keys, no comma and no
separator in a key, no comma in a value, no white space at the ends of keys and
values, and any amount of white space around each key, value and piece, the
header string (separator `:`) and the query string (separator `=`) made by
joining the pieces with commas parse to exactly the map `k_i -> v_i`: the map
holds the pairs in order, and looking a key up gives `v` exactly when `(k, v)`
is one of the pairs.  A value may contain the separator. -/
theorem parse_wellformed_pairs (es : List PaddedPair)
    (hkeys : (es.map PaddedPair.key).Nodup) :
    ((∀ e ∈ es, e.WellFormed ':') →
      parseHeaders (joinPairs ':' es) = es.map PaddedPair.kv ∧
      ∀ k v, (parseHeaders (joinPairs ':' es)).get k = some v ↔ (k, v) ∈ es.map PaddedPair.kv) ∧
    ((∀ e ∈ es, e.WellFormed '=') →
      parseQuery (joinPairs '=' es) = es.map PaddedPair.kv ∧
      ∀ k v, (parseQuery (joinPairs '=' es)).get k = some v ↔ (k, v) ∈ es.map PaddedPair.kv) := by
  have hnd : ((es.map PaddedPair.kv).map Prod.fst).Nodup := by
    simpa [List.map_map, Function.comp_def, PaddedPair.kv] using hkeys
  constructor
  · intro hwf
    have h := parsePairs_joinPairs ':' (by decide) (by decide) es hkeys hwf
    refine ⟨h, fun k v => ?_⟩
    rw [parseHeaders, h]
    exact GoMap.get_eq_some_iff _ hnd k v
  · intro hwf
    have h := parsePairs_joinPairs '=' (by decide) (by decide) es hkeys hwf
    refine ⟨h, fun k v => ?_⟩
    rw [parseQuery, h]
    exact GoMap.get_eq_some_iff _ hnd k v

/-- Witness of C1: the header string ` A\t: 1:x ,B:2`, whose first value contains a colon. -/
theorem parse_wellformed_pairs_witness :
    parseHeaders " A\t: 1:x ,B:2".toList = [("A".toList, "1:x".toList), ("B".toList, "2".toList)] :=
  ((parse_wellformed_pairs examplePairs (by decide)).1 (by decide)).1

/-- C2: in a header string (separator `:`) and in a query string (separator
`=`), a comma-separated entry without the separator is dropped: handling it
leaves every map unchanged (it adds no key), and the map parsed from the whole
string is the map parsed from the string with that entry removed.  Parsing is
a total function, it has no failure result. -/
theorem malformed_entry_dropped (s : List Char) (i : Nat) (entry : List Char)
    (hi : (SplitSeq s ',')[i]? = some entry) :
    (':' ∉ entry →
      (∀ m, parseEntry ':' m entry = m) ∧
      parseHeaders s = parseHeaders ([','].intercalate ((SplitSeq s ',').eraseIdx i))) ∧
    ('=' ∉ entry →
      (∀ m, parseEntry '=' m entry = m) ∧
      parseQuery s = parseQuery ([','].intercalate ((SplitSeq s ',').eraseIdx i))) :=
  ⟨fun h => ⟨fun m => parseEntry_of_not_mem m h, parsePairs_eraseIdx ':' s i entry hi h⟩,
   fun h => ⟨fun m => parseEntry_of_not_mem m h, parsePairs_eraseIdx '=' s i entry hi h⟩⟩

/-- Witness of C2: the entry `noColon` of `A:1,noColon,B:2` is dropped. -/
theorem malformed_entry_dropped_witness :
    parseHeaders "A:1,noColon,B:2".toList = parseHeaders "A:1,B:2".toList :=
  ((malformed_entry_dropped "A:1,noColon,B:2".toList 1 "noColon".toList (by decide)).1
    (by decide)).2

/-- The payload for a lower-case method and two headers, one with characters
that `json.Marshal` escapes. -/
theorem Marshal_headers : String.mk (Marshal (buildRequest id "dev".toList "u".toList
    { Flags.defaults ["f".toList] with headers := "b:<2>,A:1".toList, method := "get".toList })) =
    "\x7b\"httpMethod\":\"GET\",\"path\":\"/\",\"headers\":\x7b\"A\":\"1\",\"b\":\"\\u003c2\\u003e\"\x7d,\"isBase64Encoded\":false,\"requestContext\":\x7b\"requestId\":\"bedlamb-dev-u\",\"stage\":\"prod\",\"httpMethod\":\"GET\",\"path\":\"/\"\x7d\x7d" := by
  decide

/-- The example of the specification. -/
theorem Indent_ok : (Indent "\x7b\"ok\":true\x7d".toList [] "  ".toList).map String.mk =
    some "\x7b\n  \"ok\": true\n\x7d" := by decide

/-- Nested values, empty brackets, white space of the input and an escaped quote. -/
theorem Indent_nested : (Indent " \x7b\"a\" : [1, 2.5e3,\x7b\x7d, [\n] ,\"x y\\\"\"], \"b\":null\x7d\n".toList [] "  ".toList).map String.mk =
    some "\x7b\n  \"a\": [\n    1,\n    2.5e3,\n    \x7b\x7d,\n    [],\n    \"x y\\\"\"\n  ],\n  \"b\": null\n\x7d\n" := by decide

/-- A text that is not JSON. -/
theorem Indent_plain : Indent "plain text".toList [] "  ".toList = none := by decide

/-- The compact form of the nested example. -/
theorem Compact_nested : (Compact " \x7b\"a\" : [1, 2.5e3,\x7b\x7d, [\n] ,\"x y\\\"\"], \"b\":null\x7d\n".toList).map String.mk =
    some "\x7b\"a\":[1,2.5e3,\x7b\x7d,[],\"x y\\\"\"],\"b\":null\x7d" := by decide

/-! ## C3: the shape of the payload -/

/-- C3, as stated, fails: with the default flags (no headers, no query, no
body) the payload handed to `Invoke` has only the members `httpMethod`, `path`,
`isBase64Encoded` and `requestContext`; `headers`, `queryStringParameters` and
`body` are missing. -/
theorem payload_shape_counterexample :
    (run exampleWorld (Flags.defaults ["f".toList])).invoked =
      some ("f".toList, "\x7b\"httpMethod\":\"GET\",\"path\":\"/\",\"isBase64Encoded\":false,\"requestContext\":\x7b\"requestId\":\"bedlamb-dev-123e4567-e89b-42d3-a456-426614174000\",\"stage\":\"prod\",\"httpMethod\":\"GET\",\"path\":\"/\"\x7d\x7d".toList) ∧
    (marshalRequest (buildRequest exampleWorld.upperTable exampleWorld.version exampleWorld.uuid
      (Flags.defaults ["f".toList]))).names =
      ["httpMethod".toList, "path".toList, "isBase64Encoded".toList, "requestContext".toList] ∧
    (marshalRequest (buildRequest exampleWorld.upperTable exampleWorld.version exampleWorld.uuid
      (Flags.defaults ["f".toList]))).names ≠ allMemberNames := by
  decide

/-- C3, amended: for every combination of flags the payload is the JSON object
whose top-level members are, in this order, `httpMethod`, `path`,
`queryStringParameters` (only when the query map has an entry), `headers`
(only when the header map has an entry), `body` (only when the body is not
empty), `isBase64Encoded` and `requestContext`; `requestContext` is an object
with exactly the members `requestId`, `stage`, `httpMethod` and `path`; and
when the program invokes the function, the payload it hands over is the text of
this object. -/
theorem payload_shape (w : World) (f : Flags) :
    (marshalRequest (buildRequest w.upperTable w.version w.uuid f)).names =
      ["httpMethod".toList, "path".toList] ++
      (if parseQuery f.query = [] then [] else ["queryStringParameters".toList]) ++
      (if parseHeaders f.headers = [] then [] else ["headers".toList]) ++
      (if f.data = [] then [] else ["body".toList]) ++
      ["isBase64Encoded".toList, "requestContext".toList] ∧
    (∃ fields, (marshalRequest (buildRequest w.upperTable w.version w.uuid f)).lookup
        "requestContext".toList = some (JValue.obj fields) ∧
      fields.map Prod.fst = contextMemberNames) ∧
    ((run w f).invoked = none ∨ ∃ name, (run w f).invoked =
      some (name, (marshalRequest (buildRequest w.upperTable w.version w.uuid f)).encode)) := by
  refine ⟨?_, ?_, ?_⟩
  · simp only [marshalRequest, buildRequest, JObject.names, List.length_eq_zero]
    split_ifs <;> rfl
  · refine ⟨[("requestId".toList, requestID w.version w.uuid), ("stage".toList, "prod".toList),
      ("httpMethod".toList, ToUpper w.upperTable f.method), ("path".toList, f.path)], ?_, rfl⟩
    simp only [marshalRequest, buildRequest]
    split_ifs <;> rfl
  · unfold run
    split_ifs
    · exact Or.inl rfl
    · split
      · exact Or.inl rfl
      · rename_i arn rest _
        simp only []
        split
        · exact Or.inl rfl
        · unfold invokeAndPrint
          split
          · exact Or.inl rfl
          · split
            · exact Or.inr ⟨arn, rfl⟩
            · split <;> exact Or.inr ⟨arn, rfl⟩

/-! ## C6: the method is upper-cased in both places -/

theorem unicodeToUpper_lower (tbl : Char → Char) (n : Nat) (h1 : 97 ≤ n) (h2 : n ≤ 122) :
    unicodeToUpper tbl (unicodeToUpper tbl (Char.ofNat n)) = unicodeToUpper tbl (Char.ofNat n) := by
  interval_cases n <;> rfl

theorem unicodeToUpper_ascii (tbl : Char → Char) (c : Char) (h : c.toNat ≤ 0x7F) :
    unicodeToUpper tbl (unicodeToUpper tbl c) = unicodeToUpper tbl c := by
  by_cases hl : 'a'.toNat ≤ c.toNat ∧ c.toNat ≤ 'z'.toNat
  · have := unicodeToUpper_lower tbl c.toNat hl.1 hl.2
    rwa [Char.ofNat_toNat] at this
  · have : unicodeToUpper tbl c = c := by
      unfold unicodeToUpper
      rw [if_pos h, if_neg hl]
    rw [this, this]

theorem ToUpper_idem_of_rune (tbl : Char → Char)
    (h : ∀ c, unicodeToUpper tbl (unicodeToUpper tbl c) = unicodeToUpper tbl c) (s : List Char) :
    ToUpper tbl (ToUpper tbl s) = ToUpper tbl s := by
  simp [ToUpper, List.map_map, Function.comp_def, h]

theorem ToUpper_idem_of_ascii (tbl : Char → Char) (s : List Char) (h : isASCII s = true) :
    ToUpper tbl (ToUpper tbl s) = ToUpper tbl s := by
  simp only [isASCII, List.all_eq_true, decide_eq_true_eq] at h
  simp only [ToUpper, List.map_map]
  apply List.map_congr_left
  intro c hc
  exact unicodeToUpper_ascii tbl c (h c hc)

/-- C6: for every method flag `m`, the top-level `HTTPMethod` and the
`HTTPMethod` of the request context are both the upper-cased `m`, hence equal
to each other; `get` gives `GET`; and upper-casing is idempotent: for an ASCII
method without any assumption, and for every method when the Unicode case
table (a parameter of the model) is idempotent on single characters. -/
theorem method_upper_cased (tbl : Char → Char) (version uuid : List Char) (f : Flags) :
    (buildRequest tbl version uuid f).HTTPMethod = ToUpper tbl f.method ∧
    (buildRequest tbl version uuid f).RequestContext.HTTPMethod = ToUpper tbl f.method ∧
    ToUpper tbl "get".toList = "GET".toList ∧
    (isASCII f.method = true → ToUpper tbl (ToUpper tbl f.method) = ToUpper tbl f.method) ∧
    ((∀ c, unicodeToUpper tbl (unicodeToUpper tbl c) = unicodeToUpper tbl c) →
      ToUpper tbl (ToUpper tbl f.method) = ToUpper tbl f.method) :=
  ⟨rfl, rfl, rfl, ToUpper_idem_of_ascii tbl f.method, fun h => ToUpper_idem_of_rune tbl h f.method⟩

theorem latin1Upper_idem (c : Char) :
    unicodeToUpper latin1Upper (unicodeToUpper latin1Upper c) = unicodeToUpper latin1Upper c := by
  by_cases h : c.toNat ≤ 0x7F
  · exact unicodeToUpper_ascii _ c h
  · by_cases h1 : 0xE0 ≤ c.toNat ∧ c.toNat ≤ 0xFF ∧ c.toNat ≠ 0xF7
    · have key : ∀ n, 0xE0 ≤ n → n ≤ 0xFF → n ≠ 0xF7 →
          unicodeToUpper latin1Upper (unicodeToUpper latin1Upper (Char.ofNat n)) =
            unicodeToUpper latin1Upper (Char.ofNat n) := by
        intro n h2 h3 h4
        interval_cases n <;> rfl
      have := key c.toNat h1.1 h1.2.1 h1.2.2
      rwa [Char.ofNat_toNat] at this
    · have : unicodeToUpper latin1Upper c = c := by
        unfold unicodeToUpper latin1Upper
        rw [if_neg h, if_neg (by omega), if_neg (by omega)]
      rw [this, this]

/-- Witness of C6: the method `é-get` with the Latin-1 part of the case table. -/
theorem method_upper_cased_witness :
    ToUpper latin1Upper (ToUpper latin1Upper "é-get".toList) = "É-GET".toList :=
  (method_upper_cased latin1Upper [] [] { Flags.defaults [] with method := "é-get".toList }).2.2.2.2
    latin1Upper_idem

/-! ## C7 and C8: `--version` and the missing positional argument -/

/-- C7: when `--version` is set, whatever the other flags and the positional
arguments are, the program writes the version and a newline to standard
output, nothing to standard error, makes no invocation and exits with code 0. -/
theorem version_short_circuit (w : World) (f : Flags) (h : f.showVersion = true) :
    run w f = { stdout := w.version ++ ['\n'], stderr := [], exitCode := 0, invoked := none } := by
  simp [run, h]

/-- Witness of C7: `--version` without positional argument and with a header flag. -/
theorem version_short_circuit_witness :
    run exampleWorld { Flags.defaults [] with showVersion := true, headers := "A:1".toList } =
      { stdout := "dev\n".toList, stderr := [], exitCode := 0, invoked := none } :=
  version_short_circuit exampleWorld _ rfl

theorem usageError_take (w : World) :
    (usageError w).take 6 = ['E', 'r', 'r', 'o', 'r', ':'] := rfl

theorem invokeAndPrint_ne_usage (w : World) (f : Flags) (arn payload pretty : List Char) :
    invokeAndPrint w f arn payload (verboseRequest f.verbose arn pretty) ≠
      { stdout := [], stderr := usageError w, exitCode := 1, invoked := none } := by
  intro h
  unfold invokeAndPrint at h
  split at h
  · rename_i e _
    have h1 := congrArg (fun o => o.stderr.take 6) h
    simp only [usageError_take] at h1
    cases hv : f.verbose
    · rw [hv] at h1
      exact absurd h1 (by
        change ['E', 'r', 'r', 'o', 'r', ' '] ≠ _
        decide)
    · rw [hv] at h1
      exact absurd h1 (by
        change ['L', 'a', 'm', 'b', 'd', 'a'] ≠ _
        decide)
  · split at h
    · exact absurd (congrArg Outcome.invoked h) (by simp)
    · split at h <;> exact absurd (congrArg Outcome.invoked h) (by simp)

/-- C8: when `--version` is not set and no positional argument is given,
whatever the other flags are, the program exits with code 1, writes the error
line and the usage text to standard error, nothing to standard output, and
makes no invocation; and with `--version` not set this outcome happens only
when the positional argument is absent. -/
theorem missing_target_usage_error (w : World) (f : Flags) (hv : f.showVersion = false) :
    run w f = { stdout := [], stderr := usageError w, exitCode := 1, invoked := none } ↔
      f.args = [] := by
  constructor
  · intro h
    unfold run at h
    rw [if_neg (by simp [hv])] at h
    split at h
    · assumption
    · exfalso
      simp only [] at h
      split at h
      · have h1 := congrArg (fun o => o.stderr.take 6) h
        simp only [usageError_take] at h1
        exact absurd h1 (by
          change ['E', 'r', 'r', 'o', 'r', ' '] ≠ _
          decide)
      · exact invokeAndPrint_ne_usage w f _ _ _ h
  · intro h
    simp [run, hv, h]

/-- Witness of C8: no positional argument, a method and a body given. -/
theorem missing_target_usage_error_witness :
    run exampleWorld { Flags.defaults [] with method := "post".toList, data := "x".toList } =
      { stdout := [], stderr := usageError exampleWorld, exitCode := 1, invoked := none } :=
  (missing_target_usage_error exampleWorld _ rfl).2 rfl

/-! ## C9: the result of the invocation -/

theorem run_eq_invokeAndPrint (w : World) (f : Flags) (arn : List Char) (rest : List (List Char))
    (pretty : List Char) (hv : f.showVersion = false) (ha : f.args = arn :: rest)
    (hp : Indent (Marshal (buildRequest w.upperTable w.version w.uuid f)) [] "  ".toList =
      some pretty) :
    run w f = invokeAndPrint w f arn (Marshal (buildRequest w.upperTable w.version w.uuid f))
      (verboseRequest f.verbose arn pretty) := by
  unfold run
  rw [if_neg (by simp [hv])]
  simp only [ha, hp]

theorem invokeAndPrint_invoked (w : World) (f : Flags) (arn payload pre : List Char)
    (p : List Char × List Char) (h : (invokeAndPrint w f arn payload pre).invoked = some p) :
    p = (arn, payload) ∧ w.loadConfigError = none := by
  unfold invokeAndPrint at h
  split at h
  · simp at h
  · rename_i hc
    refine ⟨?_, hc⟩
    split at h
    · simpa using h.symm
    · split at h <;> simpa using h.symm

theorem run_invoked (w : World) (f : Flags) (name payload : List Char)
    (h : (run w f).invoked = some (name, payload)) :
    ∃ pre, run w f = invokeAndPrint w f name payload pre ∧ w.loadConfigError = none := by
  cases hv : f.showVersion with
  | true => simp [run, hv] at h
  | false =>
    cases ha : f.args with
    | nil => simp [run, hv, ha] at h
    | cons arn rest =>
      cases hp : Indent (Marshal (buildRequest w.upperTable w.version w.uuid f)) [] "  ".toList with
      | none =>
        have : (run w f).invoked = none := by
          unfold run
          rw [if_neg (by simp [hv])]
          simp only [ha, hp]
        rw [this] at h; simp at h
      | some pretty =>
        have hr := run_eq_invokeAndPrint w f arn rest pretty hv ha hp
        rw [hr] at h
        obtain ⟨hn, hc⟩ := invokeAndPrint_invoked w f _ _ _ _ h
        simp only [Prod.mk.injEq] at hn
        obtain ⟨rfl, rfl⟩ := hn
        exact ⟨_, hr, hc⟩

/-- C9: when the program has invoked the function and the call returned a
function error `e` with payload `p`, the program exits with code 1, has
written nothing to standard output, and standard error ends with the line
`Lambda function error: e` and the line `Response: p`, so it contains both `e`
and `p`; and when the program has invoked the function and exits with code 0,
the call returned neither a transport error nor a function error. -/
theorem function_error_reported (w : World) (f : Flags) (name payload : List Char)
    (h : (run w f).invoked = some (name, payload)) :
    (∀ status e p, w.invoke name payload =
        .ok { StatusCode := status, FunctionError := some e, Payload := p } →
      (run w f).exitCode = 1 ∧ (run w f).stdout = [] ∧
      (∃ pre, (run w f).stderr = pre ++ "Lambda function error: ".toList ++ e ++ ['\n'] ++
        "Response: ".toList ++ p ++ ['\n']) ∧
      e <:+: (run w f).stderr ∧ p <:+: (run w f).stderr) ∧
    ((run w f).exitCode = 0 →
      ∃ out, w.invoke name payload = .ok out ∧ out.FunctionError = none) := by
  obtain ⟨pre, hrun, hc⟩ := run_invoked w f name payload h
  rw [hrun]
  unfold invokeAndPrint
  simp only [hc]
  constructor
  · intro status e p hinv
    simp only [hinv]
    refine ⟨trivial, trivial, ⟨pre, rfl⟩, ?_, ?_⟩
    · exact ⟨pre ++ "Lambda function error: ".toList,
        ['\n'] ++ "Response: ".toList ++ p ++ ['\n'], by simp⟩
    · exact ⟨pre ++ "Lambda function error: ".toList ++ e ++ ['\n'] ++ "Response: ".toList,
        ['\n'], by simp⟩
  · intro hcode
    cases hinv : w.invoke name payload with
    | error e => simp [hinv] at hcode
    | ok out =>
      refine ⟨out, rfl, ?_⟩
      cases hfe : out.FunctionError with
      | none => rfl
      | some fe => simp [hinv, hfe] at hcode

/-- Witness of C9: the function named `fail` raises `Unhandled`. -/
theorem function_error_reported_witness :
    (run exampleWorld (Flags.defaults ["fail".toList])).exitCode = 1 ∧
    (run exampleWorld (Flags.defaults ["fail".toList])).stdout = [] ∧
    (run exampleWorld (Flags.defaults ["fail".toList])).stderr =
      "Lambda function error: Unhandled\nResponse: \x7b\"errorMessage\":\"boom\"\x7d\n".toList := by
  have h := (function_error_reported exampleWorld (Flags.defaults ["fail".toList]) "fail".toList
    (Marshal (buildRequest exampleWorld.upperTable exampleWorld.version exampleWorld.uuid
      (Flags.defaults ["fail".toList]))) (by decide)).1 200 "Unhandled".toList
      "\x7b\"errorMessage\":\"boom\"\x7d".toList rfl
  exact ⟨h.1, h.2.1, by decide⟩

/-! ## C10: the request id -/

/-- C10: the request id placed in the request context is `bedlamb-`, the
version, `-` and the generated UUID, whatever the flags are; for a fixed
version it is an injective function of the UUID, so two invocations whose
UUIDs differ have different request ids. -/
theorem requestID_injective (tbl : Char → Char) (version : List Char) :
    (∀ uuid f, (buildRequest tbl version uuid f).RequestContext.RequestID =
      "bedlamb-".toList ++ version ++ "-".toList ++ uuid) ∧
    Function.Injective (fun uuid => requestID version uuid) ∧
    (∀ u₁ u₂ f₁ f₂, u₁ ≠ u₂ →
      (buildRequest tbl version u₁ f₁).RequestContext.RequestID ≠
      (buildRequest tbl version u₂ f₂).RequestContext.RequestID) := by
  have hinj : Function.Injective (fun uuid => requestID version uuid) := by
    intro a b hab
    exact List.append_cancel_left hab
  exact ⟨fun _ _ => rfl, hinj, fun u₁ u₂ _ _ hne he => hne (hinj he)⟩

/-! ## Lemmas on the scanner -/

theorem ite_elim {α : Type} {p : Prop} [Decidable p] {a b : α} {P : α → Prop}
    (ha : p → P a) (hb : ¬p → P b) : P (if p then a else b) := by
  split
  · exact ha ‹_›
  · exact hb ‹_›

theorem goodStep_mk_step (s : Scanner) (st : Step) (v : ScanCode) (h1 : st ≠ Step.stateError)
    (h2 : v ≠ scanError) : GoodStep ({ s with step := st }, v) :=
  ⟨fun h => absurd h h2, fun h => absurd h h1⟩

theorem goodStep_same (s : Scanner) (v : ScanCode) (hs : s.WF) (h2 : v ≠ scanError) :
    GoodStep (s, v) :=
  ⟨fun h => absurd h h2, hs⟩

theorem goodStep_error (s : Scanner) : GoodStep s.error :=
  ⟨fun _ => ⟨rfl, rfl⟩, fun _ => rfl⟩

theorem goodStep_stateEndTop (s : Scanner) (c : Char) (hs : s.step = Step.stateEndTop) :
    GoodStep (s.stateEndTop c) := by
  rw [Scanner.stateEndTop]
  refine ite_elim (P := GoodStep) (fun _ => ?_) (fun _ => ?_)
  · exact ⟨nofun, fun _ => rfl⟩
  · exact ⟨nofun, fun h => by rw [hs] at h; cases h⟩

theorem goodStep_pushParseState (s : Scanner) (p : ParseState) (v : ScanCode)
    (h1 : s.step ≠ Step.stateError) (h2 : v ≠ scanError) : GoodStep (s.pushParseState p v) := by
  rw [Scanner.pushParseState]
  refine ite_elim (P := GoodStep) (fun _ => ?_) (fun _ => ?_)
  · exact ⟨fun h => absurd h h2, fun h => absurd h h1⟩
  · exact goodStep_error _

theorem goodStep_popParseState (s : Scanner) (v : ScanCode) (h2 : v ≠ scanError) :
    GoodStep (s.popParseState, v) := by
  rw [Scanner.popParseState]
  refine ⟨fun h => absurd h h2, ?_⟩
  refine ite_elim (P := Scanner.WF) (fun _ => ?_) (fun _ => ?_) <;> exact nofun

theorem goodStep_stateEndValue (s : Scanner) (c : Char) : GoodStep (s.stateEndValue c) := by
  rw [Scanner.stateEndValue]
  split
  · exact goodStep_stateEndTop _ c rfl
  · refine ite_elim (P := GoodStep) (fun _ => ?_) (fun _ => ?_)
    · exact goodStep_mk_step _ _ _ (by decide) (by decide)
    · split <;> repeat' refine ite_elim (P := GoodStep) (fun _ => ?_) (fun _ => ?_)
      all_goals first
        | exact goodStep_error _
        | exact goodStep_popParseState _ _ (by decide)
        | exact ⟨nofun, nofun⟩

theorem goodStep_stateBeginString (s : Scanner) (c : Char) (hs : s.WF) :
    GoodStep (s.stateBeginString c) := by
  rw [Scanner.stateBeginString]
  repeat' refine ite_elim (P := GoodStep) (fun _ => ?_) (fun _ => ?_)
  · exact goodStep_same s _ hs (by decide)
  · exact ⟨nofun, nofun⟩
  · exact goodStep_error _

theorem goodStep_stateBeginStringOrEmpty (s : Scanner) (c : Char) (hs : s.WF) :
    GoodStep (s.stateBeginStringOrEmpty c) := by
  rw [Scanner.stateBeginStringOrEmpty]
  refine ite_elim (P := GoodStep) (fun _ => ?_) (fun _ => ?_)
  · exact goodStep_same s _ hs (by decide)
  · refine ite_elim (P := GoodStep) (fun _ => ?_) (fun _ => ?_)
    · exact goodStep_stateEndValue _ c
    · exact goodStep_stateBeginString s c hs

theorem goodStep_stateBeginValue (s : Scanner) (c : Char) (hs : s.WF) :
    GoodStep (s.stateBeginValue c) := by
  rw [Scanner.stateBeginValue]
  repeat' refine ite_elim (P := GoodStep) (fun _ => ?_) (fun _ => ?_)
  all_goals first
    | exact goodStep_same s _ hs (by decide)
    | exact goodStep_error _
    | exact ⟨nofun, nofun⟩

theorem goodStep_stateBeginValueOrEmpty (s : Scanner) (c : Char) (hs : s.WF) :
    GoodStep (s.stateBeginValueOrEmpty c) := by
  rw [Scanner.stateBeginValueOrEmpty]
  refine ite_elim (P := GoodStep) (fun _ => ?_) (fun _ => ?_)
  · exact goodStep_same s _ hs (by decide)
  · refine ite_elim (P := GoodStep) (fun _ => ?_) (fun _ => ?_)
    · exact goodStep_stateEndValue _ c
    · exact goodStep_stateBeginValue s c hs

theorem goodStep_next (s : Scanner) (c : Char) (hs : s.WF) : GoodStep (s.next c) := by
  rw [Scanner.next]
  split
  · exact goodStep_stateBeginValueOrEmpty s c hs
  · exact goodStep_stateBeginValue s c hs
  · exact goodStep_stateBeginStringOrEmpty s c hs
  · exact goodStep_stateBeginString s c hs
  · exact goodStep_stateEndValue s c
  · exact goodStep_stateEndTop s c ‹_›
  all_goals
    try simp only [Scanner.stateInString, Scanner.stateInStringEsc, Scanner.stateHex,
      Scanner.stateNeg, Scanner.state1, Scanner.state0, Scanner.stateDot, Scanner.stateDot0,
      Scanner.stateE, Scanner.stateESign, Scanner.stateE0, Scanner.expect]
    repeat' refine ite_elim (P := GoodStep) (fun _ => ?_) (fun _ => ?_)
  all_goals first
    | exact goodStep_stateEndValue _ c
    | exact goodStep_error _
    | exact ⟨fun _ => ⟨hs ‹_›, ‹_›⟩, hs⟩
    | exact goodStep_same s _ hs (by decide)
    | exact ⟨nofun, nofun⟩

theorem scanAll_WF (s : Scanner) (src : List Char) (hs : s.WF) : (scanAll s src).WF := by
  induction src generalizing s with
  | nil => exact hs
  | cons c rest ih =>
    rw [scanAll]
    have hg := goodStep_next s c hs
    split
    rename_i s' v heq
    rw [heq] at hg
    split
    · exact hg.2
    · exact ih s' hg.2

theorem eof_of_err (s : Scanner) (h : s.err = true) : s.eof = false := by
  simp [Scanner.eof, h]

/-- `checkValid` is the end-of-input test of the scanner after the loop. -/
theorem checkValid_eq (s : Scanner) (src : List Char) (hs : s.WF) :
    checkValid s src = (scanAll s src).eof := by
  induction src generalizing s with
  | nil => rfl
  | cons c rest ih =>
    rw [scanAll, checkValid]
    have hg := goodStep_next s c hs
    split
    rename_i s' v heq
    rw [heq] at hg
    split
    · rename_i hv
      exact (eof_of_err s' (hg.1 hv).1).symm
    · exact ih s' hg.2

theorem appendIndentLoop_scan (pre indent : List Char) (st : Indenter) (src : List Char) :
    (appendIndentLoop pre indent st src).scan = scanAll st.scan src := by
  induction src generalizing st with
  | nil => rfl
  | cons c rest ih =>
    rw [scanAll, appendIndentLoop]
    split
    rename_i s' v heq
    split
    · rename_i hv
      rw [ih]
      simp [hv]
    · split
      · rfl
      · rw [ih]
        have : (({ st with scan := s' } : Indenter).emit pre indent v c).scan = s' := by
          simp only [Indenter.emit]
          repeat' split
          all_goals rfl
        rw [this]

theorem reset_WF : Scanner.reset.WF := nofun

/-- `json.Indent` fails exactly on the inputs `json.Valid` rejects. -/
theorem Indent_isSome (src pre indent : List Char) :
    (Indent src pre indent).isSome = Valid src := by
  simp only [Indent, Valid, checkValid_eq _ _ reset_WF, appendIndentLoop_scan]
  split <;> simp_all

/-! ## C4: a response that is not JSON -/

/-- C4, as stated, fails: for the response `plain text` (which `json.Valid`
rejects) the text written to standard output is `plain text` followed by a
newline, not the response bytes alone. -/
theorem invalid_response_counterexample :
    Valid "plain text".toList = false ∧
    (run exampleWorld (Flags.defaults ["plain".toList])).stdout = "plain text\n".toList ∧
    (run exampleWorld (Flags.defaults ["plain".toList])).stdout ≠ "plain text".toList := by
  decide

theorem formatResponse_of_invalid (payload : List Char) (h : Valid payload = false) :
    formatResponse payload = payload ++ ['\n'] := by
  have h1 := Indent_isSome payload [] "  ".toList
  rw [h] at h1
  unfold formatResponse
  cases hI : Indent payload [] "  ".toList with
  | none => rfl
  | some out => rw [hI] at h1; simp at h1

/-- C4, amended: when the program has invoked the function and the call
returned, without function error, a payload that is not valid JSON, the
program does not fail (it exits with code 0) and the text written to standard
output is the payload, unchanged, followed by one newline. -/
theorem invalid_response_printed (w : World) (f : Flags) (name payload : List Char)
    (out : InvokeOutput) (h : (run w f).invoked = some (name, payload))
    (hinv : w.invoke name payload = .ok out) (hfe : out.FunctionError = none)
    (hbad : Valid out.Payload = false) :
    (run w f).stdout = out.Payload ++ ['\n'] ∧ (run w f).exitCode = 0 := by
  obtain ⟨pre, hrun, hc⟩ := run_invoked w f name payload h
  rw [hrun]
  unfold invokeAndPrint
  simp only [hc, hinv, hfe]
  exact ⟨formatResponse_of_invalid _ hbad, trivial⟩

/-- Witness of C4: the function named `plain` answers `plain text`. -/
theorem invalid_response_printed_witness :
    (run exampleWorld (Flags.defaults ["plain".toList])).stdout = "plain text".toList ++ ['\n'] ∧
    (run exampleWorld (Flags.defaults ["plain".toList])).exitCode = 0 :=
  invalid_response_printed exampleWorld (Flags.defaults ["plain".toList]) "plain".toList
    (Marshal (buildRequest exampleWorld.upperTable exampleWorld.version exampleWorld.uuid
      (Flags.defaults ["plain".toList]))) plainResponse (by decide) rfl rfl (by decide)

/-! ## What each step result says about the scanner -/

theorem stepOK_stateEndValue (s : Scanner) (c : Char)
    (hs : s.step = Step.stateEndValue ∨ s.step.numEnd = true) :
    StepOK s c (s.stateEndValue c) := by
  suffices h : ∀ r, s.stateEndValue c = r → StepOK s c r from h _ rfl
  intro r hr
  have hr0 := hr
  have hsk : s.step.skips = false := by
    rcases hs with h | h
    · rw [h]; rfl
    · revert h; cases s.step <;> simp [Step.numEnd, Step.skips]
  obtain ⟨step, endTop, stack, err⟩ := s
  rw [Scanner.stateEndValue] at hr
  cases stack with
  | nil =>
    simp only [] at hr
    rw [Scanner.stateEndTop] at hr
    revert hr
    refine ite_elim (P := fun x => x = r → StepOK _ c r) (fun hc => ?_) (fun hc => ?_)
    · rintro rfl; exact Or.inl rfl
    · rintro rfl
      exact Or.inr ⟨by simpa using hc, hsk, fun _ => rfl⟩
  | cons p ps =>
    simp only [] at hr
    revert hr
    refine ite_elim (P := fun x => x = r → StepOK _ c r) (fun hc => ?_) (fun hc => ?_)
    · rintro rfl
      refine Or.inr ⟨hc, ?_⟩
      rcases hs with h | h
      · left
        simp only at h
        subst h
        exact ⟨Or.inr ⟨rfl, List.cons_ne_nil _ _⟩, rfl⟩
      · right
        exact ⟨h, List.cons_ne_nil _ _, rfl⟩
    · cases p
      all_goals simp only []
      all_goals repeat' refine ite_elim (P := fun x => x = r → StepOK _ c r) (fun _ => ?_) (fun _ => ?_)
      all_goals rintro rfl
      all_goals first
        | exact Or.inl rfl
        | exact Or.inr ⟨‹_›, hs, List.cons_ne_nil _ _, rfl, hr0⟩
        | exact Or.inr ⟨‹_›, Or.inr ⟨hs, List.cons_ne_nil _ _, hr0⟩⟩

theorem isPunct_of_range {c : Char} (h : '1' ≤ c ∧ c ≤ '9') : isPunct c = false := by
  have h1 : c.toNat ≤ 57 := h.2
  have h2 : ∀ d : Char, 57 < d.toNat → (c == d) = false := by
    intro d hd
    rw [beq_eq_false_iff_ne]
    rintro rfl
    omega
  simp only [isPunct, h2 '{' (by decide), h2 '[' (by decide), h2 ':' (by decide),
    h2 '}' (by decide), h2 ']' (by decide), Bool.false_or, Bool.or_false]
  rw [beq_eq_false_iff_ne]
  rintro rfl
  exact absurd h.1 (by decide)

theorem stepOK_stateBeginString (s : Scanner) (c : Char) (hs : s.step.skips = true) :
    StepOK s c (s.stateBeginString c) := by
  rw [Scanner.stateBeginString]
  refine ite_elim (P := StepOK s c) (fun hc => ?_) (fun _ => ?_)
  · exact Or.inr ⟨hc, Or.inl ⟨Or.inl hs, rfl⟩⟩
  · refine ite_elim (P := StepOK s c) (fun hc => ?_) (fun _ => ?_)
    · subst hc; exact Or.inr ⟨hs, by decide⟩
    · exact Or.inl rfl

theorem stepOK_stateBeginStringOrEmpty (s : Scanner) (c : Char)
    (hs : s.step = Step.stateBeginStringOrEmpty) : StepOK s c (s.stateBeginStringOrEmpty c) := by
  have hsk : s.step.skips = true := by rw [hs]; rfl
  rw [Scanner.stateBeginStringOrEmpty]
  refine ite_elim (P := StepOK s c) (fun hc => ?_) (fun _ => ?_)
  · exact Or.inr ⟨hc, Or.inl ⟨Or.inl hsk, rfl⟩⟩
  · refine ite_elim (P := StepOK s c) (fun hc => ?_) (fun _ => ?_)
    · subst hc
      have h1 : isSpaceJSON '}' = false := by decide
      have h2 : ¬ ('}' = ',') := by decide
      rw [Scanner.stateEndValue]
      simp only [h1, h2, Bool.false_eq_true, if_false, if_true]
      exact Or.inr ⟨rfl, Or.inl (by rw [hs]; rfl)⟩
    · exact stepOK_stateBeginString s c hsk

theorem stepOK_stateBeginValue (s : Scanner) (c : Char) (hs : s.step.skips = true) :
    StepOK s c (s.stateBeginValue c) := by
  rw [Scanner.stateBeginValue]
  refine ite_elim (P := StepOK s c) (fun hc => ?_) (fun _ => ?_)
  · exact Or.inr ⟨hc, Or.inl ⟨Or.inl hs, rfl⟩⟩
  refine ite_elim (P := StepOK s c) (fun hc => ?_) (fun _ => ?_)
  · rw [Scanner.pushParseState]
    refine ite_elim (P := StepOK s c) (fun _ => ?_) (fun _ => ?_)
    · exact Or.inr ⟨hs, hc, rfl⟩
    · exact Or.inl rfl
  refine ite_elim (P := StepOK s c) (fun hc => ?_) (fun _ => ?_)
  · rw [Scanner.pushParseState]
    refine ite_elim (P := StepOK s c) (fun _ => ?_) (fun _ => ?_)
    · exact Or.inr ⟨hs, hc, rfl⟩
    · exact Or.inl rfl
  repeat' refine ite_elim (P := StepOK s c) (fun hc => ?_) (fun _ => ?_)
  all_goals first
    | exact Or.inl rfl
    | exact Or.inr ⟨hs, isPunct_of_range hc⟩
    | (subst hc; exact Or.inr ⟨hs, by decide⟩)

theorem stepOK_stateBeginValueOrEmpty (s : Scanner) (c : Char)
    (hs : s.step = Step.stateBeginValueOrEmpty) : StepOK s c (s.stateBeginValueOrEmpty c) := by
  have hsk : s.step.skips = true := by rw [hs]; rfl
  rw [Scanner.stateBeginValueOrEmpty]
  refine ite_elim (P := StepOK s c) (fun hc => ?_) (fun _ => ?_)
  · exact Or.inr ⟨hc, Or.inl ⟨Or.inl hsk, rfl⟩⟩
  · refine ite_elim (P := StepOK s c) (fun hc => ?_) (fun _ => ?_)
    · subst hc
      have h1 : isSpaceJSON ']' = false := by decide
      have h2 : ¬ (']' = ',') := by decide
      have h3 : ¬ (']' = ':') := by decide
      have h4 : ¬ (']' = '}') := by decide
      rw [Scanner.stateEndValue]
      split
      · rw [Scanner.stateEndTop]
        simp only [h1, Bool.not_false, if_true]
        exact Or.inl rfl
      · simp only [h1, Bool.false_eq_true, if_false]
        split
        · simp only [h3, if_false]; exact Or.inl rfl
        · simp only [h2, h4, if_false]; exact Or.inl rfl
        · simp only [h2, if_false, if_true]
          exact Or.inr ⟨rfl, Or.inl (by rw [hs]; rfl)⟩
    · exact stepOK_stateBeginValue s c hsk

theorem stepOK_stateEndTop (s : Scanner) (c : Char) (hs : s.step = Step.stateEndTop) :
    StepOK s c (s.stateEndTop c) := by
  rw [Scanner.stateEndTop]
  refine ite_elim (P := StepOK s c) (fun hc => ?_) (fun hc => ?_)
  · exact Or.inl rfl
  · refine Or.inr ⟨by simpa using hc, by rw [hs]; rfl, fun h => ?_⟩
    rw [hs] at h
    cases h

theorem stepOK_next (s : Scanner) (c : Char) : StepOK s c (s.next c) := by
  rw [Scanner.next]
  split
  · exact stepOK_stateBeginValueOrEmpty s c ‹_›
  · exact stepOK_stateBeginValue s c (by rw [‹s.step = _›]; rfl)
  · exact stepOK_stateBeginStringOrEmpty s c ‹_›
  · exact stepOK_stateBeginString s c (by rw [‹s.step = _›]; rfl)
  · exact stepOK_stateEndValue s c (Or.inl ‹_›)
  · exact stepOK_stateEndTop s c ‹_›
  all_goals
    rename_i hstep
    have hk : s.step.skips = false ∧ s.step ≠ Step.stateEndValue := by
      rw [hstep]; exact ⟨rfl, by decide⟩
    try simp only [Scanner.stateInString, Scanner.stateInStringEsc, Scanner.stateHex,
      Scanner.stateNeg, Scanner.state1, Scanner.state0, Scanner.stateDot, Scanner.stateDot0,
      Scanner.stateE, Scanner.stateESign, Scanner.stateE0, Scanner.expect]
    repeat' refine ite_elim (P := StepOK s c) (fun _ => ?_) (fun _ => ?_)
  all_goals first
    | exact Or.inl rfl
    | exact Or.inr hk
    | exact stepOK_stateEndValue s c (Or.inr (by rw [hstep]; rfl))
    | exact Or.inr rfl

/-! ## The scanner on the output of `appendIndent` -/

theorem compactLoop_keep {s s' : Scanner} {c : Char} {v : ScanCode} (h : s.next c = (s', v))
    (h1 : v ≠ scanError) (h2 : v ≠ scanSkipSpace) (h3 : v ≠ scanEnd) (rest : List Char) :
    compactLoop s (c :: rest) = ((compactLoop s' rest).1, c :: (compactLoop s' rest).2) := by
  rw [compactLoop, h]
  simp only [h1, h2, h3, if_false, or_self]

theorem compactLoop_drop {s s' : Scanner} {c : Char} {v : ScanCode} (h : s.next c = (s', v))
    (h1 : v = scanSkipSpace ∨ v = scanEnd) (rest : List Char) :
    compactLoop s (c :: rest) = compactLoop s' rest := by
  rw [compactLoop, h]
  have h2 : v ≠ scanError := by rcases h1 with rfl | rfl <;> decide
  simp only [h2, h1, if_false, if_true]

theorem compactLoop_stop {s s' : Scanner} {c : Char} (h : s.next c = (s', scanError))
    (rest : List Char) : compactLoop s (c :: rest) = (s', []) := by
  rw [compactLoop, h]
  simp only [if_true]

theorem isSpaceJSON_cases {c : Char} (h : isSpaceJSON c = true) :
    c = ' ' ∨ c = '\t' ∨ c = '\r' ∨ c = '\n' := by
  simp only [isSpaceJSON, Bool.or_eq_true, beq_iff_eq] at h
  tauto

theorem isPunct_of_space {c : Char} (h : isSpaceJSON c = true) : isPunct c = false := by
  rcases isSpaceJSON_cases h with rfl | rfl | rfl | rfl <;> decide

theorem next_space_of_skips (s : Scanner) (c : Char) (hs : s.step.skips = true)
    (hc : isSpaceJSON c = true) : s.next c = (s, scanSkipSpace) := by
  obtain ⟨step, endTop, stack, err⟩ := s
  cases step <;> simp only [Step.skips, Bool.false_eq_true] at hs
  all_goals
    simp only [Scanner.next, Scanner.stateBeginValueOrEmpty, Scanner.stateBeginValue,
      Scanner.stateBeginStringOrEmpty, Scanner.stateBeginString, hc, if_true]

theorem next_space_of_endValue (s : Scanner) (c : Char) (hs : s.step = Step.stateEndValue)
    (hne : s.parseState ≠ []) (hc : isSpaceJSON c = true) : s.next c = (s, scanSkipSpace) := by
  obtain ⟨step, endTop, stack, err⟩ := s
  simp only at hs hne
  subst hs
  cases stack with
  | nil => exact absurd rfl hne
  | cons p ps => simp only [Scanner.next, Scanner.stateEndValue, hc, if_true]

theorem next_space_of_numEnd (s : Scanner) (c : Char) (hs : s.step.numEnd = true)
    (hne : s.parseState ≠ []) (hc : isSpaceJSON c = true) :
    s.next c = ({ s with step := Step.stateEndValue }, scanSkipSpace) := by
  obtain ⟨step, endTop, stack, err⟩ := s
  simp only at hne
  cases stack with
  | nil => exact absurd rfl hne
  | cons p ps =>
    rcases isSpaceJSON_cases hc with rfl | rfl | rfl | rfl <;>
      cases step <;> simp only [Step.numEnd, Bool.false_eq_true] at hs <;> rfl

theorem next_punct_of_numEnd (s : Scanner) (c : Char) (hs : s.step.numEnd = true)
    (hc : c = ',' ∨ c = ':' ∨ c = '}' ∨ c = ']') : s.next c = s.stateEndValue c := by
  obtain ⟨step, endTop, stack, err⟩ := s
  rcases hc with rfl | rfl | rfl | rfl <;>
    cases step <;> simp only [Step.numEnd, Bool.false_eq_true] at hs <;> rfl

theorem stateEndValue_step (s : Scanner) (st : Step) (c : Char) :
    Scanner.stateEndValue { s with step := st } c = s.stateEndValue c := by
  obtain ⟨step, endTop, stack, err⟩ := s
  cases stack <;> rfl

theorem allSpaceJSON_cons {c : Char} {w : List Char} (h : allSpaceJSON (c :: w) = true) :
    isSpaceJSON c = true ∧ allSpaceJSON w = true := by
  simpa [allSpaceJSON] using h

theorem Absorbs.refl (t : Scanner) : Absorbs t [] t := fun _ => rfl

theorem Absorbs.of_fixed (t : Scanner) (h : ∀ c, isSpaceJSON c = true → t.next c = (t, scanSkipSpace))
    (w : List Char) (hw : allSpaceJSON w = true) : Absorbs t w t := by
  induction w with
  | nil => exact Absorbs.refl t
  | cons c w ih =>
    obtain ⟨hc, hw'⟩ := allSpaceJSON_cons hw
    intro rest
    rw [List.cons_append, compactLoop_drop (h c hc) (Or.inl rfl)]
    exact ih hw' rest

theorem Absorbs.of_skips (t : Scanner) (ht : t.step.skips = true) (w : List Char)
    (hw : allSpaceJSON w = true) : Absorbs t w t :=
  Absorbs.of_fixed t (fun c hc => next_space_of_skips t c ht hc) w hw

theorem Absorbs.of_endValue (t : Scanner) (ht : t.step = Step.stateEndValue)
    (hne : t.parseState ≠ []) (w : List Char) (hw : allSpaceJSON w = true) : Absorbs t w t :=
  Absorbs.of_fixed t (fun c hc => next_space_of_endValue t c ht hne hc) w hw

/-- After a value (in `stateEndValue` or at a possible end of a number), inside
an array or object, non-empty white space leads to `stateEndValue`. -/
theorem Absorbs.of_ended (t : Scanner)
    (ht : t.step = Step.stateEndValue ∨ t.step.numEnd = true) (hne : t.parseState ≠ [])
    (c : Char) (w : List Char) (hw : allSpaceJSON (c :: w) = true) :
    Absorbs t (c :: w) { t with step := Step.stateEndValue } := by
  obtain ⟨hc, hw'⟩ := allSpaceJSON_cons hw
  intro rest
  have h1 : t.next c = ({ t with step := Step.stateEndValue }, scanSkipSpace) := by
    rcases ht with h | h
    · rw [next_space_of_endValue t c h hne hc, ← h]
    · exact next_space_of_numEnd t c h hne hc
  rw [List.cons_append, compactLoop_drop h1 (Or.inl rfl)]
  exact Absorbs.of_endValue { t with step := Step.stateEndValue } rfl hne w hw' rest

/-- The scanner reads white space, one kept character and more white space. -/
theorem compactLoop_chunk {t t₁ t₂ t₃ : Scanner} {w₁ w₂ : List Char} {c : Char} {v : ScanCode}
    (h1 : Absorbs t w₁ t₁) (h2 : t₁.next c = (t₂, v)) (hv1 : v ≠ scanError)
    (hv2 : v ≠ scanSkipSpace) (hv3 : v ≠ scanEnd) (h3 : Absorbs t₂ w₂ t₃) :
    compactLoop t (w₁ ++ c :: w₂) = (t₃, [c]) := by
  rw [h1, compactLoop_keep h2 hv1 hv2 hv3]
  have := h3 []
  rw [List.append_nil] at this
  rw [this]
  rfl

theorem allSpaceJSON_newlineText (pre indent : List Char) (hpre : allSpaceJSON pre = true)
    (hind : allSpaceJSON indent = true) (d : Int) :
    allSpaceJSON (newlineText pre indent d) = true := by
  simp only [allSpaceJSON, List.all_eq_true] at *
  intro c hc
  simp only [newlineText, List.mem_append, List.mem_singleton, List.mem_flatten,
    List.mem_replicate] at hc
  rcases hc with (rfl | h) | ⟨l, ⟨_, rfl⟩, h⟩
  · decide
  · exact hpre c h
  · exact hind c h

theorem newlineText_eq_cons (pre indent : List Char) (d : Int) :
    newlineText pre indent d = '\n' :: (pre ++ (List.replicate d.toNat indent).flatten) := rfl

theorem appendNewline_eq (dst pre indent : List Char) (d : Int) :
    appendNewline dst pre indent d = dst ++ newlineText pre indent d := by
  simp [appendNewline, newlineText]

/-- The scanner-relevant facts after a value inside an array or object carry
over from the scanner of `appendIndent` to the scanner on its output. -/
theorem SimScan.ended {s t : Scanner} (h : SimScan s t)
    (hs : s.step = Step.stateEndValue ∨ s.step.numEnd = true) (hne : s.parseState ≠ []) :
    (t.step = Step.stateEndValue ∨ t.step.numEnd = true) ∧ t.parseState ≠ [] ∧
    (∀ c, t.stateEndValue c = s.stateEndValue c) ∧ { t with step := Step.stateEndValue } =
      { s with step := Step.stateEndValue } := by
  rcases h with rfl | ⟨_, _, st, hst, rfl⟩
  · exact ⟨hs, hne, fun _ => rfl, rfl⟩
  · exact ⟨Or.inr hst, hne, fun c => stateEndValue_step s st c, rfl⟩

theorem next_punct_of_ended (t : Scanner)
    (ht : t.step = Step.stateEndValue ∨ t.step.numEnd = true) (c : Char)
    (hc : c = ',' ∨ c = ':' ∨ c = '}' ∨ c = ']') : t.next c = t.stateEndValue c := by
  rcases ht with h | h
  · rw [Scanner.next]
    simp only [h]
  · exact next_punct_of_numEnd t c h hc

theorem SimScan.eq_of_not_endValue {s t : Scanner} (h : SimScan s t)
    (hs : s.step ≠ Step.stateEndValue) : t = s := by
  rcases h with rfl | ⟨h1, _⟩
  · rfl
  · exact absurd h1 hs

theorem Step.skips_of_orEmpty {st : Step} (h : st.orEmpty = true) : st.skips = true := by
  cases st <;> simp_all [Step.orEmpty, Step.skips]

theorem Step.ne_endValue_of_skips {st : Step} (h : st.skips = true) :
    st ≠ Step.stateEndValue := by
  rintro rfl; cases h

theorem Step.not_orEmpty_of_ended {st : Step}
    (h : st = Step.stateEndValue ∨ st.numEnd = true) : st.orEmpty = false := by
  rcases h with rfl | h
  · rfl
  · cases st <;> simp_all [Step.orEmpty, Step.numEnd]

/-! ## What `emit` writes -/

theorem emit_continue (pre indent : List Char) (st : Indenter) (c : Char)
    (h : st.needIndent = false) :
    st.emit pre indent scanContinue c = { st with dst := st.dst ++ [c] } := by
  simp [Indenter.emit, h]

theorem emit_plain (pre indent : List Char) (st : Indenter) (v : ScanCode) (c : Char)
    (hv : v = scanBeginLiteral ∨ v = scanEnd) (hp : isPunct c = false) :
    st.emit pre indent v c =
      { st with needIndent := false,
                depth := if st.needIndent = true then st.depth + 1 else st.depth,
                dst := st.dst ++ (pendingText pre indent st ++ [c]) } := by
  simp only [isPunct, Bool.or_eq_false_iff, beq_eq_false_iff_ne, ne_eq] at hp
  obtain ⟨⟨⟨⟨⟨h1, h2⟩, h3⟩, h4⟩, h5⟩, h6⟩ := hp
  rcases hv with rfl | rfl <;> cases hN : st.needIndent <;>
    simp [Indenter.emit, pendingText, hN, h1, h2, h3, h4, h5, h6, appendNewline_eq]

theorem emit_open (pre indent : List Char) (st : Indenter) (v : ScanCode) (c : Char)
    (hv : v = scanBeginObject ∨ v = scanBeginArray) (hc : c = '{' ∨ c = '[') :
    st.emit pre indent v c =
      { st with needIndent := true,
                depth := if st.needIndent = true then st.depth + 1 else st.depth,
                dst := st.dst ++ (pendingText pre indent st ++ [c]) } := by
  rcases hv with rfl | rfl <;> rcases hc with rfl | rfl <;> cases hN : st.needIndent <;>
    simp [Indenter.emit, pendingText, hN, appendNewline_eq]

theorem emit_comma (pre indent : List Char) (st : Indenter) (v : ScanCode)
    (hv : v = scanObjectValue ∨ v = scanArrayValue) (h : st.needIndent = false) :
    st.emit pre indent v ',' =
      { st with dst := st.dst ++ (',' :: newlineText pre indent st.depth) } := by
  rcases hv with rfl | rfl <;> simp [Indenter.emit, h, appendNewline_eq]

theorem emit_colon (pre indent : List Char) (st : Indenter) (h : st.needIndent = false) :
    st.emit pre indent scanObjectKey ':' = { st with dst := st.dst ++ [':', ' '] } := by
  simp [Indenter.emit, h]

theorem emit_close (pre indent : List Char) (st : Indenter) (v : ScanCode) (c : Char)
    (hv : v = scanEndObject ∨ v = scanEndArray) (hc : c = '}' ∨ c = ']') :
    st.emit pre indent v c =
      { st with needIndent := false,
                depth := if st.needIndent = true then st.depth else st.depth - 1,
                dst := st.dst ++ (closingText pre indent st ++ [c]) } := by
  rcases hv with rfl | rfl <;> rcases hc with rfl | rfl <;> cases hN : st.needIndent <;>
    simp [Indenter.emit, closingText, hN, appendNewline_eq]

theorem allSpaceJSON_pendingText (pre indent : List Char) (hpre : allSpaceJSON pre = true)
    (hind : allSpaceJSON indent = true) (st : Indenter) :
    allSpaceJSON (pendingText pre indent st) = true := by
  unfold pendingText
  split
  · exact allSpaceJSON_newlineText pre indent hpre hind _
  · rfl

theorem allSpaceJSON_closingText (pre indent : List Char) (hpre : allSpaceJSON pre = true)
    (hind : allSpaceJSON indent = true) (st : Indenter) :
    allSpaceJSON (closingText pre indent st) = true := by
  unfold closingText
  split
  · rfl
  · exact allSpaceJSON_newlineText pre indent hpre hind _

theorem needIndent_false {st : Indenter} (hN : st.needIndent = true → st.scan.step.orEmpty = true)
    (h : st.scan.step.orEmpty = false) : st.needIndent = false := by
  cases hn : st.needIndent with
  | false => rfl
  | true => rw [hN hn] at h; cases h

theorem Step.orEmpty_false_of_skips_false {st : Step} (h : st.skips = false) :
    st.orEmpty = false := by
  cases st <;> simp_all [Step.orEmpty, Step.skips]

/-! ## A recorded error stays -/

theorem Scanner.stateEndValue_err (s : Scanner) (c : Char) (h : s.err = true) :
    Failed (s.stateEndValue c) := by
  obtain ⟨step, endTop, stack, err⟩ := s
  simp only at h
  subst h
  rw [Scanner.stateEndValue]
  cases stack with
  | nil =>
    simp only []
    rw [Scanner.stateEndTop]
    refine ite_elim (P := Failed) (fun _ => rfl) (fun _ => rfl)
  | cons p ps =>
    simp only []
    refine ite_elim (P := Failed) (fun _ => rfl) (fun _ => ?_)
    cases p
    all_goals simp only []
    all_goals repeat' refine ite_elim (P := Failed) (fun _ => ?_) (fun _ => ?_)
    all_goals first
      | rfl
      | (rw [Scanner.popParseState]
         refine ite_elim (P := fun r : Scanner => r.err = true) (fun _ => rfl) (fun _ => rfl))

theorem Scanner.stateBeginString_err (s : Scanner) (c : Char) (h : s.err = true) :
    Failed (s.stateBeginString c) := by
  rw [Scanner.stateBeginString]
  repeat' refine ite_elim (P := Failed) (fun _ => ?_) (fun _ => ?_)
  all_goals first | exact h | rfl

theorem Scanner.stateBeginValue_err (s : Scanner) (c : Char) (h : s.err = true) :
    Failed (s.stateBeginValue c) := by
  rw [Scanner.stateBeginValue]
  refine ite_elim (P := Failed) (fun _ => h) (fun _ => ?_)
  refine ite_elim (P := Failed) (fun _ => ?_) (fun _ => ?_)
  · rw [Scanner.pushParseState]
    exact ite_elim (P := Failed) (fun _ => h) (fun _ => rfl)
  refine ite_elim (P := Failed) (fun _ => ?_) (fun _ => ?_)
  · rw [Scanner.pushParseState]
    exact ite_elim (P := Failed) (fun _ => h) (fun _ => rfl)
  repeat' refine ite_elim (P := Failed) (fun _ => ?_) (fun _ => ?_)
  all_goals first | exact h | rfl

theorem Scanner.next_err (s : Scanner) (c : Char) (h : s.err = true) :
    (s.next c).1.err = true := by
  show Failed (s.next c)
  rw [Scanner.next]
  split
  · rw [Scanner.stateBeginValueOrEmpty]
    refine ite_elim (P := Failed) (fun _ => h) (fun _ => ?_)
    exact ite_elim (P := Failed) (fun _ => Scanner.stateEndValue_err s c h)
      (fun _ => Scanner.stateBeginValue_err s c h)
  · exact Scanner.stateBeginValue_err s c h
  · rw [Scanner.stateBeginStringOrEmpty]
    refine ite_elim (P := Failed) (fun _ => h) (fun _ => ?_)
    exact ite_elim (P := Failed) (fun _ => Scanner.stateEndValue_err _ c h)
      (fun _ => Scanner.stateBeginString_err s c h)
  · exact Scanner.stateBeginString_err s c h
  · exact Scanner.stateEndValue_err s c h
  · rw [Scanner.stateEndTop]
    exact ite_elim (P := Failed) (fun _ => rfl) (fun _ => h)
  all_goals
    try simp only [Scanner.stateInString, Scanner.stateInStringEsc, Scanner.stateHex,
      Scanner.stateNeg, Scanner.state1, Scanner.state0, Scanner.stateDot, Scanner.stateDot0,
      Scanner.stateE, Scanner.stateESign, Scanner.stateE0, Scanner.expect]
    repeat' refine ite_elim (P := Failed) (fun _ => ?_) (fun _ => ?_)
  all_goals first
    | exact h
    | exact Scanner.stateEndValue_err s c h
    | rfl

/-! ## One step of the simulation -/

theorem emit_scan (pre indent : List Char) (st : Indenter) (v : ScanCode) (c : Char) :
    (st.emit pre indent v c).scan = st.scan := by
  simp only [Indenter.emit]
  repeat' split
  all_goals rfl

theorem compactLoop_single_keep {t t' : Scanner} {c : Char} {v : ScanCode}
    (h : t.next c = (t', v)) (hv1 : v ≠ scanError) (hv2 : v ≠ scanSkipSpace)
    (hv3 : v ≠ scanEnd) : compactLoop t [c] = (t', [c]) :=
  compactLoop_chunk (Absorbs.refl t) h hv1 hv2 hv3 (Absorbs.refl t')

/-- One step of `appendIndent` that writes something: the scanner that reads
the text written for the character `c` ends in a state related to the new
state of `appendIndent`, and keeps `c` exactly when `appendCompact` keeps it. -/
theorem sim_step (pre indent : List Char) (hpre : allSpaceJSON pre = true)
    (hind : allSpaceJSON indent = true) (st : Indenter) (t : Scanner) (c : Char)
    (s' : Scanner) (v : ScanCode) (hinv : SimInv st t) (hn : st.scan.next c = (s', v))
    (herr : s'.err = false) (hv1 : v ≠ scanSkipSpace) (hv2 : v ≠ scanError) :
    ∃ chunk t',
      (Indenter.emit pre indent { st with scan := s' } v c).dst = st.dst ++ chunk ∧
      compactLoop t chunk = (t', if v = scanEnd then [] else [c]) ∧
      SimInv (Indenter.emit pre indent { st with scan := s' } v c) t' := by
  obtain ⟨hsim, hN⟩ := hinv
  have hk := stepOK_next st.scan c
  rw [hn] at hk
  rcases hk with hk | hk
  · simp only at hk; rw [herr] at hk; cases hk
  simp only at hk
  cases v with
  | scanSkipSpace => exact absurd rfl hv1
  | scanError => exact absurd rfl hv2
  | scanContinue =>
    obtain ⟨h1, h2⟩ := hk
    have hNI := needIndent_false hN (Step.orEmpty_false_of_skips_false h1)
    have ht := hsim.eq_of_not_endValue h2
    subst ht
    refine ⟨[c], s', ?_, ?_, ?_⟩
    · rw [emit_continue pre indent { st with scan := s' } c hNI]
    · exact compactLoop_single_keep hn (by decide) (by decide) (by decide)
    · rw [emit_continue pre indent { st with scan := s' } c hNI]
      exact ⟨Or.inl rfl, fun h => by simp only [hNI] at h; cases h⟩
  | scanBeginLiteral =>
    obtain ⟨h1, h2⟩ := hk
    have ht := hsim.eq_of_not_endValue (Step.ne_endValue_of_skips h1)
    subst ht
    refine ⟨pendingText pre indent st ++ [c], s', ?_, ?_, ?_⟩
    · rw [emit_plain _ _ _ _ _ (Or.inl rfl) h2]; rfl
    · exact compactLoop_chunk
        (Absorbs.of_skips _ h1 _ (allSpaceJSON_pendingText pre indent hpre hind st))
        hn (by decide) (by decide) (by decide) (Absorbs.refl s')
    · rw [emit_plain _ _ _ _ _ (Or.inl rfl) h2]
      exact ⟨Or.inl rfl, fun h => by cases h⟩
  | scanBeginObject =>
    obtain ⟨h1, h2, h3⟩ := hk
    have ht := hsim.eq_of_not_endValue (Step.ne_endValue_of_skips h1)
    subst ht
    refine ⟨pendingText pre indent st ++ [c], s', ?_, ?_, ?_⟩
    · rw [emit_open _ _ _ _ _ (Or.inl rfl) (Or.inl h2)]; rfl
    · exact compactLoop_chunk
        (Absorbs.of_skips _ h1 _ (allSpaceJSON_pendingText pre indent hpre hind st))
        hn (by decide) (by decide) (by decide) (Absorbs.refl s')
    · rw [emit_open _ _ _ _ _ (Or.inl rfl) (Or.inl h2)]
      exact ⟨Or.inl rfl, fun _ => by simp only [h3]; rfl⟩
  | scanBeginArray =>
    obtain ⟨h1, h2, h3⟩ := hk
    have ht := hsim.eq_of_not_endValue (Step.ne_endValue_of_skips h1)
    subst ht
    refine ⟨pendingText pre indent st ++ [c], s', ?_, ?_, ?_⟩
    · rw [emit_open _ _ _ _ _ (Or.inr rfl) (Or.inr h2)]; rfl
    · exact compactLoop_chunk
        (Absorbs.of_skips _ h1 _ (allSpaceJSON_pendingText pre indent hpre hind st))
        hn (by decide) (by decide) (by decide) (Absorbs.refl s')
    · rw [emit_open _ _ _ _ _ (Or.inr rfl) (Or.inr h2)]
      exact ⟨Or.inl rfl, fun _ => by simp only [h3]; rfl⟩
  | scanObjectKey =>
    obtain ⟨rfl, h1, h2, h3, h4⟩ := hk
    have hNI := needIndent_false hN (Step.not_orEmpty_of_ended h1)
    obtain ⟨ht1, _, ht3, _⟩ := hsim.ended h1 h2
    have hnt : t.next ':' = (s', scanObjectKey) := by
      rw [next_punct_of_ended t ht1 ':' (by simp), ht3, h4]
    refine ⟨[':', ' '], s', ?_, ?_, ?_⟩
    · rw [emit_colon pre indent { st with scan := s' } hNI]
    · exact compactLoop_chunk (Absorbs.refl t) hnt (by decide) (by decide) (by decide)
        (Absorbs.of_skips s' h3 [' '] rfl)
    · rw [emit_colon pre indent { st with scan := s' } hNI]
      exact ⟨Or.inl rfl, fun h => by simp only [hNI] at h; cases h⟩
  | scanObjectValue =>
    obtain ⟨rfl, h1, h2, h3, h4⟩ := hk
    have hNI := needIndent_false hN (Step.not_orEmpty_of_ended h1)
    obtain ⟨ht1, _, ht3, _⟩ := hsim.ended h1 h2
    have hnt : t.next ',' = (s', scanObjectValue) := by
      rw [next_punct_of_ended t ht1 ',' (by simp), ht3, h4]
    refine ⟨',' :: newlineText pre indent st.depth, s', ?_, ?_, ?_⟩
    · rw [emit_comma pre indent { st with scan := s' } _ (Or.inl rfl) hNI]
    · exact compactLoop_chunk (Absorbs.refl t) hnt (by decide) (by decide) (by decide)
        (Absorbs.of_skips s' h3 _ (allSpaceJSON_newlineText pre indent hpre hind _))
    · rw [emit_comma pre indent { st with scan := s' } _ (Or.inl rfl) hNI]
      exact ⟨Or.inl rfl, fun h => by simp only [hNI] at h; cases h⟩
  | scanArrayValue =>
    obtain ⟨rfl, h1, h2, h3, h4⟩ := hk
    have hNI := needIndent_false hN (Step.not_orEmpty_of_ended h1)
    obtain ⟨ht1, _, ht3, _⟩ := hsim.ended h1 h2
    have hnt : t.next ',' = (s', scanArrayValue) := by
      rw [next_punct_of_ended t ht1 ',' (by simp), ht3, h4]
    refine ⟨',' :: newlineText pre indent st.depth, s', ?_, ?_, ?_⟩
    · rw [emit_comma pre indent { st with scan := s' } _ (Or.inr rfl) hNI]
    · exact compactLoop_chunk (Absorbs.refl t) hnt (by decide) (by decide) (by decide)
        (Absorbs.of_skips s' h3 _ (allSpaceJSON_newlineText pre indent hpre hind _))
    · rw [emit_comma pre indent { st with scan := s' } _ (Or.inr rfl) hNI]
      exact ⟨Or.inl rfl, fun h => by simp only [hNI] at h; cases h⟩
  | scanEndObject =>
    obtain ⟨rfl, hk⟩ := hk
    refine ⟨closingText pre indent st ++ ['}'], s', ?_, ?_, ?_⟩
    · rw [emit_close _ _ _ _ _ (Or.inl rfl) (Or.inl rfl)]; rfl
    · rcases hk with h1 | ⟨h1, h2, h4⟩
      · have hsk := Step.skips_of_orEmpty h1
        have ht := hsim.eq_of_not_endValue (Step.ne_endValue_of_skips hsk)
        subst ht
        exact compactLoop_chunk
          (Absorbs.of_skips _ hsk _ (allSpaceJSON_closingText pre indent hpre hind st))
          hn (by decide) (by decide) (by decide) (Absorbs.refl s')
      · have hNI := needIndent_false hN (Step.not_orEmpty_of_ended h1)
        obtain ⟨ht1, ht2, ht3, _⟩ := hsim.ended h1 h2
        have hcl : closingText pre indent st = '\n' :: (pre ++
            (List.replicate (st.depth - 1).toNat indent).flatten) := by
          simp only [closingText, hNI, Bool.false_eq_true, if_false]; rfl
        have hws := allSpaceJSON_closingText pre indent hpre hind st
        rw [hcl] at hws ⊢
        have hnt : Scanner.next { t with step := Step.stateEndValue } '}' =
            (s', scanEndObject) := by
          rw [next_punct_of_ended _ (Or.inl rfl) '}' (by simp), stateEndValue_step, ht3, h4]
        exact compactLoop_chunk (Absorbs.of_ended t ht1 ht2 '\n' _ hws) hnt
          (by decide) (by decide) (by decide) (Absorbs.refl s')
    · rw [emit_close _ _ _ _ _ (Or.inl rfl) (Or.inl rfl)]
      exact ⟨Or.inl rfl, fun h => by cases h⟩
  | scanEndArray =>
    obtain ⟨rfl, hk⟩ := hk
    refine ⟨closingText pre indent st ++ [']'], s', ?_, ?_, ?_⟩
    · rw [emit_close _ _ _ _ _ (Or.inr rfl) (Or.inr rfl)]; rfl
    · rcases hk with h1 | ⟨h1, h2, h4⟩
      · have hsk := Step.skips_of_orEmpty h1
        have ht := hsim.eq_of_not_endValue (Step.ne_endValue_of_skips hsk)
        subst ht
        exact compactLoop_chunk
          (Absorbs.of_skips _ hsk _ (allSpaceJSON_closingText pre indent hpre hind st))
          hn (by decide) (by decide) (by decide) (Absorbs.refl s')
      · have hNI := needIndent_false hN (Step.not_orEmpty_of_ended h1)
        obtain ⟨ht1, ht2, ht3, _⟩ := hsim.ended h1 h2
        have hcl : closingText pre indent st = '\n' :: (pre ++
            (List.replicate (st.depth - 1).toNat indent).flatten) := by
          simp only [closingText, hNI, Bool.false_eq_true, if_false]; rfl
        have hws := allSpaceJSON_closingText pre indent hpre hind st
        rw [hcl] at hws ⊢
        have hnt : Scanner.next { t with step := Step.stateEndValue } ']' =
            (s', scanEndArray) := by
          rw [next_punct_of_ended _ (Or.inl rfl) ']' (by simp), stateEndValue_step, ht3, h4]
        exact compactLoop_chunk (Absorbs.of_ended t ht1 ht2 '\n' _ hws) hnt
          (by decide) (by decide) (by decide) (Absorbs.refl s')
    · rw [emit_close _ _ _ _ _ (Or.inr rfl) (Or.inr rfl)]
      exact ⟨Or.inl rfl, fun h => by cases h⟩
  | scanEnd =>
    obtain ⟨h1, h2, h3⟩ := hk
    have hNI := needIndent_false hN (Step.orEmpty_false_of_skips_false h2)
    have ht : t = st.scan := by
      rcases hsim with h | ⟨ha, hb, _⟩
      · exact h
      · exact absurd (h3 ha) hb
    subst ht
    have hpend : pendingText pre indent { st with scan := s' } = [] := by
      simp [pendingText, hNI]
    refine ⟨[c], s', ?_, ?_, ?_⟩
    · rw [emit_plain _ _ _ _ _ (Or.inr rfl) (isPunct_of_space h1), hpend]; rfl
    · rw [compactLoop_drop hn (Or.inr rfl)]; rfl
    · rw [emit_plain _ _ _ _ _ (Or.inr rfl) (isPunct_of_space h1)]
      exact ⟨Or.inl rfl, fun h => by cases h⟩

/-! ## The simulation along the whole input -/

theorem compactLoop_of_stateError (s : Scanner) (h : s.step = Step.stateError)
    (src : List Char) : compactLoop s src = (s, []) := by
  cases src with
  | nil => rfl
  | cons c rest =>
    have hn : s.next c = (s, scanError) := by
      rw [Scanner.next]
      simp only [h]
    exact compactLoop_stop hn rest

theorem compactLoop_append (s : Scanner) (hs : s.WF) (a b : List Char) :
    compactLoop s (a ++ b) =
      ((compactLoop (compactLoop s a).1 b).1,
        (compactLoop s a).2 ++ (compactLoop (compactLoop s a).1 b).2) := by
  induction a generalizing s with
  | nil => rfl
  | cons c a ih =>
    have hg := goodStep_next s c hs
    cases hn : s.next c with
    | mk s' v =>
      rw [hn] at hg
      by_cases hv : v = scanError
      · subst hv
        rw [List.cons_append, compactLoop_stop hn, compactLoop_stop hn,
          compactLoop_of_stateError s' (hg.1 rfl).2]
        rfl
      · by_cases hd : v = scanSkipSpace ∨ v = scanEnd
        · rw [List.cons_append, compactLoop_drop hn hd, compactLoop_drop hn hd]
          exact ih s' hg.2
        · have h2 : v ≠ scanSkipSpace := fun h => hd (Or.inl h)
          have h3 : v ≠ scanEnd := fun h => hd (Or.inr h)
          rw [List.cons_append, compactLoop_keep hn hv h2 h3, compactLoop_keep hn hv h2 h3,
            ih s' hg.2]
          rfl

theorem compactLoop_fst (s : Scanner) (src : List Char) :
    (compactLoop s src).1 = scanAll s src := by
  induction src generalizing s with
  | nil => rfl
  | cons c rest ih =>
    rw [scanAll, compactLoop]
    split
    rename_i s' v _
    split
    · rfl
    · split
      · exact ih s'
      · exact ih s'

theorem scanAll_err (s : Scanner) (src : List Char) (h : s.err = true) :
    (scanAll s src).err = true := by
  induction src generalizing s with
  | nil => exact h
  | cons c rest ih =>
    rw [scanAll]
    have := Scanner.next_err s c h
    split
    rename_i s' v heq
    rw [heq] at this
    split
    · exact this
    · exact ih s' this

theorem SimInv.skip {st : Indenter} {t : Scanner} {c : Char} {s' : Scanner}
    (hinv : SimInv st t) (hk : StepKind st.scan c s' scanSkipSpace) :
    SimInv { st with scan := s' } t := by
  obtain ⟨hsim, hN⟩ := hinv
  obtain ⟨_, hk⟩ := hk
  rcases hk with ⟨_, rfl⟩ | ⟨h1, h2, rfl⟩
  · exact ⟨hsim, hN⟩
  · have hne : st.scan.step ≠ Step.stateEndValue := by
      intro h; rw [h] at h1; cases h1
    have ht := hsim.eq_of_not_endValue hne
    subst ht
    refine ⟨Or.inr ⟨rfl, h2, st.scan.step, h1, rfl⟩, fun h => ?_⟩
    have := needIndent_false hN (Step.not_orEmpty_of_ended (Or.inr h1))
    rw [this] at h
    cases h

theorem sim_loop (pre indent : List Char) (hpre : allSpaceJSON pre = true)
    (hind : allSpaceJSON indent = true) (t₀ : Scanner) (h₀ : t₀.WF) (src : List Char) :
    ∀ (st : Indenter) (t : Scanner) (k : List Char),
      compactLoop t₀ st.dst = (t, k) → SimInv st t →
      (appendIndentLoop pre indent st src).scan.err = false →
      ∃ t', compactLoop t₀ (appendIndentLoop pre indent st src).dst =
          (t', k ++ (compactLoop st.scan src).2) ∧
        SimScan (appendIndentLoop pre indent st src).scan t' := by
  induction src with
  | nil =>
    intro st t k hk hinv _
    exact ⟨t, by simpa [appendIndentLoop, compactLoop] using hk, hinv.1⟩
  | cons c rest ih =>
    intro st t k hk hinv hfin
    cases hn : st.scan.next c with
    | mk s' v =>
      have herr : s'.err = false := by
        cases he : s'.err with
        | false => rfl
        | true =>
          rw [appendIndentLoop_scan, scanAll, hn] at hfin
          simp only at hfin
          split at hfin
          · rw [he] at hfin; cases hfin
          · rw [scanAll_err s' rest he] at hfin; cases hfin
      have hkind := stepOK_next st.scan c
      rw [hn] at hkind
      rcases hkind with hkind | hkind
      · simp only at hkind; rw [herr] at hkind; cases hkind
      simp only at hkind
      by_cases hv1 : v = scanSkipSpace
      · subst hv1
        have hl : appendIndentLoop pre indent st (c :: rest) =
            appendIndentLoop pre indent { st with scan := s' } rest := by
          rw [appendIndentLoop, hn]; simp only [if_true]
        rw [hl] at hfin ⊢
        rw [compactLoop_drop hn (Or.inl rfl)]
        exact ih { st with scan := s' } t k hk (hinv.skip hkind) hfin
      by_cases hv2 : v = scanError
      · subst hv2
        have hl : appendIndentLoop pre indent st (c :: rest) = { st with scan := s' } := by
          rw [appendIndentLoop, hn]; simp
        rw [hl, compactLoop_stop hn]
        have hs : s' = st.scan := hkind
        refine ⟨t, by simpa using hk, ?_⟩
        simp only [hs]
        exact hinv.1
      have hl : appendIndentLoop pre indent st (c :: rest) =
          appendIndentLoop pre indent (Indenter.emit pre indent { st with scan := s' } v c)
            rest := by
        rw [appendIndentLoop, hn]; simp only [hv1, hv2, if_false]
      obtain ⟨chunk, t', hd, hc, hinv'⟩ :=
        sim_step pre indent hpre hind st t c s' v hinv hn herr hv1 hv2
      rw [hl] at hfin ⊢
      have hk' : compactLoop t₀ (Indenter.emit pre indent { st with scan := s' } v c).dst =
          (t', k ++ (if v = scanEnd then [] else [c])) := by
        rw [hd, compactLoop_append t₀ h₀, hk, hc]
      obtain ⟨t'', h1, h2⟩ := ih _ t' _ hk' hinv' hfin
      refine ⟨t'', ?_, h2⟩
      rw [h1, emit_scan]
      by_cases hv3 : v = scanEnd
      · rw [compactLoop_drop hn (Or.inr hv3)]
        simp [hv3]
      · rw [compactLoop_keep hn hv2 hv1 hv3]
        simp [hv3]

theorem SimScan.eof_eq {s t : Scanner} (h : SimScan s t) : t.eof = s.eof := by
  rcases h with rfl | ⟨h1, h2, st, hst, rfl⟩
  · rfl
  · have hs := next_space_of_endValue s ' ' h1 h2 rfl
    have ht := next_space_of_numEnd { s with step := st } ' ' hst h2 rfl
    simp only [Scanner.eof, hs, ht]

/-- When `json.Indent` accepts an input, its output is valid JSON and has the
compact form of the input. -/
theorem Indent_compact (src pre indent out : List Char) (hpre : allSpaceJSON pre = true)
    (hind : allSpaceJSON indent = true) (h : Indent src pre indent = some out) :
    Valid out = true ∧ Compact src = Compact out ∧ (Compact src).isSome = true := by
  unfold Indent at h
  simp only at h
  split at h
  · rename_i heof
    simp only [Option.some.injEq] at h
    have herr : (appendIndentLoop pre indent
        { scan := Scanner.reset, needIndent := false, depth := 0, dst := [] } src).scan.err =
          false := by
      cases he : (appendIndentLoop pre indent
        { scan := Scanner.reset, needIndent := false, depth := 0, dst := [] } src).scan.err with
      | false => rfl
      | true => rw [eof_of_err _ he] at heof; cases heof
    obtain ⟨t', h1, h2⟩ := sim_loop pre indent hpre hind Scanner.reset reset_WF src
      { scan := Scanner.reset, needIndent := false, depth := 0, dst := [] } Scanner.reset []
      rfl ⟨Or.inl rfl, fun h => by cases h⟩ herr
    rw [h] at h1
    simp only [List.nil_append] at h1
    have ht' : t'.eof = true := by rw [h2.eof_eq]; exact heof
    have hsrc : (compactLoop Scanner.reset src).1.eof = true := by
      rw [compactLoop_fst, ← appendIndentLoop_scan pre indent
        { scan := Scanner.reset, needIndent := false, depth := 0, dst := [] } src]
      exact heof
    refine ⟨?_, ?_, ?_⟩
    · rw [Valid, checkValid_eq _ _ reset_WF, ← compactLoop_fst, h1]
      exact ht'
    · simp only [Compact, hsrc, h1, ht', if_true]
    · simp only [Compact, hsrc, if_true, Option.isSome_some]
  · cases h

/-! ## The scalars of JSON and the scanner -/

theorem next_of_tokenStep (s : Scanner) (c : Char) (st' : Step)
    (h : tokenStep s.step c = some st') : s.next c = ({ s with step := st' }, scanContinue) := by
  obtain ⟨step, endTop, stack, err⟩ := s
  cases step <;> simp only [tokenStep] at h <;> first
    | cases h
    | (simp only [Scanner.next, Scanner.stateInString, Scanner.stateInStringEsc,
        Scanner.stateHex, Scanner.stateNeg, Scanner.state1, Scanner.state0, Scanner.stateDot,
        Scanner.stateDot0, Scanner.stateE, Scanner.stateESign, Scanner.stateE0, Scanner.expect]
       split_ifs at h ⊢ <;> simp_all)

theorem tokenStart_props {c : Char} {st : Step} (h : tokenStart c = some st) :
    isSpaceJSON c = false ∧ isPunct c = false ∧ c ≠ ']' ∧
    ∀ s : Scanner, s.stateBeginValue c = ({ s with step := st }, scanBeginLiteral) := by
  unfold tokenStart at h
  split_ifs at h with h1 h2 h3 h4 h5 h6 h7
  all_goals simp only [Option.some.injEq] at h
  all_goals subst h
  · subst h1; exact ⟨by decide, by decide, by decide, fun s => rfl⟩
  · subst h2; exact ⟨by decide, by decide, by decide, fun s => rfl⟩
  · subst h3; exact ⟨by decide, by decide, by decide, fun s => rfl⟩
  · subst h4; exact ⟨by decide, by decide, by decide, fun s => rfl⟩
  · subst h5; exact ⟨by decide, by decide, by decide, fun s => rfl⟩
  · subst h6; exact ⟨by decide, by decide, by decide, fun s => rfl⟩
  · have hp := isPunct_of_range h7
    have hsp : isSpaceJSON c = false := by
      cases hs : isSpaceJSON c with
      | false => rfl
      | true =>
        rcases isSpaceJSON_cases hs with rfl | rfl | rfl | rfl <;> exact absurd h7.1 (by decide)
    have hp' := hp
    simp only [isPunct, Bool.or_eq_false_iff, beq_eq_false_iff_ne, ne_eq] at hp'
    obtain ⟨⟨⟨⟨⟨p1, p2⟩, p3⟩, p4⟩, p5⟩, p6⟩ := hp'
    refine ⟨hsp, hp, p6, fun s => ?_⟩
    rw [Scanner.stateBeginValue]
    simp only [hsp, Bool.false_eq_true, if_false, p1, p2, h1, h2, h3, h4, h5, h6, h7, and_self,
      if_true]

theorem next_of_tokenStart (s : Scanner) (c : Char) (st : Step)
    (hs : s.step = Step.stateBeginValue ∨ s.step = Step.stateBeginValueOrEmpty)
    (h : tokenStart c = some st) : s.next c = ({ s with step := st }, scanBeginLiteral) := by
  obtain ⟨h1, _, h3, h4⟩ := tokenStart_props h
  rcases hs with hs | hs
  · rw [Scanner.next]; simp only [hs]; exact h4 s
  · rw [Scanner.next]; simp only [hs]
    rw [Scanner.stateBeginValueOrEmpty]
    simp only [h1, Bool.false_eq_true, if_false, h3]
    exact h4 s

theorem next_quote_of_key (s : Scanner)
    (hs : s.step = Step.stateBeginString ∨ s.step = Step.stateBeginStringOrEmpty) :
    s.next '"' = ({ s with step := Step.stateInString }, scanBeginLiteral) := by
  obtain ⟨step, endTop, stack, err⟩ := s
  simp only at hs
  rcases hs with rfl | rfl <;> rfl
/-! ## Runs of `appendIndent` over the parts of a JSON text -/

theorem runs_refl (st : Indenter) : Runs st [] st := fun _ => rfl

theorem runs_trans {st st₁ st₂ : Indenter} {a b : List Char} (h1 : Runs st a st₁)
    (h2 : Runs st₁ b st₂) : Runs st (a ++ b) st₂ := by
  intro rest
  rw [List.append_assoc, h1, h2]

theorem runs_step (st : Indenter) {c : Char} {s' : Scanner} {v : ScanCode}
    (h : st.scan.next c = (s', v)) (hv1 : v ≠ scanSkipSpace) (hv2 : v ≠ scanError) :
    Runs st [c] (Indenter.emit [] "  ".toList { st with scan := s' } v c) := by
  intro rest
  rw [List.singleton_append, appendIndentLoop, h]
  simp only [hv1, hv2, if_false]

theorem runs_skip {st : Indenter} {c : Char} {s' : Scanner}
    (h : st.scan.next c = (s', scanSkipSpace)) : Runs st [c] { st with scan := s' } := by
  intro rest
  rw [List.singleton_append, appendIndentLoop, h]
  simp only [if_true]

theorem runs_cons {st st₁ st₂ : Indenter} {c : Char} {a : List Char} (h1 : Runs st [c] st₁)
    (h2 : Runs st₁ a st₂) : Runs st (c :: a) st₂ :=
  runs_trans h1 h2

theorem runs_ws_fixed (st : Indenter)
    (h : ∀ c, isSpaceJSON c = true → st.scan.next c = (st.scan, scanSkipSpace))
    (w : List Char) (hw : allSpaceJSON w = true) : Runs st w st := by
  induction w with
  | nil => exact runs_refl st
  | cons c w ih =>
    obtain ⟨hc, hw'⟩ := allSpaceJSON_cons hw
    exact runs_cons (runs_skip (h c hc)) (ih hw')

theorem runs_ws_skips (st : Indenter) (hs : st.scan.step.skips = true) (w : List Char)
    (hw : allSpaceJSON w = true) : Runs st w st :=
  runs_ws_fixed st (fun c hc => next_space_of_skips st.scan c hs hc) w hw

/-- After a value inside an array or an object, white space leaves the scanner
in `stateEndValue` or, when there is none, where it was. -/
theorem runs_ws_ended (st : Indenter)
    (hs : st.scan.step = Step.stateEndValue ∨ st.scan.step.numEnd = true)
    (hne : st.scan.parseState ≠ []) (w : List Char) (hw : allSpaceJSON w = true) :
    ∃ e, (e = Step.stateEndValue ∨ e.numEnd = true) ∧
      Runs st w { st with scan := { st.scan with step := e } } := by
  cases w with
  | nil => exact ⟨st.scan.step, hs, runs_refl st⟩
  | cons c w =>
    obtain ⟨hc, hw'⟩ := allSpaceJSON_cons hw
    refine ⟨Step.stateEndValue, Or.inl rfl, ?_⟩
    have h1 : st.scan.next c = ({ st.scan with step := Step.stateEndValue }, scanSkipSpace) := by
      rcases hs with h | h
      · rw [next_space_of_endValue st.scan c h hne hc, ← h]
      · exact next_space_of_numEnd st.scan c h hne hc
    refine runs_cons (runs_skip h1) ?_
    exact runs_ws_fixed { st with scan := { st.scan with step := Step.stateEndValue } }
      (fun c hc => next_space_of_endValue _ c rfl hne hc) w hw'

theorem flatten_replicate_two (n : Nat) :
    (List.replicate n "  ".toList).flatten = List.replicate (2 * n) ' ' := by
  induction n with
  | zero => rfl
  | succ n ih =>
    rw [List.replicate_succ, List.flatten_cons, ih, show 2 * (n + 1) = 2 + 2 * n by ring,
      List.replicate_add]
    rfl

theorem newlineText_nat (n : Nat) : newlineText [] "  ".toList (n : Int) = indentLine n := by
  simp only [newlineText, indentLine, Int.toNat_ofNat, List.append_nil, flatten_replicate_two]
  rfl

theorem newlineText_succ (n : Nat) :
    newlineText [] "  ".toList ((n : Int) + 1) = indentLine (n + 1) := by
  have := newlineText_nat (n + 1)
  rwa [Nat.cast_succ] at this

theorem newlineText_pred (n : Nat) :
    newlineText [] "  ".toList (((n + 1 : Nat) : Int) - 1) = indentLine n := by
  have := newlineText_nat n
  rwa [show ((n : Int)) = ((n + 1 : Nat) : Int) - 1 by push_cast; ring] at this

theorem allSpaceJSON_indentLine (n : Nat) : allSpaceJSON (indentLine n) = true := by
  rw [← newlineText_nat]
  exact allSpaceJSON_newlineText [] "  ".toList rfl rfl _

theorem pendingText_nat (s : Scanner) (b : Bool) (n : Nat) (dst : List Char) :
    pendingText [] "  ".toList { scan := s, needIndent := b, depth := (n : Int), dst := dst } =
      pendingLine b n := by
  cases b
  · rfl
  · simp only [pendingText, pendingLine, if_true]
    exact newlineText_succ n

theorem depth_bump (b : Bool) (n : Nat) :
    (if b = true then (n : Int) + 1 else (n : Int)) = ((bump b n : Nat) : Int) := by
  cases b <;> simp [bump]

/-- A token that is not punctuation, at the beginning of a value. -/
theorem runs_plain {s s' : Scanner} {c : Char} {v : ScanCode} (b : Bool) (n : Nat)
    (dst : List Char) (h : s.next c = (s', v)) (hv : v = scanBeginLiteral)
    (hp : isPunct c = false) :
    Runs { scan := s, needIndent := b, depth := (n : Int), dst := dst } [c]
      { scan := s', needIndent := false, depth := ((bump b n : Nat) : Int),
        dst := dst ++ (pendingLine b n ++ [c]) } := by
  have h1 := runs_step { scan := s, needIndent := b, depth := (n : Int), dst := dst } h
    (by rw [hv]; decide) (by rw [hv]; decide)
  rw [emit_plain _ _ _ _ _ (Or.inl hv) hp] at h1
  simp only [pendingText_nat, depth_bump] at h1
  exact h1

/-- A character inside a token. -/
theorem runs_continue {s s' : Scanner} {c : Char} (n : Int) (dst : List Char)
    (h : s.next c = (s', scanContinue)) :
    Runs { scan := s, needIndent := false, depth := n, dst := dst } [c]
      { scan := s', needIndent := false, depth := n, dst := dst ++ [c] } := by
  have h1 := runs_step { scan := s, needIndent := false, depth := n, dst := dst } h
    (by decide) (by decide)
  rw [emit_continue _ _ _ _ rfl] at h1
  exact h1

/-- An opening bracket. -/
theorem runs_open {s s' : Scanner} {c : Char} {v : ScanCode} (b : Bool) (n : Nat)
    (dst : List Char) (h : s.next c = (s', v)) (hv : v = scanBeginObject ∨ v = scanBeginArray)
    (hc : c = '{' ∨ c = '[') :
    Runs { scan := s, needIndent := b, depth := (n : Int), dst := dst } [c]
      { scan := s', needIndent := true, depth := ((bump b n : Nat) : Int),
        dst := dst ++ (pendingLine b n ++ [c]) } := by
  have h1 := runs_step { scan := s, needIndent := b, depth := (n : Int), dst := dst } h
    (by rcases hv with rfl | rfl <;> decide) (by rcases hv with rfl | rfl <;> decide)
  rw [emit_open _ _ _ _ _ hv hc] at h1
  simp only [pendingText_nat, depth_bump] at h1
  exact h1

/-- A comma. -/
theorem runs_comma {s s' : Scanner} {v : ScanCode} (n : Nat) (dst : List Char)
    (h : s.next ',' = (s', v)) (hv : v = scanObjectValue ∨ v = scanArrayValue) :
    Runs { scan := s, needIndent := false, depth := (n : Int), dst := dst } [',']
      { scan := s', needIndent := false, depth := (n : Int),
        dst := dst ++ (',' :: indentLine n) } := by
  have h1 := runs_step { scan := s, needIndent := false, depth := (n : Int), dst := dst } h (by rcases hv with rfl | rfl <;> decide) (by rcases hv with rfl | rfl <;> decide)
  rw [emit_comma _ _ _ _ hv rfl] at h1
  simp only [newlineText_nat] at h1
  exact h1

/-- A colon. -/
theorem runs_colon {s s' : Scanner} (n : Int) (dst : List Char)
    (h : s.next ':' = (s', scanObjectKey)) :
    Runs { scan := s, needIndent := false, depth := n, dst := dst } [':']
      { scan := s', needIndent := false, depth := n, dst := dst ++ [':', ' '] } := by
  have h1 := runs_step { scan := s, needIndent := false, depth := n, dst := dst } h
    (by decide) (by decide)
  rw [emit_colon _ _ _ rfl] at h1
  exact h1

/-- The closing bracket of an empty array or object. -/
theorem runs_close_empty {s s' : Scanner} {c : Char} {v : ScanCode} (n : Int)
    (dst : List Char) (h : s.next c = (s', v)) (hv : v = scanEndObject ∨ v = scanEndArray)
    (hc : c = '}' ∨ c = ']') :
    Runs { scan := s, needIndent := true, depth := n, dst := dst } [c]
      { scan := s', needIndent := false, depth := n, dst := dst ++ [c] } := by
  have h1 := runs_step { scan := s, needIndent := true, depth := n, dst := dst } h
    (by rcases hv with rfl | rfl <;> decide) (by rcases hv with rfl | rfl <;> decide)
  rw [emit_close _ _ _ _ _ hv hc] at h1
  exact h1

/-- The closing bracket after the last element or member. -/
theorem runs_close {s s' : Scanner} {c : Char} {v : ScanCode} (n : Nat)
    (dst : List Char) (h : s.next c = (s', v)) (hv : v = scanEndObject ∨ v = scanEndArray)
    (hc : c = '}' ∨ c = ']') :
    Runs { scan := s, needIndent := false, depth := ((n + 1 : Nat) : Int), dst := dst } [c]
      { scan := s', needIndent := false, depth := (n : Int),
        dst := dst ++ (indentLine n ++ [c]) } := by
  have h1 := runs_step { scan := s, needIndent := false, depth := ((n + 1 : Nat) : Int), dst := dst } h
    (by rcases hv with rfl | rfl <;> decide) (by rcases hv with rfl | rfl <;> decide)
  rw [emit_close _ _ _ _ _ hv hc] at h1
  simp only [closingText, Bool.false_eq_true, if_false, newlineText_pred] at h1
  have h2 : ((n + 1 : Nat) : Int) - 1 = (n : Int) := by push_cast; ring
  rw [h2] at h1
  exact h1

/-! ## The scanner at the punctuation of a JSON text -/

theorem Step.ended_cases {st : Step} (h : st.ended) :
    st = Step.stateEndValue ∨ st = Step.state1 ∨ st = Step.state0 ∨ st = Step.stateDot0 ∨
      st = Step.stateE0 := by
  rcases h with h | h
  · exact Or.inl h
  · cases st <;> simp_all [Step.numEnd]

theorem next_open_array (step : Step) (eT : Bool) (σ : List ParseState) (err : Bool)
    (hs : step.valuePos) (hlen : σ.length + 1 ≤ maxNestingDepth) :
    Scanner.next (Scanner.mk step eT (σ) err) '[' =
      ({ step := Step.stateBeginValueOrEmpty, endTop := eT,
         parseState := parseArrayValue :: σ, err := err }, scanBeginArray) := by
  have e1 : isSpaceJSON '[' = false := by decide
  have e2 : ¬ ('[' = ']') := by decide
  have e3 : ¬ ('[' = '{') := by decide
  rcases hs with rfl | rfl <;>
    simp only [Scanner.next, Scanner.stateBeginValueOrEmpty, Scanner.stateBeginValue,
      Scanner.pushParseState, e1, e2, e3, Bool.false_eq_true, if_false, if_true,
      List.length_cons, hlen]

theorem next_open_object (step : Step) (eT : Bool) (σ : List ParseState) (err : Bool)
    (hs : step.valuePos) (hlen : σ.length + 1 ≤ maxNestingDepth) :
    Scanner.next (Scanner.mk step eT (σ) err) '{' =
      ({ step := Step.stateBeginStringOrEmpty, endTop := eT,
         parseState := parseObjectKey :: σ, err := err }, scanBeginObject) := by
  have e1 : isSpaceJSON '{' = false := by decide
  have e2 : ¬ ('{' = ']') := by decide
  rcases hs with rfl | rfl <;>
    simp only [Scanner.next, Scanner.stateBeginValueOrEmpty, Scanner.stateBeginValue,
      Scanner.pushParseState, e1, e2, Bool.false_eq_true, if_false, if_true,
      List.length_cons, hlen]

theorem next_close_array_empty (eT : Bool) (σ : List ParseState) (err : Bool) :
    Scanner.next (Scanner.mk Step.stateBeginValueOrEmpty eT (parseArrayValue :: σ) err) ']' =
      (closedScanner eT σ err, scanEndArray) := rfl

theorem next_close_object_empty (eT : Bool) (σ : List ParseState) (err : Bool) :
    Scanner.next (Scanner.mk Step.stateBeginStringOrEmpty eT (parseObjectKey :: σ) err) '}' =
      (closedScanner eT σ err, scanEndObject) := rfl

theorem next_close_array (step : Step) (eT : Bool) (σ : List ParseState) (err : Bool)
    (hs : step.ended) :
    Scanner.next (Scanner.mk step eT (parseArrayValue :: σ) err) ']' = (closedScanner eT σ err, scanEndArray) := by
  rcases Step.ended_cases hs with rfl | rfl | rfl | rfl | rfl <;> rfl

theorem next_close_object (step : Step) (eT : Bool) (σ : List ParseState) (err : Bool)
    (hs : step.ended) :
    Scanner.next (Scanner.mk step eT (parseObjectValue :: σ) err) '}' = (closedScanner eT σ err, scanEndObject) := by
  rcases Step.ended_cases hs with rfl | rfl | rfl | rfl | rfl <;> rfl

theorem next_comma_array (step : Step) (eT : Bool) (σ : List ParseState) (err : Bool)
    (hs : step.ended) :
    Scanner.next (Scanner.mk step eT (parseArrayValue :: σ) err) ',' =
      ({ step := Step.stateBeginValue, endTop := eT, parseState := parseArrayValue :: σ,
         err := err }, scanArrayValue) := by
  rcases Step.ended_cases hs with rfl | rfl | rfl | rfl | rfl <;> rfl

theorem next_comma_object (step : Step) (eT : Bool) (σ : List ParseState) (err : Bool)
    (hs : step.ended) :
    Scanner.next (Scanner.mk step eT (parseObjectValue :: σ) err) ',' =
      ({ step := Step.stateBeginString, endTop := eT, parseState := parseObjectKey :: σ,
         err := err }, scanObjectValue) := by
  rcases Step.ended_cases hs with rfl | rfl | rfl | rfl | rfl <;> rfl

theorem next_colon (step : Step) (eT : Bool) (σ : List ParseState) (err : Bool)
    (hs : step.ended) :
    Scanner.next (Scanner.mk step eT (parseObjectKey :: σ) err) ':' =
      ({ step := Step.stateBeginValue, endTop := eT, parseState := parseObjectValue :: σ,
         err := err }, scanObjectKey) := by
  rcases Step.ended_cases hs with rfl | rfl | rfl | rfl | rfl <;> rfl

/-! ## Scalars and keys -/

theorem runs_token_tail (cs : List Char) :
    ∀ (step : Step) (eT : Bool) (σ : List ParseState) (err : Bool) (n : Int)
      (dst : List Char) (e : Step), tokenRun step cs = some e →
      Runs { scan := { step := step, endTop := eT, parseState := σ, err := err },
             needIndent := false, depth := n, dst := dst } cs
        { scan := { step := e, endTop := eT, parseState := σ, err := err },
          needIndent := false, depth := n, dst := dst ++ cs } := by
  induction cs with
  | nil =>
    intro step eT σ err n dst e h
    simp only [tokenRun, Option.some.injEq] at h
    subst h
    rw [List.append_nil]
    exact runs_refl _
  | cons c cs ih =>
    intro step eT σ err n dst e h
    simp only [tokenRun] at h
    cases h1 : tokenStep step c with
    | none => rw [h1] at h; cases h
    | some st1 =>
      rw [h1] at h
      change tokenRun st1 cs = some e at h
      have hn := next_of_tokenStep
        { step := step, endTop := eT, parseState := σ, err := err } c st1 h1
      have h2 := runs_cons (runs_continue n dst hn) (ih st1 eT σ err n (dst ++ [c]) e h)
      rw [List.append_assoc] at h2
      exact h2

theorem runs_token (tok : List Char) (e : Step) (h : tokenEnd tok = some e) (step : Step)
    (hs : step.valuePos) (eT : Bool) (σ : List ParseState) (err : Bool) (b : Bool) (n : Nat)
    (dst : List Char) :
    Runs { scan := { step := step, endTop := eT, parseState := σ, err := err },
           needIndent := b, depth := (n : Int), dst := dst } tok
      { scan := { step := e, endTop := eT, parseState := σ, err := err },
        needIndent := false, depth := ((bump b n : Nat) : Int),
        dst := dst ++ (pendingLine b n ++ tok) } := by
  cases tok with
  | nil => cases h
  | cons c cs =>
    simp only [tokenEnd] at h
    cases h1 : tokenStart c with
    | none => rw [h1] at h; cases h
    | some st1 =>
      rw [h1] at h
      change tokenRun st1 cs = some e at h
      have hn := next_of_tokenStart
        { step := step, endTop := eT, parseState := σ, err := err } c st1 hs h1
      have h2 := runs_cons (runs_plain b n dst hn rfl (tokenStart_props h1).2.1)
        (runs_token_tail cs st1 eT σ err _ _ e h)
      simp only [List.append_assoc, List.singleton_append] at h2
      exact h2

theorem runs_key (key : List Char) (h : isStringToken key = true) (step : Step)
    (hs : step.keyPos) (eT : Bool) (σ : List ParseState) (err : Bool) (b : Bool) (n : Nat)
    (dst : List Char) :
    Runs { scan := { step := step, endTop := eT, parseState := σ, err := err },
           needIndent := b, depth := (n : Int), dst := dst } key
      { scan := { step := Step.stateEndValue, endTop := eT, parseState := σ, err := err },
        needIndent := false, depth := ((bump b n : Nat) : Int),
        dst := dst ++ (pendingLine b n ++ key) } := by
  cases key with
  | nil => simp [isStringToken] at h
  | cons c cs =>
    simp only [isStringToken, List.head?_cons, Bool.and_eq_true, beq_iff_eq,
      Option.some.injEq] at h
    obtain ⟨rfl, h2⟩ := h
    have h3 : tokenRun Step.stateInString cs = some Step.stateEndValue := h2
    have hn := next_quote_of_key
      { step := step, endTop := eT, parseState := σ, err := err } hs
    have h4 := runs_cons (runs_plain b n dst hn rfl (by decide))
      (runs_token_tail cs Step.stateInString eT σ err _ _ _ h3)
    simp only [List.append_assoc, List.singleton_append] at h4
    exact h4

/-! ## `appendIndent` on a JSON text -/

theorem closedScanner_valueEnd (eT : Bool) (σ : List ParseState) :
    ValueEnd eT σ (closedScanner eT σ false) := by
  cases σ with
  | nil => exact Or.inr ⟨rfl, rfl⟩
  | cons p ps => exact Or.inl ⟨Step.stateEndValue, Or.inl rfl, rfl⟩

theorem runs_congr {st st₁ st₂ : Indenter} {a b : List Char} (h : Runs st a st₁) (ha : a = b)
    (hst : st₁ = st₂) : Runs st b st₂ := by
  subst ha; subst hst; exact h

mutual
theorem runs_value (t : JSONText) (step : Step) (eT : Bool) (σ : List ParseState) (b : Bool)
    (n : Nat) (dst : List Char) (hs : step.valuePos) (hw : t.wf = true)
    (hh : σ.length + t.height ≤ maxNestingDepth) :
    ∃ s₁, ValueEnd eT σ s₁ ∧
      Runs { scan := { step := step, endTop := eT, parseState := σ, err := false },
             needIndent := b, depth := (n : Int), dst := dst } t.render
        { scan := s₁, needIndent := false, depth := ((bump b n : Nat) : Int),
          dst := dst ++ (pendingLine b n ++ t.pretty (bump b n)) } := by
  cases t with
  | scalar tok =>
    simp only [JSONText.wf, isToken] at hw
    cases he : tokenEnd tok with
    | none => rw [he] at hw; cases hw
    | some e =>
      rw [he] at hw
      have hend : e.ended := by
        simp only [Bool.or_eq_true, beq_iff_eq] at hw
        exact hw
      exact ⟨_, Or.inl ⟨e, hend, rfl⟩, runs_token tok e he step hs eT σ false b n dst⟩
  | array ws es =>
    simp only [JSONText.wf, Bool.and_eq_true] at hw
    simp only [JSONText.height] at hh
    have hlen : σ.length + 1 ≤ maxNestingDepth := by omega
    have r1 := runs_open b n dst (next_open_array step eT σ false hs hlen) (Or.inr rfl)
      (Or.inr rfl)
    have r2 := runs_ws_skips
      { scan := { step := Step.stateBeginValueOrEmpty, endTop := eT,
                  parseState := parseArrayValue :: σ, err := false },
        needIndent := true, depth := ((bump b n : Nat) : Int),
        dst := dst ++ (pendingLine b n ++ ['[']) } rfl ws hw.1
    refine ⟨closedScanner eT σ false, closedScanner_valueEnd eT σ, ?_⟩
    cases hnil : es.isNil with
    | true =>
      have hes : es = Elements.nil := by cases es <;> simp_all [Elements.isNil]
      subst hes
      have r3 := runs_close_empty ((bump b n : Nat) : Int) (dst ++ (pendingLine b n ++ ['[']))
        (next_close_array_empty eT σ false) (Or.inr rfl) (Or.inr rfl)
      refine runs_congr (runs_trans (runs_trans r1 r2) r3) ?_ ?_
      · simp [JSONText.render, Elements.render]
      · simp [JSONText.pretty, Elements.isNil]
    | false =>
      obtain ⟨e, he, r3⟩ := runs_elements es Step.stateBeginValueOrEmpty eT σ true (bump b n)
        (dst ++ (pendingLine b n ++ ['['])) hnil (Or.inr rfl) hw.2 (by omega)
      have r4 := runs_close (bump b n)
        (dst ++ (pendingLine b n ++ ['[']) ++
          (pendingLine true (bump b n) ++ es.pretty (bump true (bump b n))))
        (next_close_array e eT σ false he) (Or.inr rfl) (Or.inr rfl)
      refine runs_congr (runs_trans (runs_trans (runs_trans r1 r2) r3) r4) ?_ ?_
      · simp [JSONText.render]
      · simp [JSONText.pretty, hnil, pendingLine, bump]
  | object ws ms =>
    simp only [JSONText.wf, Bool.and_eq_true] at hw
    simp only [JSONText.height] at hh
    have hlen : σ.length + 1 ≤ maxNestingDepth := by omega
    have r1 := runs_open b n dst (next_open_object step eT σ false hs hlen) (Or.inl rfl)
      (Or.inl rfl)
    have r2 := runs_ws_skips
      { scan := { step := Step.stateBeginStringOrEmpty, endTop := eT,
                  parseState := parseObjectKey :: σ, err := false },
        needIndent := true, depth := ((bump b n : Nat) : Int),
        dst := dst ++ (pendingLine b n ++ ['{']) } rfl ws hw.1
    refine ⟨closedScanner eT σ false, closedScanner_valueEnd eT σ, ?_⟩
    cases hnil : ms.isNil with
    | true =>
      have hms : ms = Members.nil := by cases ms <;> simp_all [Members.isNil]
      subst hms
      have r3 := runs_close_empty ((bump b n : Nat) : Int) (dst ++ (pendingLine b n ++ ['{']))
        (next_close_object_empty eT σ false) (Or.inl rfl) (Or.inl rfl)
      refine runs_congr (runs_trans (runs_trans r1 r2) r3) ?_ ?_
      · simp [JSONText.render, Members.render]
      · simp [JSONText.pretty, Members.isNil]
    | false =>
      obtain ⟨e, he, r3⟩ := runs_members ms Step.stateBeginStringOrEmpty eT σ true (bump b n)
        (dst ++ (pendingLine b n ++ ['{'])) hnil (Or.inr rfl) hw.2 (by omega)
      have r4 := runs_close (bump b n)
        (dst ++ (pendingLine b n ++ ['{']) ++
          (pendingLine true (bump b n) ++ ms.pretty (bump true (bump b n))))
        (next_close_object e eT σ false he) (Or.inl rfl) (Or.inl rfl)
      refine runs_congr (runs_trans (runs_trans (runs_trans r1 r2) r3) r4) ?_ ?_
      · simp [JSONText.render]
      · simp [JSONText.pretty, hnil, pendingLine, bump]
theorem runs_elements (es : Elements) (step : Step) (eT : Bool) (σ : List ParseState)
    (b : Bool) (n : Nat) (dst : List Char) (hnil : es.isNil = false) (hs : step.valuePos)
    (hw : es.wf = true) (hh : σ.length + 1 + es.height ≤ maxNestingDepth) :
    ∃ e : Step, e.ended ∧
      Runs { scan := { step := step, endTop := eT, parseState := parseArrayValue :: σ,
                       err := false },
             needIndent := b, depth := (n : Int), dst := dst } es.render
        { scan := { step := e, endTop := eT, parseState := parseArrayValue :: σ,
                    err := false },
          needIndent := false, depth := ((bump b n : Nat) : Int),
          dst := dst ++ (pendingLine b n ++ es.pretty (bump b n)) } := by
  cases es with
  | nil => cases hnil
  | cons v ws₁ ws₂ rest =>
    simp only [Elements.wf, Bool.and_eq_true] at hw
    obtain ⟨⟨⟨hv, h1⟩, h2⟩, hr⟩ := hw
    simp only [Elements.height] at hh
    obtain ⟨s₁, hend, r1⟩ := runs_value v step eT (parseArrayValue :: σ) b n dst hs hv
      (by simp only [List.length_cons]; omega)
    rcases hend with ⟨e, he, rfl⟩ | ⟨hσ, _⟩
    swap
    · cases hσ
    obtain ⟨e₂, he₂, r2⟩ := runs_ws_ended
      { scan := { step := e, endTop := eT, parseState := parseArrayValue :: σ, err := false },
        needIndent := false, depth := ((bump b n : Nat) : Int),
        dst := dst ++ (pendingLine b n ++ v.pretty (bump b n)) } he (List.cons_ne_nil _ _)
      ws₁ h1
    cases hnil' : rest.isNil with
    | true =>
      refine ⟨e₂, he₂, runs_congr (runs_trans r1 r2) ?_ ?_⟩
      · simp [Elements.render, hnil']
      · simp [Elements.pretty, hnil']
    | false =>
      have r3 := runs_comma (bump b n) (dst ++ (pendingLine b n ++ v.pretty (bump b n)))
        (next_comma_array e₂ eT σ false he₂) (Or.inr rfl)
      have r4 := runs_ws_skips
        { scan := { step := Step.stateBeginValue, endTop := eT,
                    parseState := parseArrayValue :: σ, err := false },
          needIndent := false, depth := ((bump b n : Nat) : Int),
          dst := dst ++ (pendingLine b n ++ v.pretty (bump b n)) ++
            (',' :: indentLine (bump b n)) } rfl ws₂ h2
      obtain ⟨e₅, he₅, r5⟩ := runs_elements rest Step.stateBeginValue eT σ false (bump b n)
        (dst ++ (pendingLine b n ++ v.pretty (bump b n)) ++ (',' :: indentLine (bump b n)))
        hnil' (Or.inl rfl) hr (by omega)
      refine ⟨e₅, he₅, runs_congr
        (runs_trans (runs_trans (runs_trans (runs_trans r1 r2) r3) r4) r5) ?_ ?_⟩
      · simp [Elements.render, hnil']
      · simp [Elements.pretty, hnil', pendingLine, bump]
theorem runs_members (ms : Members) (step : Step) (eT : Bool) (σ : List ParseState)
    (b : Bool) (n : Nat) (dst : List Char) (hnil : ms.isNil = false) (hs : step.keyPos)
    (hw : ms.wf = true) (hh : σ.length + 1 + ms.height ≤ maxNestingDepth) :
    ∃ e : Step, e.ended ∧
      Runs { scan := { step := step, endTop := eT, parseState := parseObjectKey :: σ,
                       err := false },
             needIndent := b, depth := (n : Int), dst := dst } ms.render
        { scan := { step := e, endTop := eT, parseState := parseObjectValue :: σ,
                    err := false },
          needIndent := false, depth := ((bump b n : Nat) : Int),
          dst := dst ++ (pendingLine b n ++ ms.pretty (bump b n)) } := by
  cases ms with
  | nil => cases hnil
  | cons key ws₁ ws₂ v ws₃ ws₄ rest =>
    simp only [Members.wf, Bool.and_eq_true] at hw
    obtain ⟨⟨⟨⟨⟨⟨hk, h1⟩, h2⟩, hv⟩, h3⟩, h4⟩, hr⟩ := hw
    simp only [Members.height] at hh
    have r1 := runs_key key hk step hs eT (parseObjectKey :: σ) false b n dst
    obtain ⟨e₂, he₂, r2⟩ := runs_ws_ended
      { scan := { step := Step.stateEndValue, endTop := eT,
                  parseState := parseObjectKey :: σ, err := false },
        needIndent := false, depth := ((bump b n : Nat) : Int),
        dst := dst ++ (pendingLine b n ++ key) } (Or.inl rfl) (List.cons_ne_nil _ _) ws₁ h1
    have r3 := runs_colon ((bump b n : Nat) : Int) (dst ++ (pendingLine b n ++ key))
      (next_colon e₂ eT σ false he₂)
    have r4 := runs_ws_skips
      { scan := { step := Step.stateBeginValue, endTop := eT,
                  parseState := parseObjectValue :: σ, err := false },
        needIndent := false, depth := ((bump b n : Nat) : Int),
        dst := dst ++ (pendingLine b n ++ key) ++ [':', ' '] } rfl ws₂ h2
    obtain ⟨s₅, hend, r5⟩ := runs_value v Step.stateBeginValue eT (parseObjectValue :: σ)
      false (bump b n) (dst ++ (pendingLine b n ++ key) ++ [':', ' ']) (Or.inl rfl) hv
      (by simp only [List.length_cons]; omega)
    rcases hend with ⟨e, he, rfl⟩ | ⟨hσ, _⟩
    swap
    · cases hσ
    obtain ⟨e₆, he₆, r6⟩ := runs_ws_ended
      { scan := { step := e, endTop := eT, parseState := parseObjectValue :: σ,
                  err := false },
        needIndent := false, depth := ((bump false (bump b n) : Nat) : Int),
        dst := dst ++ (pendingLine b n ++ key) ++ [':', ' '] ++
          (pendingLine false (bump b n) ++ v.pretty (bump false (bump b n))) } he
      (List.cons_ne_nil _ _) ws₃ h3
    cases hnil' : rest.isNil with
    | true =>
      refine ⟨e₆, he₆, runs_congr
        (runs_trans (runs_trans (runs_trans (runs_trans (runs_trans r1 r2) r3) r4) r5) r6)
        ?_ ?_⟩
      · simp [Members.render, hnil']
      · simp [Members.pretty, hnil', pendingLine, bump]
    | false =>
      have r7 := runs_comma (bump false (bump b n))
        (dst ++ (pendingLine b n ++ key) ++ [':', ' '] ++
          (pendingLine false (bump b n) ++ v.pretty (bump false (bump b n))))
        (next_comma_object e₆ eT σ false he₆) (Or.inl rfl)
      have r8 := runs_ws_skips
        { scan := { step := Step.stateBeginString, endTop := eT,
                    parseState := parseObjectKey :: σ, err := false },
          needIndent := false, depth := ((bump false (bump b n) : Nat) : Int),
          dst := dst ++ (pendingLine b n ++ key) ++ [':', ' '] ++
            (pendingLine false (bump b n) ++ v.pretty (bump false (bump b n))) ++
            (',' :: indentLine (bump false (bump b n))) } rfl ws₄ h4
      obtain ⟨e₉, he₉, r9⟩ := runs_members rest Step.stateBeginString eT σ false
        (bump false (bump b n))
        (dst ++ (pendingLine b n ++ key) ++ [':', ' '] ++
          (pendingLine false (bump b n) ++ v.pretty (bump false (bump b n))) ++
          (',' :: indentLine (bump false (bump b n))))
        hnil' (Or.inl rfl) hr (by omega)
      refine ⟨e₉, he₉, runs_congr
        (runs_trans (runs_trans (runs_trans (runs_trans (runs_trans (runs_trans (runs_trans
          (runs_trans r1 r2) r3) r4) r5) r6) r7) r8) r9) ?_ ?_⟩
      · simp [Members.render, hnil']
      · simp [Members.pretty, hnil', pendingLine, bump]
end

theorem next_trailing (s : Scanner) (hs : ValueEnd false [] s) (c : Char)
    (hc : isSpaceJSON c = true) :
    s.next c = ({ step := Step.stateEndTop, endTop := true, parseState := [], err := false },
      scanEnd) := by
  rcases hs with ⟨e, he, rfl⟩ | ⟨_, rfl⟩
  · rcases isSpaceJSON_cases hc with rfl | rfl | rfl | rfl <;>
      rcases Step.ended_cases he with rfl | rfl | rfl | rfl | rfl <;> rfl
  · rcases isSpaceJSON_cases hc with rfl | rfl | rfl | rfl <;> rfl

theorem runs_trailing (trail : List Char) (htr : allSpaceJSON trail = true) :
    ∀ (s : Scanner) (dst : List Char), ValueEnd false [] s →
      ∃ s', ValueEnd false [] s' ∧
        Runs { scan := s, needIndent := false, depth := 0, dst := dst } trail
          { scan := s', needIndent := false, depth := 0, dst := dst ++ trail } := by
  induction trail with
  | nil =>
    intro s dst hs
    refine ⟨s, hs, ?_⟩
    rw [List.append_nil]
    exact runs_refl _
  | cons c cs ih =>
    intro s dst hs
    obtain ⟨hc, hcs⟩ := allSpaceJSON_cons htr
    have hn := next_trailing s hs c hc
    have r1 := runs_step { scan := s, needIndent := false, depth := 0, dst := dst } hn
      (by decide) (by decide)
    rw [emit_plain _ _ _ _ _ (Or.inr rfl) (isPunct_of_space hc)] at r1
    obtain ⟨s', hs', r2⟩ := ih hcs
      { step := Step.stateEndTop, endTop := true, parseState := [], err := false }
      (dst ++ [c]) (Or.inr ⟨rfl, rfl⟩)
    refine ⟨s', hs', runs_congr (runs_cons r1 r2) rfl ?_⟩
    simp

theorem eof_of_valueEnd (s : Scanner) (hs : ValueEnd false [] s) : s.eof = true := by
  rcases hs with ⟨e, he, rfl⟩ | ⟨_, rfl⟩
  · rcases Step.ended_cases he with rfl | rfl | rfl | rfl | rfl <;> rfl
  · rfl

/-- `json.Indent` with an empty prefix and two spaces of indentation, on the
text of a JSON value with any white space around and between its tokens:
the result is the value pretty-printed, followed by the trailing white
space of the input. -/
theorem Indent_render (t : JSONText) (lead trail : List Char) (hw : t.wf = true)
    (hh : t.height ≤ maxNestingDepth) (hl : allSpaceJSON lead = true)
    (htr : allSpaceJSON trail = true) :
    Indent (lead ++ t.render ++ trail) [] "  ".toList = some (t.pretty 0 ++ trail) := by
  have r0 := runs_ws_skips
    { scan := Scanner.reset, needIndent := false, depth := 0, dst := [] } rfl lead hl
  obtain ⟨s₁, hs₁, r1⟩ := runs_value t Step.stateBeginValue false [] false 0 [] (Or.inl rfl) hw
    (by simpa using hh)
  obtain ⟨s₂, hs₂, r2⟩ := runs_trailing trail htr s₁
    ([] ++ (pendingLine false 0 ++ t.pretty (bump false 0))) hs₁
  have r := runs_trans (runs_trans r0 r1) r2 []
  rw [List.append_nil] at r
  unfold Indent
  simp only
  rw [r]
  simp only [appendIndentLoop, eof_of_valueEnd s₂ hs₂, if_true]
  simp [pendingLine, bump]

/-! ## The nesting limit of the scanner -/

/-- Sanity checks of the automaton of the scalars. -/
theorem isToken_checks :
    isToken "\"a\\u00e9\\n b\"".toList = true ∧ isToken "-12.50e+3".toList = true ∧
    isToken "null".toList = true ∧ isToken "01".toList = false ∧
    isToken "tru".toList = false ∧ isToken "\"a".toList = false ∧
    isToken "1.".toList = false ∧ isStringToken "\"a\"".toList = true ∧
    isStringToken "12".toList = false := by
  decide

theorem scanAll_opens (k : Nat) :
    ∀ (step : Step) (eT : Bool) (σ : List ParseState) (rest : List Char), step.valuePos →
      σ.length + (k + 1) ≤ maxNestingDepth →
      scanAll (Scanner.mk step eT σ false) (List.replicate (k + 1) '[' ++ rest) =
        scanAll (Scanner.mk Step.stateBeginValueOrEmpty eT
          (List.replicate (k + 1) parseArrayValue ++ σ) false) rest := by
  induction k with
  | zero =>
    intro step eT σ rest hs hlen
    have hn := next_open_array step eT σ false hs (by omega)
    show scanAll _ ('[' :: rest) = _
    rw [scanAll, hn]
    rfl
  | succ k ih =>
    intro step eT σ rest hs hlen
    have hn := next_open_array step eT σ false hs (by omega)
    show scanAll _ ('[' :: (List.replicate (k + 1) '[' ++ rest)) = _
    rw [scanAll, hn]
    simp only [reduceCtorEq, if_false]
    rw [ih Step.stateBeginValueOrEmpty eT (parseArrayValue :: σ) rest (Or.inr rfl)
      (by simp only [List.length_cons]; omega)]
    have : List.replicate (k + 1) parseArrayValue ++ parseArrayValue :: σ =
        List.replicate (k + 1 + 1) parseArrayValue ++ σ := by
      rw [List.replicate_succ' (k + 1), List.append_assoc]
      rfl
    rw [this]

/-- The scanner accepts brackets nested `maxNestingDepth` deep and no deeper: a
text that begins with one more opening bracket is not valid for `json.Valid`,
so `json.Indent` rejects it and the program prints it as it is. -/
theorem Valid_deep_array (rest : List Char) :
    Valid (List.replicate (maxNestingDepth + 1) '[' ++ rest) = false := by
  obtain ⟨m, hm⟩ : ∃ m, maxNestingDepth = m + 1 := ⟨9999, rfl⟩
  rw [Valid, checkValid_eq _ _ reset_WF, hm, List.replicate_succ' (m + 1), List.append_assoc]
  have h1 := scanAll_opens m Step.stateBeginValue false [] (['['] ++ rest) (Or.inl rfl)
    (by simp only [List.length_nil]; omega)
  rw [show Scanner.reset = Scanner.mk Step.stateBeginValue false [] false from rfl, h1]
  have e1 : isSpaceJSON '[' = false := by decide
  have e2 : ¬ ('[' = ']') := by decide
  have e3 : ¬ ('[' = '{') := by decide
  have hlen : ¬ (m + 1 + 1 ≤ maxNestingDepth) := by omega
  have hn : (Scanner.next (Scanner.mk Step.stateBeginValueOrEmpty false
      (List.replicate (m + 1) parseArrayValue ++ []) false) '[').1.err = true := by
    simp only [Scanner.next, Scanner.stateBeginValueOrEmpty, Scanner.stateBeginValue,
      Scanner.pushParseState, e1, e2, e3, Bool.false_eq_true, if_false, if_true,
      List.length_cons, List.length_append, List.length_replicate, List.length_nil,
      Nat.add_zero, hlen, Scanner.error]
  apply eof_of_err
  rw [show ['['] ++ rest = '[' :: rest from rfl, scanAll]
  split
  rename_i s' v heq
  rw [heq] at hn
  split
  · exact hn
  · exact scanAll_err s' rest hn

/-! ## Every text the scanner accepts is the text of a JSON value -/

theorem scanAll_cons_ok {s s' : Scanner} {c : Char} {v : ScanCode} (h : s.next c = (s', v))
    (hv : v ≠ scanError) (r : List Char) : scanAll s (c :: r) = scanAll s' r := by
  rw [scanAll, h]
  simp only [hv, if_false]

theorem not_accepts_of_err {s : Scanner} {c : Char} (h : (s.next c).1.err = true)
    (r : List Char) : ¬ Accepts s (c :: r) := by
  unfold Accepts
  rw [scanAll]
  split
  rename_i s' v heq
  rw [heq] at h
  split
  · rw [eof_of_err s' h]; exact Bool.false_ne_true
  · rw [eof_of_err _ (scanAll_err s' r h)]; exact Bool.false_ne_true

theorem accepts_cons {s s' : Scanner} {c : Char} {v : ScanCode} {r : List Char}
    (h : s.next c = (s', v)) (hv : v ≠ scanError) (ha : Accepts s (c :: r)) : Accepts s' r := by
  unfold Accepts at ha ⊢
  rwa [scanAll_cons_ok h hv] at ha

theorem split_space (p : List Char) :
    ∃ w r, p = w ++ r ∧ allSpaceJSON w = true ∧ r.length ≤ p.length ∧
      (r = [] ∨ ∃ c q, r = c :: q ∧ isSpaceJSON c = false) := by
  induction p with
  | nil => exact ⟨[], [], rfl, rfl, le_refl _, Or.inl rfl⟩
  | cons c p ih =>
    cases hc : isSpaceJSON c with
    | true =>
      obtain ⟨w, r, h1, h2, h3, h4⟩ := ih
      refine ⟨c :: w, r, by rw [h1]; rfl, ?_, ?_, h4⟩
      · simp only [allSpaceJSON, List.all_cons, hc, Bool.true_and]
        exact h2
      · simp only [List.length_cons]; omega
    | false => exact ⟨[], c :: p, rfl, rfl, le_refl _, Or.inr ⟨c, p, rfl, hc⟩⟩

theorem scanAll_ws_skips (s : Scanner) (hs : s.step.skips = true) (w : List Char)
    (hw : allSpaceJSON w = true) (r : List Char) : scanAll s (w ++ r) = scanAll s r := by
  induction w with
  | nil => rfl
  | cons c w ih =>
    obtain ⟨hc, hw'⟩ := allSpaceJSON_cons hw
    rw [List.cons_append, scanAll_cons_ok (next_space_of_skips s c hs hc) (by decide), ih hw']

theorem scanAll_ws_endValue (s : Scanner) (hs : s.step = Step.stateEndValue)
    (hne : s.parseState ≠ []) (w : List Char) (hw : allSpaceJSON w = true) (r : List Char) :
    scanAll s (w ++ r) = scanAll s r := by
  induction w with
  | nil => rfl
  | cons c w ih =>
    obtain ⟨hc, hw'⟩ := allSpaceJSON_cons hw
    rw [List.cons_append, scanAll_cons_ok (next_space_of_endValue s c hs hne hc) (by decide),
      ih hw']

theorem scanAll_ws_ended (s : Scanner) (hs : s.step.ended) (hne : s.parseState ≠ [])
    (w : List Char) (hw : allSpaceJSON w = true) (r : List Char) :
    ∃ e : Step, e.ended ∧ ((w = [] ∧ e = s.step) ∨ e = Step.stateEndValue) ∧
      scanAll s (w ++ r) = scanAll { s with step := e } r := by
  cases w with
  | nil => exact ⟨s.step, hs, Or.inl ⟨rfl, rfl⟩, rfl⟩
  | cons c w =>
    obtain ⟨hc, hw'⟩ := allSpaceJSON_cons hw
    refine ⟨Step.stateEndValue, Or.inl rfl, Or.inr rfl, ?_⟩
    have h1 : s.next c = ({ s with step := Step.stateEndValue }, scanSkipSpace) := by
      rcases hs with h | h
      · rw [next_space_of_endValue s c h hne hc, ← h]
      · exact next_space_of_numEnd s c h hne hc
    rw [List.cons_append, scanAll_cons_ok h1 (by decide)]
    exact scanAll_ws_endValue { s with step := Step.stateEndValue } rfl hne w hw' r

theorem eof_skips (s : Scanner) (hs : s.step.skips = true) (he : s.endTop = false) :
    s.eof = false := by
  unfold Scanner.eof
  rw [next_space_of_skips s ' ' hs (by decide), he]
  simp

theorem eof_ended_nested (s : Scanner) (hs : s.step.ended) (hne : s.parseState ≠ [])
    (he : s.endTop = false) : s.eof = false := by
  unfold Scanner.eof
  rcases hs with h | h
  · rw [next_space_of_endValue s ' ' h hne (by decide), he]
    simp
  · rw [next_space_of_numEnd s ' ' h hne (by decide)]
    simp [he]

theorem eof_midToken (s : Scanner) (hs : s.step.inToken = true) (hn : s.step.numEnd = false)
    (he : s.endTop = false) : s.eof = false := by
  obtain ⟨step, endTop, stack, err⟩ := s
  simp only at hs hn he
  subst he
  cases err <;> cases step <;>
    simp only [Step.inToken, Step.numEnd, Bool.false_eq_true, Bool.true_eq_false] at hs hn <;> rfl

theorem next_err_of_tokenStep_none (s : Scanner) (c : Char) (hs : s.step.inToken = true)
    (hn : s.step.numEnd = false) (h : tokenStep s.step c = none) : (s.next c).1.err = true := by
  obtain ⟨step, endTop, stack, err⟩ := s
  cases step <;>
    simp only [Step.inToken, Step.numEnd, Bool.false_eq_true, Bool.true_eq_false] at hs hn <;>
    simp only [tokenStep] at h <;>
    (simp only [Scanner.next, Scanner.stateInString, Scanner.stateInStringEsc,
        Scanner.stateHex, Scanner.stateNeg, Scanner.stateDot,
        Scanner.stateE, Scanner.stateESign, Scanner.expect, Scanner.error]
     split_ifs at h ⊢ <;> simp_all)

theorem next_of_ended_none (s : Scanner) (c : Char) (hs : s.step.ended)
    (h : tokenStep s.step c = none) : s.next c = s.stateEndValue c := by
  obtain ⟨step, endTop, stack, err⟩ := s
  rcases Step.ended_cases hs with h1 | h1 | h1 | h1 | h1 <;> simp only at h1 <;> subst h1
  · rfl
  all_goals
    simp only [tokenStep] at h
    simp only [Scanner.next, Scanner.state1, Scanner.state0, Scanner.stateDot0, Scanner.stateE0]
    split_ifs at h ⊢ <;> first | rfl | simp_all

theorem tokenStep_inToken {st st' : Step} {c : Char} (h : tokenStep st c = some st') :
    st'.inToken = true ∨ st' = Step.stateEndValue := by
  cases st <;> simp only [tokenStep] at h <;> first
    | (cases h; done)
    | (split_ifs at h <;> cases h <;> first | exact Or.inl rfl | exact Or.inr rfl)

theorem tokenStep_inString {st st' : Step} {c : Char} (hs : st.inString = true)
    (h : tokenStep st c = some st') : st'.inString = true ∨ st' = Step.stateEndValue := by
  cases st <;> simp only [Step.inString, Bool.false_eq_true] at hs <;>
    simp only [tokenStep] at h <;>
    (split_ifs at h <;> cases h <;> first | exact Or.inl rfl | exact Or.inr rfl)

theorem tokenStart_inToken {c : Char} {st : Step} (h : tokenStart c = some st) :
    st.inToken = true := by
  unfold tokenStart at h
  split_ifs at h <;> cases h <;> rfl

theorem tokenRun_inString : ∀ (a : List Char) (st e : Step),
    (st.inString = true ∨ st = Step.stateEndValue) → tokenRun st a = some e →
    (e.inString = true ∨ e = Step.stateEndValue) := by
  intro a
  induction a with
  | nil =>
    intro st e hs h
    simp only [tokenRun, Option.some.injEq] at h
    subst h
    exact hs
  | cons c a ih =>
    intro st e hs h
    rcases hs with hs | hs
    · cases h1 : tokenStep st c with
      | none => simp [tokenRun, h1] at h
      | some st' =>
        simp only [tokenRun, h1, Option.bind_some] at h
        exact ih st' e (tokenStep_inString hs h1) h
    · subst hs
      simp [tokenRun, tokenStep] at h
theorem next_err_of_valuePos (s : Scanner) (c : Char) (hs : s.step.valuePos)
    (h1 : isSpaceJSON c = false) (h2 : c ≠ '[') (h3 : c ≠ '{') (h4 : tokenStart c = none)
    (h5 : s.step = Step.stateBeginValueOrEmpty → c ≠ ']') : (s.next c).1.err = true := by
  obtain ⟨step, endTop, stack, err⟩ := s
  unfold tokenStart at h4
  split_ifs at h4 with g1 g2 g3 g4 g5 g6 g7
  rcases hs with hs | hs <;> simp only at hs <;> subst hs
  · simp only [Scanner.next, Scanner.stateBeginValue, h1, h2, h3, g1, g2, g3, g4, g5, g6, g7,
      Bool.false_eq_true, if_false, Scanner.error]
  · have h6 := h5 rfl
    simp only [Scanner.next, Scanner.stateBeginValueOrEmpty, Scanner.stateBeginValue, h1, h2, h3,
      h6, g1, g2, g3, g4, g5, g6, g7, Bool.false_eq_true, if_false, Scanner.error]

theorem next_err_of_deep_array (step : Step) (eT : Bool) (σ : List ParseState) (err : Bool)
    (hs : step.valuePos) (hlen : ¬ σ.length + 1 ≤ maxNestingDepth) :
    (Scanner.next (Scanner.mk step eT σ err) '[').1.err = true := by
  have e1 : isSpaceJSON '[' = false := by decide
  have e2 : ¬ ('[' = ']') := by decide
  have e3 : ¬ ('[' = '{') := by decide
  rcases hs with rfl | rfl <;>
    simp only [Scanner.next, Scanner.stateBeginValueOrEmpty, Scanner.stateBeginValue,
      Scanner.pushParseState, e1, e2, e3, Bool.false_eq_true, if_false, if_true,
      List.length_cons, hlen, Scanner.error]

theorem next_err_of_deep_object (step : Step) (eT : Bool) (σ : List ParseState) (err : Bool)
    (hs : step.valuePos) (hlen : ¬ σ.length + 1 ≤ maxNestingDepth) :
    (Scanner.next (Scanner.mk step eT σ err) '{').1.err = true := by
  have e1 : isSpaceJSON '{' = false := by decide
  have e2 : ¬ ('{' = ']') := by decide
  rcases hs with rfl | rfl <;>
    simp only [Scanner.next, Scanner.stateBeginValueOrEmpty, Scanner.stateBeginValue,
      Scanner.pushParseState, e1, e2, Bool.false_eq_true, if_false, if_true,
      List.length_cons, hlen, Scanner.error]

theorem next_err_of_keyPos (s : Scanner) (c : Char) (hs : s.step.keyPos)
    (h1 : isSpaceJSON c = false) (h2 : c ≠ '"')
    (h3 : s.step = Step.stateBeginStringOrEmpty → c ≠ '}') : (s.next c).1.err = true := by
  obtain ⟨step, endTop, stack, err⟩ := s
  rcases hs with hs | hs <;> simp only at hs <;> subst hs
  · simp only [Scanner.next, Scanner.stateBeginString, h1, h2, Bool.false_eq_true, if_false,
      Scanner.error]
  · have h4 := h3 rfl
    simp only [Scanner.next, Scanner.stateBeginStringOrEmpty, Scanner.stateBeginString, h1, h2,
      h4, Bool.false_eq_true, if_false, Scanner.error]

theorem stateEndValue_err_array (step : Step) (eT : Bool) (σ : List ParseState) (err : Bool)
    (c : Char) (h1 : isSpaceJSON c = false) (h2 : c ≠ ',') (h3 : c ≠ ']') :
    (Scanner.stateEndValue (Scanner.mk step eT (parseArrayValue :: σ) err) c).1.err = true := by
  simp only [Scanner.stateEndValue, h1, h2, h3, Bool.false_eq_true, if_false, Scanner.error]

theorem stateEndValue_err_value (step : Step) (eT : Bool) (σ : List ParseState) (err : Bool)
    (c : Char) (h1 : isSpaceJSON c = false) (h2 : c ≠ ',') (h3 : c ≠ '}') :
    (Scanner.stateEndValue (Scanner.mk step eT (parseObjectValue :: σ) err) c).1.err = true := by
  simp only [Scanner.stateEndValue, h1, h2, h3, Bool.false_eq_true, if_false, Scanner.error]

theorem stateEndValue_err_key (step : Step) (eT : Bool) (σ : List ParseState) (err : Bool)
    (c : Char) (h1 : isSpaceJSON c = false) (h2 : c ≠ ':') :
    (Scanner.stateEndValue (Scanner.mk step eT (parseObjectKey :: σ) err) c).1.err = true := by
  simp only [Scanner.stateEndValue, h1, h2, Bool.false_eq_true, if_false, Scanner.error]

theorem stateEndValue_err_top (step : Step) (eT : Bool) (err : Bool)
    (c : Char) (h1 : isSpaceJSON c = false) :
    (Scanner.stateEndValue (Scanner.mk step eT [] err) c).1.err = true := by
  simp only [Scanner.stateEndValue, Scanner.stateEndTop, h1, Bool.not_false, if_true,
    Scanner.error]

theorem tokenStep_closedScanner (eT : Bool) (σ : List ParseState) (err : Bool) (c : Char) :
    tokenStep (closedScanner eT σ err).step c = none := by
  unfold closedScanner
  split <;> rfl

/-- A scanner inside a scalar that accepts the rest of the input reads the rest
of the scalar, up to the first character that cannot continue it. -/
theorem token_complete (σ : List ParseState) : ∀ (q : List Char) (st : Step),
    (st.inToken = true ∨ st = Step.stateEndValue) →
    Accepts (Scanner.mk st false σ false) q →
    ∃ (a q' : List Char) (e : Step), q = a ++ q' ∧ tokenRun st a = some e ∧ e.ended ∧
      (∀ c r, q' = c :: r → tokenStep e c = none) ∧ q'.length ≤ q.length ∧
      scanAll (Scanner.mk st false σ false) q = scanAll (Scanner.mk e false σ false) q' := by
  intro q
  induction q with
  | nil =>
    intro st hst ha
    by_cases he : st.ended
    · exact ⟨[], [], st, rfl, rfl, he, (by intro c r h; cases h), le_refl _, rfl⟩
    · exfalso
      rcases hst with hst | hst
      · have hn : st.numEnd = false := by
          cases h : st.numEnd with
          | false => rfl
          | true => exact absurd (Or.inr h) he
        have := eof_midToken (Scanner.mk st false σ false) hst hn rfl
        unfold Accepts at ha
        rw [scanAll, this] at ha
        exact Bool.false_ne_true ha
      · exact he (Or.inl hst)
  | cons c r ih =>
    intro st hst ha
    cases h : tokenStep st c with
    | none =>
      by_cases he : st.ended
      · refine ⟨[], c :: r, st, rfl, rfl, he, fun c' r' h' => ?_, le_refl _, rfl⟩
        injection h' with h1 h2
        subst h1
        exact h
      · exfalso
        rcases hst with hst | hst
        · have hn : st.numEnd = false := by
            cases h' : st.numEnd with
            | false => rfl
            | true => exact absurd (Or.inr h') he
          exact not_accepts_of_err
            (next_err_of_tokenStep_none (Scanner.mk st false σ false) c hst hn h) r ha
        · exact he (Or.inl hst)
    | some st' =>
      have hn := next_of_tokenStep (Scanner.mk st false σ false) c st' h
      have ha' := accepts_cons hn (by decide) ha
      obtain ⟨a, q', e, h1, h2, h3, h4, h5, h6⟩ := ih st' (tokenStep_inToken h) ha'
      refine ⟨c :: a, q', e, by rw [h1]; rfl, ?_, h3, h4, ?_, ?_⟩
      · simp only [tokenRun, h, Option.bind_some]
        exact h2
      · simp only [List.length_cons]; omega
      · rw [scanAll_cons_ok hn (by decide)]
        exact h6

/-- After the top-level value, a scanner that accepts the rest of the input
has only white space left. -/
theorem trailing_space : ∀ (p : List Char) (s : Scanner), ValueEnd false [] s →
    (∀ c r, p = c :: r → tokenStep s.step c = none) → Accepts s p →
    allSpaceJSON p = true := by
  intro p
  induction p with
  | nil => intro s _ _ _; rfl
  | cons c r ih =>
    intro s hs hhead ha
    cases hc : isSpaceJSON c with
    | true =>
      have hn := next_trailing s hs c hc
      have ha' := accepts_cons hn (by decide) ha
      have := ih _ (Or.inr ⟨rfl, rfl⟩) (fun _ _ _ => rfl) ha'
      simp only [allSpaceJSON, List.all_cons, hc, Bool.true_and]
      exact this
    | false =>
      exfalso
      refine not_accepts_of_err ?_ r ha
      rcases hs with ⟨e, he, rfl⟩ | ⟨_, rfl⟩
      · rw [next_of_ended_none _ c he (hhead c r rfl)]
        exact stateEndValue_err_top e false false c hc
      · simp only [Scanner.next, Scanner.stateEndTop, hc, Bool.not_false, if_true, Scanner.error]
theorem not_accepts_nil {s : Scanner} (h : s.eof = false) : ¬ Accepts s [] := by
  unfold Accepts
  rw [scanAll, h]
  exact Bool.false_ne_true

theorem accepts_of_eq {s s' : Scanner} {p p' : List Char} (h : scanAll s p = scanAll s' p')
    (ha : Accepts s p) : Accepts s' p' := by
  unfold Accepts at ha ⊢
  rwa [h] at ha

theorem valueComplete_step (n : Nat) (hE : ElementsComplete n) (hM : MembersComplete n) :
    ValueComplete (n + 1) := by
  intro p c step σ hlen hσ hs hc hne ha
  by_cases h1 : c = '['
  · subst h1
    by_cases hd : σ.length + 1 ≤ maxNestingDepth
    swap
    · exact absurd ha (not_accepts_of_err (next_err_of_deep_array step false σ false hs hd) p)
    have hn := next_open_array step false σ false hs hd
    have e1 := scanAll_cons_ok hn (by decide) p
    have ha1 := accepts_of_eq e1 ha
    obtain ⟨w, r, hp, hw, hrl, hr⟩ := split_space p
    subst hp
    have e2 := scanAll_ws_skips
      (Scanner.mk Step.stateBeginValueOrEmpty false (parseArrayValue :: σ) false) rfl w hw r
    have ha2 := accepts_of_eq e2 ha1
    rcases hr with rfl | ⟨c1, q1, rfl, hc1⟩
    · exact absurd ha2 (not_accepts_nil (eof_skips _ rfl rfl))
    · by_cases h2 : c1 = ']'
      · subst h2
        have hn2 := next_close_array_empty false σ false
        refine ⟨JSONText.array w Elements.nil, q1, closedScanner false σ false, ?_, ?_, ?_,
          closedScanner_valueEnd false σ,
          fun c' _ _ => tokenStep_closedScanner false σ false c', ?_, ?_⟩
        · simp only [JSONText.wf, Elements.wf, hw, Bool.and_self]
        · simp only [JSONText.render, Elements.render, List.append_nil, List.cons_append,
            List.append_assoc, List.nil_append]
        · simp only [JSONText.height, Elements.height]
          omega
        · simp only [List.length_append, List.length_cons]
          omega
        · exact e1.trans (e2.trans (scanAll_cons_ok hn2 (by decide) q1))
      · obtain ⟨es, p', hwf, hnil, hren, hh, hl, hsc⟩ := hE q1 c1 Step.stateBeginValueOrEmpty σ
          (by simp only [List.length_append, List.length_cons] at hlen ⊢; omega) hd (Or.inr rfl)
          hc1 (fun _ => h2) ha2
        refine ⟨JSONText.array w es, p', closedScanner false σ false, ?_, ?_, ?_,
          closedScanner_valueEnd false σ,
          fun c' _ _ => tokenStep_closedScanner false σ false c', ?_, ?_⟩
        · simp only [JSONText.wf, hw, hwf, Bool.and_self]
        · simp only [JSONText.render]
          rw [hren]
          simp only [List.cons_append, List.append_assoc, List.nil_append]
        · simp only [JSONText.height]
          omega
        · simp only [List.length_append, List.length_cons]
          omega
        · exact e1.trans (e2.trans hsc)
  · by_cases h2 : c = '{'
    · subst h2
      by_cases hd : σ.length + 1 ≤ maxNestingDepth
      swap
      · exact absurd ha (not_accepts_of_err (next_err_of_deep_object step false σ false hs hd) p)
      have hn := next_open_object step false σ false hs hd
      have e1 := scanAll_cons_ok hn (by decide) p
      have ha1 := accepts_of_eq e1 ha
      obtain ⟨w, r, hp, hw, hrl, hr⟩ := split_space p
      subst hp
      have e2 := scanAll_ws_skips
        (Scanner.mk Step.stateBeginStringOrEmpty false (parseObjectKey :: σ) false) rfl w hw r
      have ha2 := accepts_of_eq e2 ha1
      rcases hr with rfl | ⟨c1, q1, rfl, hc1⟩
      · exact absurd ha2 (not_accepts_nil (eof_skips _ rfl rfl))
      · by_cases h3 : c1 = '}'
        · subst h3
          have hn2 := next_close_object_empty false σ false
          refine ⟨JSONText.object w Members.nil, q1, closedScanner false σ false, ?_, ?_, ?_,
            closedScanner_valueEnd false σ,
            fun c' _ _ => tokenStep_closedScanner false σ false c', ?_, ?_⟩
          · simp only [JSONText.wf, Members.wf, hw, Bool.and_self]
          · simp only [JSONText.render, Members.render, List.append_nil, List.cons_append,
              List.append_assoc, List.nil_append]
          · simp only [JSONText.height, Members.height]
            omega
          · simp only [List.length_append, List.length_cons]
            omega
          · exact e1.trans (e2.trans (scanAll_cons_ok hn2 (by decide) q1))
        · obtain ⟨ms, p', hwf, hnil, hren, hh, hl, hsc⟩ := hM q1 c1
            Step.stateBeginStringOrEmpty σ
            (by simp only [List.length_append, List.length_cons] at hlen ⊢; omega) hd
            (Or.inr rfl) hc1 (fun _ => h3) ha2
          refine ⟨JSONText.object w ms, p', closedScanner false σ false, ?_, ?_, ?_,
            closedScanner_valueEnd false σ,
            fun c' _ _ => tokenStep_closedScanner false σ false c', ?_, ?_⟩
          · simp only [JSONText.wf, hw, hwf, Bool.and_self]
          · simp only [JSONText.render]
            rw [hren]
            simp only [List.cons_append, List.append_assoc, List.nil_append]
          · simp only [JSONText.height]
            omega
          · simp only [List.length_append, List.length_cons]
            omega
          · exact e1.trans (e2.trans hsc)
    · cases ht : tokenStart c with
      | none =>
        exact absurd ha (not_accepts_of_err
          (next_err_of_valuePos (Scanner.mk step false σ false) c hs hc h1 h2 ht hne) p)
      | some st =>
        have hn := next_of_tokenStart (Scanner.mk step false σ false) c st hs ht
        have e1 := scanAll_cons_ok hn (by decide) p
        obtain ⟨a, q', e, k1, k2, k3, k4, k5, k6⟩ := token_complete σ p st
          (Or.inl (tokenStart_inToken ht)) (accepts_of_eq e1 ha)
        refine ⟨JSONText.scalar (c :: a), q', Scanner.mk e false σ false, ?_, ?_, ?_,
          Or.inl ⟨e, k3, rfl⟩, k4, k5, e1.trans k6⟩
        · have htok : tokenEnd (c :: a) = some e := by
            change (tokenStart c).bind (fun st => tokenRun st a) = some e
            rw [ht]
            exact k2
          simp only [JSONText.wf, isToken, htok]
          rcases Step.ended_cases k3 with h | h | h | h | h <;> subst h <;> rfl
        · rw [k1]
          rfl
        · simp only [JSONText.height]
          omega

theorem elementsComplete_step (n : Nat) (hV : ValueComplete (n + 1))
    (hE : ElementsComplete n) : ElementsComplete (n + 1) := by
  intro p c step σ hlen hσ hs hc hne ha
  obtain ⟨t, p1, s1, twf, tren, th, tve, thead, tlen, tsc⟩ :=
    hV p c step (parseArrayValue :: σ) hlen (by simpa using hσ) hs hc hne ha
  rcases tve with ⟨e, he, rfl⟩ | ⟨hnil, _⟩
  swap
  · cases hnil
  simp only [List.length_cons] at th
  have ha1 := accepts_of_eq tsc ha
  obtain ⟨w, r, hp, hw, hrl, hr⟩ := split_space p1
  subst hp
  obtain ⟨e', he', hor, e2⟩ := scanAll_ws_ended
    (Scanner.mk e false (parseArrayValue :: σ) false) he (List.cons_ne_nil _ _) w hw r
  have e2' : scanAll (Scanner.mk e false (parseArrayValue :: σ) false) (w ++ r) =
      scanAll (Scanner.mk e' false (parseArrayValue :: σ) false) r := e2
  have hhead : ∀ c' r', r = c' :: r' → tokenStep e' c' = none := by
    intro c' r' hr'
    rcases hor with ⟨hw0, he0⟩ | he0
    · subst hw0
      rw [he0]
      exact thead c' r' hr'
    · rw [he0]
      rfl
  have ha2 := accepts_of_eq e2' ha1
  rcases hr with rfl | ⟨c1, q1, rfl, hc1⟩
  · exact absurd ha2 (not_accepts_nil (eof_ended_nested _ he' (List.cons_ne_nil _ _) rfl))
  have hn0 := next_of_ended_none (Scanner.mk e' false (parseArrayValue :: σ) false) c1 he'
    (hhead c1 q1 rfl)
  by_cases h1 : c1 = ','
  · subst h1
    have hn := next_comma_array e' false σ false he'
    have e3 := scanAll_cons_ok hn (by decide) q1
    have ha3 := accepts_of_eq e3 ha2
    obtain ⟨w2, r2, hp2, hw2, hrl2, hr2⟩ := split_space q1
    subst hp2
    have e4 := scanAll_ws_skips
      (Scanner.mk Step.stateBeginValue false (parseArrayValue :: σ) false) rfl w2 hw2 r2
    have ha4 := accepts_of_eq e4 ha3
    rcases hr2 with rfl | ⟨c2, q2, rfl, hc2⟩
    · exact absurd ha4 (not_accepts_nil (eof_skips _ rfl rfl))
    obtain ⟨es, p', hwf, hnil, hren, hh, hl, hsc⟩ := hE q2 c2 Step.stateBeginValue σ
      (by simp only [List.length_append, List.length_cons] at hlen tlen hrl hrl2 ⊢; omega) hσ
      (Or.inl rfl) hc2 (by intro h; cases h) ha4
    refine ⟨Elements.cons t w w2 es, p', ?_, rfl, ?_, ?_, ?_, ?_⟩
    · simp only [Elements.wf, twf, hw, hw2, hwf, Bool.and_self]
    · rw [tren]
      simp only [Elements.render, hnil, Bool.false_eq_true, if_false]
      rw [hren]
      simp only [List.cons_append, List.append_assoc, List.nil_append]
    · simp only [Elements.height]
      have := max_le (a := t.height) (b := es.height)
        (c := maxNestingDepth - (σ.length + 1)) (by omega) (by omega)
      omega
    · simp only [List.length_append, List.length_cons] at hlen tlen hrl hrl2 hl ⊢
      omega
    · exact tsc.trans (e2'.trans (e3.trans (e4.trans hsc)))
  · by_cases h2 : c1 = ']'
    · subst h2
      have hn := next_close_array e' false σ false he'
      have e3 := scanAll_cons_ok hn (by decide) q1
      refine ⟨Elements.cons t w [] Elements.nil, q1, ?_, rfl, ?_, ?_, ?_, ?_⟩
      · have h0 : allSpaceJSON [] = true := rfl
        simp only [Elements.wf, twf, hw, h0, Bool.and_self]
      · rw [tren]
        simp only [Elements.render, Elements.isNil, if_true, List.append_nil,
          List.append_assoc]
      · simp only [Elements.height]
        have := max_le (a := t.height) (b := 0)
          (c := maxNestingDepth - (σ.length + 1)) (by omega) (by omega)
        omega
      · simp only [List.length_append, List.length_cons] at hlen tlen hrl ⊢
        omega
      · exact tsc.trans (e2'.trans e3)
    · refine absurd ha2 (not_accepts_of_err ?_ q1)
      rw [hn0]
      exact stateEndValue_err_array e' false σ false c1 hc1 h1 h2
theorem membersComplete_step (n : Nat) (hV : ValueComplete n) (hM : MembersComplete n) :
    MembersComplete (n + 1) := by
  intro p c step σ hlen hσ hs hc hne ha
  by_cases hq : c = '"'
  swap
  · exact absurd ha (not_accepts_of_err
      (next_err_of_keyPos (Scanner.mk step false (parseObjectKey :: σ) false) c hs hc hq hne) p)
  subst hq
  have hn := next_quote_of_key (Scanner.mk step false (parseObjectKey :: σ) false) hs
  have e1 := scanAll_cons_ok hn (by decide) p
  obtain ⟨a, q', e, k1, k2, k3, k4, k5, k6⟩ := token_complete (parseObjectKey :: σ) p
    Step.stateInString (Or.inl rfl) (accepts_of_eq e1 ha)
  have ke : e = Step.stateEndValue := by
    rcases tokenRun_inString a Step.stateInString e (Or.inl rfl) k2 with h | h
    · exfalso
      rcases Step.ended_cases k3 with h' | h' | h' | h' | h' <;> subst h' <;>
        exact Bool.false_ne_true h
    · exact h
  subst ke
  subst k1
  have ha1 := accepts_of_eq (e1.trans k6) ha
  obtain ⟨w1, r1, hp1, hw1, hrl1, hr1⟩ := split_space q'
  subst hp1
  have e2 := scanAll_ws_endValue
    (Scanner.mk Step.stateEndValue false (parseObjectKey :: σ) false) rfl
    (List.cons_ne_nil _ _) w1 hw1 r1
  have ha2 := accepts_of_eq e2 ha1
  rcases hr1 with rfl | ⟨c1, q1, rfl, hc1⟩
  · exact absurd ha2 (not_accepts_nil
      (eof_ended_nested _ (Or.inl rfl) (List.cons_ne_nil _ _) rfl))
  by_cases hcol : c1 = ':'
  swap
  · refine absurd ha2 (not_accepts_of_err ?_ q1)
    exact stateEndValue_err_key Step.stateEndValue false σ false c1 hc1 hcol
  subst hcol
  have hn2 := next_colon Step.stateEndValue false σ false (Or.inl rfl)
  have e3 := scanAll_cons_ok hn2 (by decide) q1
  have ha3 := accepts_of_eq e3 ha2
  obtain ⟨w2, r2, hp2, hw2, hrl2, hr2⟩ := split_space q1
  subst hp2
  have e4 := scanAll_ws_skips
    (Scanner.mk Step.stateBeginValue false (parseObjectValue :: σ) false) rfl w2 hw2 r2
  have ha4 := accepts_of_eq e4 ha3
  rcases hr2 with rfl | ⟨c2, q2, rfl, hc2⟩
  · exact absurd ha4 (not_accepts_nil (eof_skips _ rfl rfl))
  obtain ⟨t, p3, s3, twf, tren, th, tve, thead, tlen, tsc⟩ :=
    hV q2 c2 Step.stateBeginValue (parseObjectValue :: σ)
      (by simp only [List.length_append, List.length_cons] at hlen hrl1 hrl2 ⊢; omega)
      (by simpa using hσ) (Or.inl rfl) hc2 (by intro h; cases h) ha4
  rcases tve with ⟨e5, he5, rfl⟩ | ⟨hnil, _⟩
  swap
  · cases hnil
  simp only [List.length_cons] at th
  have ha5 := accepts_of_eq tsc ha4
  obtain ⟨w3, r3, hp3, hw3, hrl3, hr3⟩ := split_space p3
  subst hp3
  obtain ⟨e', he', hor, e6⟩ := scanAll_ws_ended
    (Scanner.mk e5 false (parseObjectValue :: σ) false) he5 (List.cons_ne_nil _ _) w3 hw3 r3
  have e6' : scanAll (Scanner.mk e5 false (parseObjectValue :: σ) false) (w3 ++ r3) =
      scanAll (Scanner.mk e' false (parseObjectValue :: σ) false) r3 := e6
  have hhead : ∀ c' r', r3 = c' :: r' → tokenStep e' c' = none := by
    intro c' r' hr'
    rcases hor with ⟨hw0, he0⟩ | he0
    · subst hw0
      rw [he0]
      exact thead c' r' hr'
    · rw [he0]
      rfl
  have ha6 := accepts_of_eq e6' ha5
  rcases hr3 with rfl | ⟨c3, q3, rfl, hc3⟩
  · exact absurd ha6 (not_accepts_nil (eof_ended_nested _ he' (List.cons_ne_nil _ _) rfl))
  have hn0 := next_of_ended_none (Scanner.mk e' false (parseObjectValue :: σ) false) c3 he'
    (hhead c3 q3 rfl)
  have hkey : isStringToken ('"' :: a) = true := by
    have htok : tokenEnd ('"' :: a) = some Step.stateEndValue := k2
    simp only [isStringToken, htok, List.head?_cons, beq_self_eq_true, Bool.and_self]
  have hpre := e1.trans (k6.trans (e2.trans (e3.trans (e4.trans (tsc.trans e6')))))
  by_cases h1 : c3 = ','
  · subst h1
    have hn := next_comma_object e' false σ false he'
    have e7 := scanAll_cons_ok hn (by decide) q3
    have ha7 := accepts_of_eq e7 ha6
    obtain ⟨w4, r4, hp4, hw4, hrl4, hr4⟩ := split_space q3
    subst hp4
    have e8 := scanAll_ws_skips
      (Scanner.mk Step.stateBeginString false (parseObjectKey :: σ) false) rfl w4 hw4 r4
    have ha8 := accepts_of_eq e8 ha7
    rcases hr4 with rfl | ⟨c4, q4, rfl, hc4⟩
    · exact absurd ha8 (not_accepts_nil (eof_skips _ rfl rfl))
    obtain ⟨ms, p', hwf, hnil, hren, hh, hl, hsc⟩ := hM q4 c4 Step.stateBeginString σ
      (by
        simp only [List.length_append, List.length_cons] at hlen hrl1 hrl2 tlen hrl3 hrl4 ⊢
        omega) hσ
      (Or.inl rfl) hc4 (by intro h; cases h) ha8
    refine ⟨Members.cons ('"' :: a) w1 w2 t w3 w4 ms, p', ?_, rfl, ?_, ?_, ?_, ?_⟩
    · simp only [Members.wf, hkey, twf, hw1, hw2, hw3, hw4, hwf, Bool.and_self]
    · rw [tren]
      simp only [Members.render, hnil, Bool.false_eq_true, if_false]
      rw [hren]
      simp only [List.cons_append, List.append_assoc, List.nil_append]
    · simp only [Members.height]
      have := max_le (a := t.height) (b := ms.height)
        (c := maxNestingDepth - (σ.length + 1)) (by omega) (by omega)
      omega
    · simp only [List.length_append, List.length_cons] at hlen hrl1 hrl2 tlen hrl3 hrl4 hl ⊢
      omega
    · exact hpre.trans (e7.trans (e8.trans hsc))
  · by_cases h2 : c3 = '}'
    · subst h2
      have hn := next_close_object e' false σ false he'
      have e7 := scanAll_cons_ok hn (by decide) q3
      refine ⟨Members.cons ('"' :: a) w1 w2 t w3 [] Members.nil, q3, ?_, rfl, ?_, ?_, ?_, ?_⟩
      · have h0 : allSpaceJSON [] = true := rfl
        simp only [Members.wf, hkey, twf, hw1, hw2, hw3, h0, Bool.and_self]
      · rw [tren]
        simp only [Members.render, Members.isNil, if_true, List.append_nil,
          List.append_assoc, List.cons_append, List.nil_append]
      · simp only [Members.height]
        have := max_le (a := t.height) (b := 0)
          (c := maxNestingDepth - (σ.length + 1)) (by omega) (by omega)
        omega
      · simp only [List.length_append, List.length_cons] at hlen hrl1 hrl2 tlen hrl3 ⊢
        omega
      · exact hpre.trans e7
    · refine absurd ha6 (not_accepts_of_err ?_ q3)
      rw [hn0]
      exact stateEndValue_err_value e' false σ false c3 hc3 h1 h2

theorem complete_all (n : Nat) : ValueComplete n ∧ ElementsComplete n ∧ MembersComplete n := by
  induction n with
  | zero =>
    refine ⟨?_, ?_, ?_⟩ <;> intro p c step σ hlen <;>
      exact absurd hlen (by simp only [List.length_cons]; omega)
  | succ n ih =>
    obtain ⟨hV, hE, hM⟩ := ih
    have hV' := valueComplete_step n hE hM
    exact ⟨hV', elementsComplete_step n hV' hE, membersComplete_step n hV hM⟩

/-- Every text `json.Valid` accepts is the text of a JSON value, a tree of
scalars, arrays and objects nested at most `maxNestingDepth` deep, with white
space around and between its tokens. -/
theorem Valid_render (p : List Char) (h : Valid p = true) :
    ∃ (t : JSONText) (lead trail : List Char), t.wf = true ∧ t.height ≤ maxNestingDepth ∧
      allSpaceJSON lead = true ∧ allSpaceJSON trail = true ∧ p = lead ++ t.render ++ trail := by
  rw [Valid, checkValid_eq _ _ reset_WF] at h
  have ha : Accepts (Scanner.mk Step.stateBeginValue false [] false) p := h
  obtain ⟨lead, r, hp, hl, _, hr⟩ := split_space p
  subst hp
  have e1 := scanAll_ws_skips (Scanner.mk Step.stateBeginValue false [] false) rfl lead hl r
  have ha1 := accepts_of_eq e1 ha
  rcases hr with rfl | ⟨c, q, rfl, hc⟩
  · exact absurd ha1 (not_accepts_nil (eof_skips _ rfl rfl))
  obtain ⟨t, p', s1, twf, tren, th, tve, thead, _, tsc⟩ :=
    (complete_all (c :: q).length).1 q c Step.stateBeginValue [] (le_refl _) (Nat.zero_le _)
      (Or.inl rfl) hc (by intro h; cases h) ha1
  have htr := trailing_space p' s1 tve thead (accepts_of_eq tsc ha1)
  refine ⟨t, lead, p', twf, ?_, hl, htr, ?_⟩
  · simpa using th
  · rw [tren, List.append_assoc]

/-! ## C5: a response that is JSON -/

theorem run_stdout_of_ok (w : World) (f : Flags) (name payload : List Char)
    (out : InvokeOutput) (h : (run w f).invoked = some (name, payload))
    (hinv : w.invoke name payload = .ok out) (hfe : out.FunctionError = none) :
    (run w f).stdout = formatResponse out.Payload ∧ (run w f).exitCode = 0 := by
  obtain ⟨pre, hrun, hc⟩ := run_invoked w f name payload h
  rw [hrun]
  unfold invokeAndPrint
  simp only [hc, hinv, hfe, and_self]

/-- C5: when the program has invoked the function and the call returned,
without function error, a payload that is valid JSON (`json.Valid`), then the
payload is the text of a JSON value `t` (a tree of scalars, arrays and objects
nested at most `maxNestingDepth` deep) with white space around and between its
tokens, the text written to standard output is `t.pretty 0` (the same scalars
and keys, every element and member on its own line, indented by two spaces per
nesting level, no line prefix, `: ` after a key), followed by the trailing
white space of the payload and a newline, the program exits with code 0, and
the printed text is valid JSON with the same compact form as the payload, so
it denotes the same JSON value.  Conversely every such text of a JSON value
is valid and is printed in this way. -/
theorem valid_response_pretty_printed (w : World) (f : Flags) (name payload : List Char)
    (out : InvokeOutput) (h : (run w f).invoked = some (name, payload))
    (hinv : w.invoke name payload = .ok out) (hfe : out.FunctionError = none) :
    (Valid out.Payload = true →
      ∃ (t : JSONText) (lead trail : List Char), t.wf = true ∧
        t.height ≤ maxNestingDepth ∧ allSpaceJSON lead = true ∧ allSpaceJSON trail = true ∧
        out.Payload = lead ++ t.render ++ trail ∧
        (run w f).stdout = t.pretty 0 ++ trail ++ ['\n'] ∧ (run w f).exitCode = 0 ∧
        Valid (t.pretty 0 ++ trail) = true ∧
        Compact (t.pretty 0 ++ trail) = Compact out.Payload ∧
        (Compact out.Payload).isSome = true) ∧
    (∀ (t : JSONText) (lead trail : List Char), t.wf = true → t.height ≤ maxNestingDepth →
      allSpaceJSON lead = true → allSpaceJSON trail = true →
      out.Payload = lead ++ t.render ++ trail →
      Valid out.Payload = true ∧ (run w f).stdout = t.pretty 0 ++ trail ++ ['\n']) := by
  obtain ⟨hout, hcode⟩ := run_stdout_of_ok w f name payload out h hinv hfe
  constructor
  · intro hok
    obtain ⟨t, lead, trail, hw, hh, hl, htr, hp⟩ := Valid_render out.Payload hok
    have hI := Indent_render t lead trail hw hh hl htr
    rw [← hp] at hI
    obtain ⟨h1, h2, h3⟩ := Indent_compact out.Payload [] "  ".toList _ rfl rfl hI
    refine ⟨t, lead, trail, hw, hh, hl, htr, hp, ?_, hcode, h1, h2.symm, h3⟩
    rw [hout]
    simp only [formatResponse, hI]
  · intro t lead trail hw hh hl htr hp
    have hI := Indent_render t lead trail hw hh hl htr
    rw [← hp] at hI
    have hv : Valid out.Payload = true := by
      rw [← Indent_isSome out.Payload [] "  ".toList, hI]; rfl
    refine ⟨hv, ?_⟩
    rw [hout]
    simp only [formatResponse, hI]

/-- Witness of C5: the response `{"ok":true}` is printed on the three lines
`{`, `  "ok": true` and `}`. -/
theorem valid_response_pretty_printed_witness :
    (run exampleWorld (Flags.defaults ["f".toList])).stdout =
      "\x7b\n  \"ok\": true\n\x7d\n".toList :=
  ((valid_response_pretty_printed exampleWorld (Flags.defaults ["f".toList]) "f".toList
    (Marshal (buildRequest exampleWorld.upperTable exampleWorld.version exampleWorld.uuid
      (Flags.defaults ["f".toList])))
    { StatusCode := 200, FunctionError := none, Payload := "\x7b\"ok\":true\x7d".toList }
    (by decide) rfl rfl).2
    (JSONText.object [] (Members.cons "\"ok\"".toList [] [] (JSONText.scalar "true".toList)
      [] [] Members.nil)) [] [] (by decide) (by decide) rfl rfl (by decide)).2

end Bedlamb
